import Mathlib

/-!
# Queue operations of `queue.c` over an explicit heap

The program manipulates a circular doubly-linked list with a sentinel.  The
embedding keeps the pointer structure: a `Heap` maps node addresses to their
`next` / `prev` links and entry addresses to their payload bytes, and every
function of `queue.c` becomes a heap transformer.  Address `0` is the null
pointer.  An entry and the node embedded in it share one address (the fixed
`container_of` offset is abstracted away).
-/

namespace Queue

/-! ## Memory -/

/-- Program memory: link fields of nodes, payload bytes of entries, the
allocation frontier and the record of the calls to `free`. -/
@[ext]
structure Heap where
  next : Nat → Nat
  prev : Nat → Nat
  value : Nat → List Nat
  brk : Nat
  freedValues : List Nat
  freedEntries : List Nat

/-- Outcome of running a function of the program: it returned, or it
dereferenced a null pointer, or it touched an entry it had released (a read or
a write through a pointer to it, or a second `free`), or the loop bound of the
model was used up. -/
inductive Outcome (α : Type) where
  | done (a : α)
  | nullDeref
  | useAfterFree
  | outOfFuel
  deriving DecidableEq, Repr

/-- Store `v` into `a->next`. -/
def setNext (st : Heap) (a v : Nat) : Heap :=
  { st with next := fun x => if x = a then v else st.next x }

/-- Store `v` into `a->prev`. -/
def setPrev (st : Heap) (a v : Nat) : Heap :=
  { st with prev := fun x => if x = a then v else st.prev x }

/-- The memory before any allocation: address 0 is reserved for NULL. -/
def Heap.empty : Heap :=
  { next := fun _ => 0, prev := fun _ => 0, value := fun _ => [], brk := 1,
    freedValues := [], freedEntries := [] }

/-- The call `malloc(...)`: a fresh address when it succeeds (`ok`), NULL otherwise. -/
def malloc (st : Heap) (ok : Bool) : Nat × Heap :=
  if ok then (st.brk, { st with brk := st.brk + 1 }) else (0, st)

/-- The pair `free(e->value); free(e);` releasing an entry: both releases are
recorded.  A call that goes on to touch an entry it has released does not
return: see `deleteEntry`, which keeps the entries the running call has
released. -/
def freeEntry (st : Heap) (e : Nat) : Heap :=
  { st with freedValues := st.freedValues ++ [e], freedEntries := st.freedEntries ++ [e] }

/-! ## List primitives (`list.h`) -/

/-- Modelled from the spec: `list.h` is not among the sources. `init(sentinel)`
sets the sentinel's links to itself. -/
def INIT_LIST_HEAD (st : Heap) (head : Nat) : Heap :=
  setPrev (setNext st head head) head head

/-- Modelled from the spec: `list.h` is not among the sources. `is_empty` is
true iff `sentinel.next == sentinel`. -/
def list_empty (st : Heap) (head : Nat) : Bool :=
  decide (st.next head = head)

/-- Modelled from the spec: `list.h` is not among the sources. `is_singular` is
`next != sentinel && next.next == sentinel`. -/
def list_is_singular (st : Heap) (head : Nat) : Bool :=
  decide (st.next head ≠ head) && decide (st.next (st.next head) = head)

/-- Modelled from the spec: `list.h` is not among the sources. `link_after(new_node,
anchor)` rewires four pointers to insert `node` right after `head`. -/
def list_add (st : Heap) (node head : Nat) : Heap :=
  let next := st.next head
  let st := setPrev st next node
  let st := setNext st node next
  let st := setPrev st node head
  setNext st head node

/-- Modelled from the spec: `list.h` is not among the sources. `link_before(new_node,
anchor)` rewires four pointers to insert `node` right before `head`. -/
def list_add_tail (st : Heap) (node head : Nat) : Heap :=
  let prev := st.prev head
  let st := setNext st prev node
  let st := setNext st node head
  let st := setPrev st node prev
  setPrev st head node

/-- Modelled from the spec: `list.h` is not among the sources. `unlink(node)`
connects the neighbours of `node` directly and does not reset the links of
`node` itself. -/
def list_del (st : Heap) (node : Nat) : Heap :=
  let next := st.next node
  let prev := st.prev node
  let st := setPrev st next prev
  setNext st prev next

/-- Modelled from the spec: `list.h` is not among the sources. `splice_tail(src,
dst)` moves the contents of `list` to the end of `head` by re-pointing four
boundary links, leaving `list` empty. -/
def list_splice_tail (st : Heap) (list head : Nat) : Heap :=
  let head_last := st.prev head
  let list_first := st.next list
  let list_last := st.prev list
  if list_empty st list then st
  else
    let st := setPrev st head list_last
    let st := setNext st list_last head
    let st := setPrev st list_first head_last
    let st := setNext st head_last list_first
    INIT_LIST_HEAD st list

/-- Modelled from the spec: `list.h` is not among the sources. `cut_position(dst,
src, pivot)` moves everything from the first element of `head_from` up to and
including `node` to `head_to`; the rest stays in `head_from`. -/
def list_cut_position (st : Heap) (head_to head_from node : Nat) : Heap :=
  let head_from_first := st.next head_from
  if list_empty st head_from then st
  else if head_from = node then INIT_LIST_HEAD st head_to
  else
    let st := setNext st head_from (st.next node)
    let st := setPrev st (st.next head_from) head_from
    let st := setPrev st head_to node
    let st := setNext st node head_to
    let st := setNext st head_to head_from_first
    setPrev st (st.next head_to) head_to

/-! ## Strings -/

/-- Bytes of the C string starting at `s`: everything before the first NUL. -/
def cstr (s : List Nat) : List Nat :=
  s.takeWhile (fun b => decide (b ≠ 0))

/-- The library call `strlen(s)`. -/
def strlen (s : List Nat) : Nat :=
  (cstr s).length

/-- The library call `strcmp(a, b)` on the payload bytes (the terminating NUL
is implicit): the difference of the first pair of bytes that differ. -/
def strcmp : List Nat → List Nat → Int
  | [], [] => 0
  | [], b :: _ => 0 - (b : Int)
  | a :: _, [] => (a : Int)
  | a :: as, b :: bs => if a = b then strcmp as bs else (a : Int) - (b : Int)

/-- Byte `i` of the block `e->value`, which holds the payload and its
terminating NUL (`len + 1` allocated bytes); `none` outside the block. -/
def valueByte (st : Heap) (e i : Nat) : Option Nat :=
  if i < (st.value e).length then some ((st.value e).getD i 0)
  else if i = (st.value e).length then some 0
  else none

/-- The bytes read at the indices `is` of a source block; `none` when one of
the indices lies outside the block. -/
def readBytes (src : Nat → Option Nat) : List Nat → Option (List Nat)
  | [] => some []
  | i :: is =>
    match src i, readBytes src is with
    | some b, some bs => some (b :: bs)
    | _, _ => none

/-- The library call `memcpy(dst, src, n)` on a destination given by its
current bytes: bytes `0 .. n-1` of the source are stored at `0 .. n-1`.  There
is no result when a byte to write lies outside the destination or a byte to
read outside the source block. -/
def memcpy (dst : List Nat) (src : Nat → Option Nat) (n : Nat) : Option (List Nat) :=
  if n ≤ dst.length then
    (readBytes src (List.range n)).map (fun bytes => bytes ++ dst.drop n)
  else none

/-- The value of `bufsize - 1` in `size_t` arithmetic. -/
def sizePred (bufsize : Nat) : Nat :=
  (bufsize + 2 ^ 64 - 1) % 2 ^ 64

/-! ## Queue operations (`queue.c`) -/

/-- `q_new`: allocate a sentinel and initialise it. -/
def q_new (st : Heap) (ok : Bool) : Nat × Heap :=
  let r := malloc st ok
  if r.1 = 0 then (0, r.2) else (r.1, INIT_LIST_HEAD r.2 r.1)

/-- `q_insert_head`: `okElm` / `okVal` tell whether the two allocations succeed. -/
def q_insert_head (st : Heap) (head : Nat) (s : List Nat) (okElm okVal : Bool) : Bool × Heap :=
  if head = 0 then (false, st)
  else
    let r := malloc st okElm
    let elm := r.1
    let st := r.2
    if elm = 0 then (false, st)
    else if okVal = false then
      (false, { st with freedEntries := st.freedEntries ++ [elm] })
    else
      let st := { st with value := fun x => if x = elm then cstr s else st.value x }
      (true, list_add st elm head)

/-- `q_insert_tail`: `okElm` / `okVal` tell whether the two allocations succeed. -/
def q_insert_tail (st : Heap) (head : Nat) (s : List Nat) (okElm okVal : Bool) : Bool × Heap :=
  if head = 0 then (false, st)
  else
    let r := malloc st okElm
    let elm := r.1
    let st := r.2
    if elm = 0 then (false, st)
    else if okVal = false then
      (false, { st with freedEntries := st.freedEntries ++ [elm] })
    else
      let st := { st with value := fun x => if x = elm then cstr s else st.value x }
      (true, list_add_tail st elm head)

/-- What a removal hands back: the returned entry (`none` for NULL), the
memory, the output buffer (`none` when `sp` is NULL), the indices the copy
reads in the payload block and writes in the buffer, and whether one of these
accesses lies outside the payload block or the buffer (`fault`).  With `fault`
set the copy has no defined result, and `buf` is the buffer as it was passed. -/
structure Removed where
  elm : Option Nat
  heap : Heap
  buf : Option (List Nat)
  reads : List Nat
  writes : List Nat
  fault : Bool

/-- The bytes of the buffer after `memcpy(sp, elm->value, bufsize);
sp[bufsize - 1] = 0;`; `none` when the copy or the store leaves the payload
block or the buffer. -/
def copiedBytes (st : Heap) (elm : Nat) (buf : List Nat) (bufsize : Nat) :
    Option (List Nat) :=
  match memcpy buf (valueByte st elm) bufsize with
  | some b => if sizePred bufsize < b.length then some (b.set (sizePred bufsize) 0) else none
  | none => none

/-- The block `if (sp) { memcpy(sp, elm->value, bufsize); sp[bufsize - 1] = 0; }`. -/
def copyOut (st : Heap) (elm : Nat) (sp : Option (List Nat)) (bufsize : Nat) : Removed :=
  match sp with
  | none =>
    { elm := some elm, heap := st, buf := none, reads := [], writes := [], fault := false }
  | some buf =>
    { elm := some elm, heap := st,
      buf := some ((copiedBytes st elm buf bufsize).getD buf),
      reads := List.range bufsize,
      writes := List.range bufsize ++ [sizePred bufsize],
      fault := (copiedBytes st elm buf bufsize).isNone }

/-- `q_remove_head`; `list_first_entry (head, element_t, list)` is the entry that
embeds `head->next`. -/
def q_remove_head (st : Heap) (head : Nat) (sp : Option (List Nat)) (bufsize : Nat) : Removed :=
  if head = 0 ∨ list_empty st head = true then
    { elm := none, heap := st, buf := sp, reads := [], writes := [], fault := false }
  else
    let elm := st.next head
    let st := setPrev st (st.next (st.next head)) head
    let st := setNext st head (st.next (st.next head))
    copyOut st elm sp bufsize

/-- `q_remove_tail`; `list_last_entry (head, element_t, list)` is the entry that
embeds `head->prev`. -/
def q_remove_tail (st : Heap) (head : Nat) (sp : Option (List Nat)) (bufsize : Nat) : Removed :=
  if head = 0 ∨ list_empty st head = true then
    { elm := none, heap := st, buf := sp, reads := [], writes := [], fault := false }
  else
    let elm := st.prev head
    let st := setNext st (st.prev (st.prev head)) head
    let st := setPrev st head (st.prev (st.prev head))
    copyOut st elm sp bufsize

/-- `q_size`: the body is `return -1;`. -/
def q_size (_st : Heap) (_head : Nat) : Int :=
  -1

/-- The `for` loop of `q_delete_mid`: `slow` moves one node, `fast` two. -/
def midLoop (st : Heap) (head : Nat) : Nat → Nat → Nat → Outcome Nat
  | 0, _, _ => Outcome.outOfFuel
  | fuel + 1, slow, fast =>
    if fast ≠ head ∧ st.next fast ≠ head then
      midLoop st head fuel (st.next slow) (st.next (st.next fast))
    else Outcome.done slow

/-- `q_delete_mid`: after the loop the node is unlinked by two stores, unlinked
again by `list_del`, and its entry released. -/
def q_delete_mid (fuel : Nat) (st : Heap) (head : Nat) : Outcome (Bool × Heap) :=
  if head = 0 ∨ list_empty st head = true then Outcome.done (false, st)
  else
    match midLoop st head fuel (st.next head) (st.next head) with
    | Outcome.done slow =>
      let st := setNext st (st.prev slow) (st.next slow)
      let st := setPrev st (st.next slow) (st.prev slow)
      let st := list_del st slow
      Outcome.done (true, freeEntry st slow)
    | Outcome.nullDeref => Outcome.nullDeref
    | Outcome.useAfterFree => Outcome.useAfterFree
    | Outcome.outOfFuel => Outcome.outOfFuel

/-- The block `list_del(node); free(del->value); free(del);` of `q_delete_dup`,
given the entries `rel` the running call has released: on one of them
`list_del` reads the links of a released entry and `free` releases it again,
and the call does not return; otherwise the entry is unlinked, released, and
added to `rel`. -/
def deleteEntry (st : Heap) (rel : List Nat) (node : Nat) : Outcome (Heap × List Nat) :=
  if node ∈ rel then Outcome.useAfterFree
  else Outcome.done (freeEntry (list_del st node) node, node :: rel)

/-- Body of the loop of `q_delete_dup` for the node `node`: the leading
`list_del(node)`, the block under the comparison, which sets `has_dup`, and the
block under `if (has_dup)`, which runs in the same turn.  The flag `has_dup`
and the entries `rel` released so far are threaded through; every
`list_del(node)` reads the links of `node`, so that the call does not return
once `node` is among the released entries. -/
def dupBody (st : Heap) (rel : List Nat) (head node : Nat) (has_dup : Bool) :
    Outcome (Heap × List Nat × Bool) :=
  if node ∈ rel then Outcome.useAfterFree
  else
    let st := list_del st node
    let first : Outcome (Heap × List Nat × Bool) :=
      if st.next node ≠ head ∧ strcmp (st.value node) (st.value (st.next node)) = 0 then
        match deleteEntry st rel node with
        | Outcome.done r => Outcome.done (r.1, r.2, true)
        | Outcome.nullDeref => Outcome.nullDeref
        | Outcome.useAfterFree => Outcome.useAfterFree
        | Outcome.outOfFuel => Outcome.outOfFuel
      else Outcome.done (st, rel, has_dup)
    match first with
    | Outcome.done r =>
      if r.2.2 = true then
        match deleteEntry r.1 r.2.1 node with
        | Outcome.done q => Outcome.done (q.1, q.2, false)
        | Outcome.nullDeref => Outcome.nullDeref
        | Outcome.useAfterFree => Outcome.useAfterFree
        | Outcome.outOfFuel => Outcome.outOfFuel
      else Outcome.done r
    | Outcome.nullDeref => Outcome.nullDeref
    | Outcome.useAfterFree => Outcome.useAfterFree
    | Outcome.outOfFuel => Outcome.outOfFuel

/-- The `list_for_each_safe (node, tmp, head)` loop of `q_delete_dup`.  The macro
of `list.h` (not among the sources) is taken as `for (node = head->next, tmp =
node->next; node != head; node = tmp, tmp = node->next)`. -/
def dupLoop (head : Nat) : Nat → Heap → List Nat → Nat → Nat → Bool → Outcome Heap
  | 0, _, _, _, _, _ => Outcome.outOfFuel
  | fuel + 1, st, rel, node, tmp, has_dup =>
    if node = head then Outcome.done st
    else
      match dupBody st rel head node has_dup with
      | Outcome.done r => dupLoop head fuel r.1 r.2.1 tmp (r.1.next tmp) r.2.2
      | Outcome.nullDeref => Outcome.nullDeref
      | Outcome.useAfterFree => Outcome.useAfterFree
      | Outcome.outOfFuel => Outcome.outOfFuel

/-- `q_delete_dup`: returns false on a null list, true after the loop; the call
starts with no entry released by it. -/
def q_delete_dup (fuel : Nat) (st : Heap) (head : Nat) : Outcome (Bool × Heap) :=
  if head = 0 then Outcome.done (false, st)
  else
    match dupLoop head fuel st [] (st.next head) (st.next (st.next head)) false with
    | Outcome.done st => Outcome.done (true, st)
    | Outcome.nullDeref => Outcome.nullDeref
    | Outcome.useAfterFree => Outcome.useAfterFree
    | Outcome.outOfFuel => Outcome.outOfFuel

/-- The `list_for_each (node, head)` loop of `q_swap`.  The macro of `list.h` (not
among the sources) is taken as `for (node = head->next; node != head; node =
node->next)`. -/
def swapLoop (head : Nat) : Nat → Heap → Nat → Outcome Heap
  | 0, _, _ => Outcome.outOfFuel
  | fuel + 1, st, node =>
    if node = head then Outcome.done st
    else if st.next node = head then Outcome.done st
    else
      let tmp := st.next node
      let st := list_del st node
      let st := list_add st node tmp
      swapLoop head fuel st (st.next node)

/-- `q_swap`: the loop header reads `head->next` without a null check. -/
def q_swap (fuel : Nat) (st : Heap) (head : Nat) : Outcome Heap :=
  if head = 0 then Outcome.nullDeref else swapLoop head fuel st (st.next head)

/-- The `list_for_each_safe (node, tmp, head)` loop of `q_reverse`, with the macro
read as in `dupLoop`. -/
def reverseLoop (head : Nat) : Nat → Heap → Nat → Nat → Outcome Heap
  | 0, _, _, _ => Outcome.outOfFuel
  | fuel + 1, st, node, tmp =>
    if node = head then Outcome.done st
    else
      let prev := st.prev node
      let st := setPrev st node (st.next node)
      let st := setNext st node prev
      reverseLoop head fuel st tmp (st.next tmp)

/-- `q_reverse`: the loop header reads `head->next` without a null check. -/
def q_reverse (fuel : Nat) (st : Heap) (head : Nat) : Outcome Heap :=
  if head = 0 then Outcome.nullDeref
  else
    match reverseLoop head fuel st (st.next head) (st.next (st.next head)) with
    | Outcome.done st =>
      let tmp := st.next head
      let st := setNext st head (st.prev head)
      Outcome.done (setPrev st head tmp)
    | Outcome.nullDeref => Outcome.nullDeref
    | Outcome.useAfterFree => Outcome.useAfterFree
    | Outcome.outOfFuel => Outcome.outOfFuel

/-- The `while` loop of `merge`. -/
def mergeLoop (head_a head_b sorted : Nat) : Nat → Heap → Outcome Heap
  | 0, _ => Outcome.outOfFuel
  | fuel + 1, st =>
    if list_empty st head_a = false ∧ list_empty st head_b = false then
      let lv := st.value (st.next head_a)
      let rv := st.value (st.next head_b)
      let tmp := if strcmp lv rv ≤ 0 then st.next head_a else st.next head_b
      let st := list_del st tmp
      let st := list_add_tail st tmp sorted
      mergeLoop head_a head_b sorted fuel st
    else Outcome.done st

/-- `merge`: both early exits, the loop, and the final splice of the side that
is left. -/
def merge (fuel : Nat) (st : Heap) (head_a head_b sorted : Nat) : Outcome Heap :=
  if list_empty st head_a = true then Outcome.done (list_splice_tail st head_b sorted)
  else if list_empty st head_b = true then Outcome.done (list_splice_tail st head_a sorted)
  else
    match mergeLoop head_a head_b sorted fuel st with
    | Outcome.done st =>
      Outcome.done
        (list_splice_tail st (if list_empty st head_a = true then head_b else head_a) sorted)
    | Outcome.nullDeref => Outcome.nullDeref
    | Outcome.useAfterFree => Outcome.useAfterFree
    | Outcome.outOfFuel => Outcome.outOfFuel

/-- The `list_for_each (slow, head)` loop of `merge_sort_list`, with the macro read
as in `swapLoop`; returns `slow`. -/
def splitLoop (st : Heap) (head : Nat) : Nat → Nat → Nat → Outcome Nat
  | 0, _, _ => Outcome.outOfFuel
  | fuel + 1, slow, fast =>
    if slow = head then Outcome.done slow
    else if st.next fast = head ∨ st.next (st.next fast) = head then Outcome.done slow
    else splitLoop st head fuel (st.next slow) (st.next (st.next fast))

/-- `merge_sort_list`: the two local sentinels `sorted` and `left` get fresh
addresses; `fuel` bounds both the recursion depth and every loop. -/
def merge_sort_list : Nat → Heap → Nat → Outcome Heap
  | 0, _, _ => Outcome.outOfFuel
  | fuel + 1, st, head =>
    if head = 0 then Outcome.nullDeref
    else if list_empty st head = true ∨ list_is_singular st head = true then Outcome.done st
    else
      match splitLoop st head (fuel + 1) (st.next head) (st.next head) with
      | Outcome.done slow =>
        let sorted := st.brk
        let left := st.brk + 1
        let st := { st with brk := st.brk + 2 }
        let st := INIT_LIST_HEAD st sorted
        let st := INIT_LIST_HEAD st left
        let st := list_cut_position st left head slow
        match merge_sort_list fuel st left with
        | Outcome.done st =>
          match merge_sort_list fuel st head with
          | Outcome.done st =>
            match merge (fuel + 1) st left head sorted with
            | Outcome.done st =>
              let st := INIT_LIST_HEAD st head
              Outcome.done (list_splice_tail st sorted head)
            | Outcome.nullDeref => Outcome.nullDeref
            | Outcome.useAfterFree => Outcome.useAfterFree
            | Outcome.outOfFuel => Outcome.outOfFuel
          | Outcome.nullDeref => Outcome.nullDeref
          | Outcome.useAfterFree => Outcome.useAfterFree
          | Outcome.outOfFuel => Outcome.outOfFuel
        | Outcome.nullDeref => Outcome.nullDeref
        | Outcome.useAfterFree => Outcome.useAfterFree
        | Outcome.outOfFuel => Outcome.outOfFuel
      | Outcome.nullDeref => Outcome.nullDeref
      | Outcome.useAfterFree => Outcome.useAfterFree
      | Outcome.outOfFuel => Outcome.outOfFuel

/-- `q_sort`: `if (!head || q_size(head) < 2) return; merge_sort_list(head);`. -/
def q_sort (fuel : Nat) (st : Heap) (head : Nat) : Outcome Heap :=
  if head = 0 ∨ q_size st head < 2 then Outcome.done st
  else merge_sort_list fuel st head

/-! ## Reading a list back -/

/-- Follow `next` from `node` until `head` comes up, collecting the nodes met. -/
def walk (nx : Nat → Nat) (head : Nat) : Nat → Nat → Option (List Nat)
  | 0, _ => none
  | fuel + 1, node =>
    if node = head then some []
    else (walk nx head fuel (nx node)).map (fun l => node :: l)

/-- Forward traversal of the list anchored at `head`: its nodes, first to last. -/
def traverse (st : Heap) (head : Nat) (fuel : Nat) : Option (List Nat) :=
  walk st.next head fuel (st.next head)

/-- Payloads met by the forward traversal. -/
def contents (st : Heap) (head : Nat) (fuel : Nat) : Option (List (List Nat)) :=
  (traverse st head fuel).map (fun l => l.map st.value)

/-- The nodes `xs` are linked in this order between `a` and `z`: each node's
`next` is its successor and each successor's `prev` points back. -/
def Chain (nx pv : Nat → Nat) : Nat → List Nat → Nat → Prop
  | a, [], z => nx a = z ∧ pv z = a
  | a, x :: xs, z => nx a = x ∧ pv x = a ∧ Chain nx pv x xs z

/-- Deciding `Chain` link by link. -/
def Chain.dec (nx pv : Nat → Nat) : (a : Nat) → (xs : List Nat) → (z : Nat) →
    Decidable (Chain nx pv a xs z)
  | a, [], z => inferInstanceAs (Decidable (nx a = z ∧ pv z = a))
  | a, x :: xs, z =>
    have : Decidable (Chain nx pv x xs z) := Chain.dec nx pv x xs z
    inferInstanceAs (Decidable (nx a = x ∧ pv x = a ∧ Chain nx pv x xs z))

instance (nx pv : Nat → Nat) (a : Nat) (xs : List Nat) (z : Nat) :
    Decidable (Chain nx pv a xs z) :=
  Chain.dec nx pv a xs z

/-- Well-formed list: the sentinel `head` (not null) and the pairwise distinct
nodes `xs` form one ring, closed in both directions. -/
def IsList (st : Heap) (head : Nat) (xs : List Nat) : Prop :=
  head ≠ 0 ∧ (head :: xs).Nodup ∧ Chain st.next st.prev head xs head

instance (st : Heap) (head : Nat) (xs : List Nat) : Decidable (IsList st head xs) :=
  inferInstanceAs (Decidable (_ ∧ _ ∧ _))

/-- Links of the nodes `ys` exchanged (`next` with `prev`), all else as in `st`. -/
def swapLinks (st : Heap) (ys : List Nat) : Heap :=
  { st with
    next := fun x => if x ∈ ys then st.prev x else st.next x
    prev := fun x => if x ∈ ys then st.next x else st.prev x }

/-- Following `next` from `node` meets exactly the nodes `ys` and then `head`. -/
def NextPath (nx : Nat → Nat) (head : Nat) : Nat → List Nat → Prop
  | node, [] => node = head
  | node, y :: ys => node = y ∧ NextPath nx head (nx y) ys

/-- Exchange of adjacent pairs on a sequence; an odd last element stays. -/
def swapPairs : List Nat → List Nat
  | x :: y :: rest => y :: x :: swapPairs rest
  | l => l

/-- The queue built by `q_new` followed by one `q_insert_tail` per payload, all
allocations succeeding; the sentinel is at address 1. -/
def build (ps : List (List Nat)) : Heap :=
  ps.foldl (fun st p => (q_insert_tail st 1 p true true).2) (q_new Heap.empty true).2

/-- A further queue built in the memory `st` by `q_new` followed by one
`q_insert_tail` per payload; returns its sentinel and the memory. -/
def buildAt (st : Heap) (ps : List (List Nat)) : Nat × Heap :=
  let q := q_new st true
  (q.1, ps.foldl (fun s p => (q_insert_tail s q.1 p true true).2) q.2)

/-- Three queues in one memory: one per payload list, then an empty one.  With
two payloads each, the sentinels are 1, 4 and 7 and the nodes 2, 3 and 5, 6. -/
def buildThree (ps qs : List (List Nat)) : Heap :=
  (buildAt (buildAt (buildAt Heap.empty ps).2 qs).2 []).2

/-- Payloads left in the list at `head` by a run that returned a memory. -/
def heapContents (o : Outcome Heap) (head fuel : Nat) : Option (List (List Nat)) :=
  match o with
  | Outcome.done st => contents st head fuel
  | Outcome.nullDeref => none
  | Outcome.useAfterFree => none
  | Outcome.outOfFuel => none

/-- Returned flag and the payloads left in the list at `head` by a run that
returned a flag and a memory. -/
def flagContents (o : Outcome (Bool × Heap)) (head fuel : Nat) :
    Option (Bool × List (List Nat)) :=
  match o with
  | Outcome.done r => (contents r.2 head fuel).map (fun l => (r.1, l))
  | Outcome.nullDeref => none
  | Outcome.useAfterFree => none
  | Outcome.outOfFuel => none

/-- No payload compares equal (`strcmp` 0) to its successor. -/
def NoEqualNeighbours : List (List Nat) → Prop
  | [] => True
  | [_] => True
  | a :: b :: rest => strcmp a b ≠ 0 ∧ NoEqualNeighbours (b :: rest)

/-- Deciding `NoEqualNeighbours` pair by pair. -/
def NoEqualNeighbours.dec : (ps : List (List Nat)) → Decidable (NoEqualNeighbours ps)
  | [] => isTrue trivial
  | [_] => isTrue trivial
  | a :: b :: rest =>
    have : Decidable (NoEqualNeighbours (b :: rest)) := NoEqualNeighbours.dec (b :: rest)
    inferInstanceAs (Decidable (strcmp a b ≠ 0 ∧ NoEqualNeighbours (b :: rest)))

instance (ps : List (List Nat)) : Decidable (NoEqualNeighbours ps) :=
  NoEqualNeighbours.dec ps

/-- Payloads in non-decreasing order under `strcmp`: no payload compares
greater than its successor. -/
def NonDecreasing : List (List Nat) → Prop
  | [] => True
  | [_] => True
  | a :: b :: rest => strcmp a b ≤ 0 ∧ NonDecreasing (b :: rest)

/-- Deciding `NonDecreasing` pair by pair. -/
def NonDecreasing.dec : (ps : List (List Nat)) → Decidable (NonDecreasing ps)
  | [] => isTrue trivial
  | [_] => isTrue trivial
  | a :: b :: rest =>
    have : Decidable (NonDecreasing (b :: rest)) := NonDecreasing.dec (b :: rest)
    inferInstanceAs (Decidable (strcmp a b ≤ 0 ∧ NonDecreasing (b :: rest)))

instance (ps : List (List Nat)) : Decidable (NonDecreasing ps) :=
  NonDecreasing.dec ps

/-- The buffer `out` of capacity `c` holds the payload `p` cut to `c - 1`
bytes: the first `min len (c-1)` bytes of `p`, then a NUL; read as a C string
it is `p` cut to `c - 1` bytes (for a payload without NUL bytes). -/
def HoldsTruncated (p : List Nat) (c : Nat) (out : List Nat) : Prop :=
  out.length = c ∧
    out.take (min p.length (c - 1)) = p.take (min p.length (c - 1)) ∧
    out[min p.length (c - 1)]? = some 0 ∧
    (0 ∉ p → cstr out = p.take (c - 1))

/-! ## Operation sequences and the reference deque -/

/-- One call on the queue: an insertion with its string, or a removal with
its output buffer (`none` for a NULL `sp`) and `bufsize`. -/
inductive Op where
  | insertHead (s : List Nat)
  | insertTail (s : List Nat)
  | removeHead (sp : Option (List Nat)) (bufsize : Nat)
  | removeTail (sp : Option (List Nat)) (bufsize : Nat)

/-- What a call answers: the flag of an insertion, or the payload of the entry
a removal returns (`none` when it returns NULL). -/
inductive Reply where
  | inserted (ok : Bool)
  | removed (payload : Option (List Nat))
  deriving DecidableEq, Repr

/-- One call of `queue.c` on the queue at `head`, allocations succeeding. -/
def stepQueue (head : Nat) (st : Heap) : Op → Heap × Reply
  | Op.insertHead s =>
    let r := q_insert_head st head s true true
    (r.2, Reply.inserted r.1)
  | Op.insertTail s =>
    let r := q_insert_tail st head s true true
    (r.2, Reply.inserted r.1)
  | Op.removeHead sp bufsize =>
    let r := q_remove_head st head sp bufsize
    (r.heap, Reply.removed (r.elm.map r.heap.value))
  | Op.removeTail sp bufsize =>
    let r := q_remove_tail st head sp bufsize
    (r.heap, Reply.removed (r.elm.map r.heap.value))

/-- Reference double-ended sequence of the specification: push-front,
push-back, pop-front and pop-back on a plain sequence of payloads. -/
def stepDeque (d : List (List Nat)) : Op → List (List Nat) × Reply
  | Op.insertHead s => (cstr s :: d, Reply.inserted true)
  | Op.insertTail s => (d ++ [cstr s], Reply.inserted true)
  | Op.removeHead _ _ => (d.tail, Reply.removed d.head?)
  | Op.removeTail _ _ => (d.dropLast, Reply.removed d.getLast?)

/-- The queue at `head` holds the nodes `xs`, their payloads are the deque
`d`, and every node in use lies below the allocation frontier. -/
def Represents (st : Heap) (head : Nat) (xs : List Nat) (d : List (List Nat)) : Prop :=
  IsList st head xs ∧ xs.map st.value = d ∧ ∀ x ∈ head :: xs, x < st.brk

/-- Ring closure at the nodes `nodes`: `n->next->prev == n` and
`n->prev->next == n` for each of them. -/
def RingClosed (st : Heap) (nodes : List Nat) : Prop :=
  ∀ n ∈ nodes, st.prev (st.next n) = n ∧ st.next (st.prev n) = n

instance (st : Heap) (nodes : List Nat) : Decidable (RingClosed st nodes) :=
  inferInstanceAs (Decidable (∀ n ∈ nodes, _))

/-- The nodes reachable from the sentinel `head` are found by a traversal
within `fuel` steps, and the ring is closed at the sentinel and at each of
them. -/
def KeepsRing (st : Heap) (head fuel : Nat) : Prop :=
  ∃ xs, traverse st head fuel = some xs ∧ RingClosed st (head :: xs)

/-- The node sequence `merge` builds from two node sequences: at each step the
first node of the left one if its payload compares `<= 0` against the first of
the right one, else the first node of the right one; what is left of either
is appended. -/
def mergeNodes (val : Nat → List Nat) : List Nat → List Nat → List Nat
  | [], bs => bs
  | a :: as, [] => a :: as
  | a :: as, b :: bs =>
    if strcmp (val a) (val b) ≤ 0 then a :: mergeNodes val as (b :: bs)
    else b :: mergeNodes val (a :: as) bs
termination_by as bs => as.length + bs.length

/-- The node sequence `merge_sort_list` builds: a sequence of fewer than two
nodes as it is, else the merge of the sorted first `(n + 1) / 2` nodes and the
sorted rest. -/
def sortNodes (val : Nat → List Nat) (xs : List Nat) : List Nat :=
  if xs.length < 2 then xs
  else
    mergeNodes val (sortNodes val (xs.take ((xs.length + 1) / 2)))
      (sortNodes val (xs.drop ((xs.length + 1) / 2)))
termination_by xs.length
decreasing_by
  all_goals simp_wf
  all_goals omega

/-! ## Basic facts about stores and chains -/

@[simp] theorem setNext_next (st : Heap) (a v x : Nat) :
    (setNext st a v).next x = if x = a then v else st.next x := rfl

@[simp] theorem setNext_prev (st : Heap) (a v : Nat) : (setNext st a v).prev = st.prev := rfl

@[simp] theorem setPrev_prev (st : Heap) (a v x : Nat) :
    (setPrev st a v).prev x = if x = a then v else st.prev x := rfl

@[simp] theorem setPrev_next (st : Heap) (a v : Nat) : (setPrev st a v).next = st.next := rfl

@[simp] theorem setNext_value (st : Heap) (a v : Nat) : (setNext st a v).value = st.value := rfl

@[simp] theorem setPrev_value (st : Heap) (a v : Nat) : (setPrev st a v).value = st.value := rfl

@[simp] theorem setNext_brk (st : Heap) (a v : Nat) : (setNext st a v).brk = st.brk := rfl

@[simp] theorem setPrev_brk (st : Heap) (a v : Nat) : (setPrev st a v).brk = st.brk := rfl

@[simp] theorem setNext_freedEntries (st : Heap) (a v : Nat) :
    (setNext st a v).freedEntries = st.freedEntries := rfl

@[simp] theorem setPrev_freedEntries (st : Heap) (a v : Nat) :
    (setPrev st a v).freedEntries = st.freedEntries := rfl

@[simp] theorem setNext_freedValues (st : Heap) (a v : Nat) :
    (setNext st a v).freedValues = st.freedValues := rfl

@[simp] theorem setPrev_freedValues (st : Heap) (a v : Nat) :
    (setPrev st a v).freedValues = st.freedValues := rfl

theorem copyOut_elm (st : Heap) (e : Nat) (sp : Option (List Nat)) (n : Nat) :
    (copyOut st e sp n).elm = some e := by
  cases sp <;> rfl

theorem copyOut_heap (st : Heap) (e : Nat) (sp : Option (List Nat)) (n : Nat) :
    (copyOut st e sp n).heap = st := by
  cases sp <;> rfl

/-- A chain only depends on `next` at its nodes and their predecessor, and on
`prev` at its nodes and their successor. -/
theorem Chain.congr {nx pv nx' pv' : Nat → Nat} :
    ∀ (xs : List Nat) (a z : Nat), (∀ x ∈ a :: xs, nx x = nx' x) →
      (∀ x ∈ xs ++ [z], pv x = pv' x) → Chain nx pv a xs z → Chain nx' pv' a xs z
  | [], a, z, hn, hp, h => by
    simp only [Chain] at h ⊢
    rw [← hn a (by simp), ← hp z (by simp)]
    exact h
  | x :: xs, a, z, hn, hp, h => by
    simp only [Chain] at h ⊢
    refine ⟨by rw [← hn a (by simp)]; exact h.1, by rw [← hp x (by simp)]; exact h.2.1, ?_⟩
    refine Chain.congr xs x z (fun y hy => hn y ?_) (fun y hy => hp y ?_) h.2.2
    · exact List.mem_cons_of_mem _ hy
    · exact List.mem_cons_of_mem _ hy

/-- Splitting a chain at its last node. -/
theorem Chain.snoc {nx pv : Nat → Nat} (xs : List Nat) (y z : Nat) :
    ∀ a : Nat, Chain nx pv a (xs ++ [y]) z ↔ Chain nx pv a xs y ∧ nx y = z ∧ pv z = y := by
  induction xs with
  | nil => intro a; simp [Chain, and_assoc]
  | cons x xs ih =>
    intro a
    rw [List.cons_append]
    simp only [Chain, ih x, and_assoc]

/-- Read backwards, a chain is a chain of the exchanged links. -/
theorem Chain.reverse {nx pv : Nat → Nat} :
    ∀ (xs : List Nat) (a z : Nat), Chain nx pv a xs z → Chain pv nx z xs.reverse a
  | [], a, z, h => by
    simp only [Chain, List.reverse_nil] at h ⊢
    exact ⟨h.2, h.1⟩
  | x :: xs, a, z, h => by
    simp only [Chain] at h
    rw [List.reverse_cons, Chain.snoc]
    exact ⟨Chain.reverse xs x z h.2.2, h.2.1, h.1⟩

theorem Chain.next_mem {nx pv : Nat → Nat} {a z : Nat} {xs : List Nat}
    (h : Chain nx pv a xs z) : nx a ∈ xs ++ [z] := by
  cases xs with
  | nil => simp only [Chain] at h; simp [h.1]
  | cons x xs => simp only [Chain] at h; simp [h.1]

/-- The `prev` link of a node of a chain points into the part before it. -/
theorem Chain.prev_mem {nx pv : Nat → Nat} {m z : Nat} {post : List Nat} :
    ∀ (pre : List Nat) (a : Nat), Chain nx pv a (pre ++ m :: post) z → pv m ∈ a :: pre
  | [], a, h => by
    simp only [List.nil_append, Chain] at h
    simp [h.2.1]
  | x :: pre, a, h => by
    simp only [List.cons_append, Chain] at h
    exact List.mem_cons_of_mem _ (Chain.prev_mem pre x h.2.2)

/-- The `prev` link of the end of a chain points at its start or into it. -/
theorem Chain.last_prev_mem {nx pv : Nat → Nat} {z : Nat} :
    ∀ (xs : List Nat) (a : Nat), Chain nx pv a xs z → pv z ∈ a :: xs
  | [], a, h => by
    simp only [Chain] at h
    simp [h.2]
  | x :: xs, a, h => by
    simp only [Chain] at h
    exact List.mem_cons_of_mem _ (Chain.last_prev_mem xs x h.2.2)

/-- The part of a chain behind one of its nodes is a chain starting there. -/
theorem Chain.after {nx pv : Nat → Nat} {m z : Nat} {post : List Nat} :
    ∀ (pre : List Nat) (a : Nat), Chain nx pv a (pre ++ m :: post) z → Chain nx pv m post z
  | [], a, h => by
    simp only [List.nil_append, Chain] at h
    exact h.2.2
  | x :: pre, a, h => by
    simp only [List.cons_append, Chain] at h
    exact Chain.after pre x h.2.2

/-- Re-anchoring a chain at a new first predecessor. -/
theorem Chain.rehead {nx pv nx' pv' : Nat → Nat} {x y z : Nat} {rest : List Nat}
    (h : Chain nx pv y rest z) (h1 : nx' x = nx y) (h2 : pv' (nx y) = x)
    (hn : ∀ w ∈ rest, nx' w = nx w) (hp : ∀ w ∈ rest ++ [z], w ≠ nx y → pv' w = pv w)
    (hnd : rest.Nodup) (hz : z ∉ rest) :
    Chain nx' pv' x rest z := by
  cases rest with
  | nil =>
    simp only [Chain] at h ⊢
    rw [h1, ← h.1] 
    exact ⟨rfl, h2⟩
  | cons r rs =>
    simp only [Chain] at h ⊢
    obtain ⟨ha, hb, hc⟩ := h
    refine ⟨by rw [h1, ha], by rw [← ha]; exact h2, ?_⟩
    refine Chain.congr rs r z (fun w hw => (hn w hw).symm) (fun w hw => ?_) hc
    have hwr : w ≠ r := by
      intro e
      subst e
      rcases List.mem_append.mp hw with h' | h'
      · exact (List.nodup_cons.mp hnd).1 h'
      · simp at h'; subst h'; exact hz (by simp)
    exact (hp w (by simp at hw ⊢; tauto) (by rw [ha]; exact hwr)).symm

/-- Re-anchoring a chain at a new end. -/
theorem Chain.retail {nx pv nx' pv' : Nat → Nat} {a x y : Nat} {rest : List Nat}
    (h : Chain nx pv a rest y) (h1 : pv' x = pv y) (h2 : nx' (pv y) = x)
    (hp : ∀ w ∈ rest, pv' w = pv w) (hn : ∀ w ∈ a :: rest, w ≠ pv y → nx' w = nx w)
    (hnd : rest.Nodup) (ha : a ∉ rest) :
    Chain nx' pv' a rest x := by
  have hr := Chain.rehead (Chain.reverse rest a y h) h1 h2
    (fun w hw => hp w (List.mem_reverse.mp hw))
    (fun w hw hne => hn w (by
      rcases List.mem_append.mp hw with h' | h'
      · exact List.mem_cons_of_mem _ (List.mem_reverse.mp h')
      · simp at h'; simp [h']) hne)
    (List.nodup_reverse.mpr hnd) (fun hh => ha (List.mem_reverse.mp hh))
  simpa using Chain.reverse _ _ _ hr

/-- Unlinking a node of a chain leaves the chain of the other nodes. -/
theorem Chain.unlink {nx pv : Nat → Nat} {m z : Nat} {post : List Nat} :
    ∀ (pre : List Nat) (a : Nat), Chain nx pv a (pre ++ m :: post) z →
      (a :: (pre ++ m :: post)).Nodup → z ∉ pre ++ m :: post →
      Chain (fun x => if x = pv m then nx m else nx x) (fun x => if x = nx m then pv m else pv x)
        a (pre ++ post) z
  | [], a, h, hnd, hz => by
    simp only [List.nil_append, Chain] at h hnd hz ⊢
    obtain ⟨h1, h2, h3⟩ := h
    simp only [List.nodup_cons, List.mem_cons, not_or] at hnd hz
    cases post with
    | nil =>
      simp only [Chain] at h3 ⊢
      simp [h2, h3.1]
    | cons q qs =>
      simp only [Chain] at h3 ⊢
      obtain ⟨h4, h5, h6⟩ := h3
      simp only [List.nodup_cons, List.mem_cons, not_or] at hnd hz
      refine ⟨by simp [h2, h4], by simp [h2, h4], ?_⟩
      refine Chain.congr qs q z (fun w hw => ?_) (fun w hw => ?_) h6
      · have : w ≠ a := by
          intro e; subst e
          rcases List.mem_cons.mp hw with h' | h'
          · exact hnd.1.2.1 h'
          · exact hnd.1.2.2 h'
        simp [h2, this]
      · have : w ≠ q := by
          intro e; subst e
          rcases List.mem_append.mp hw with h' | h'
          · exact hnd.2.2.1 h'
          · simp at h'; exact hz.2.1 h'.symm
        simp [h4, this]
  | x :: pre, a, h, hnd, hz => by
    simp only [List.cons_append, Chain] at h ⊢
    obtain ⟨h1, h2, h3⟩ := h
    have hnd' := (List.nodup_cons.mp hnd).2
    have ih := Chain.unlink pre x h3 hnd' (fun hh => hz (List.mem_cons_of_mem _ hh))
    have hp := Chain.prev_mem pre x h3
    have hn := Chain.next_mem (Chain.after pre x h3)
    have ha : a ∉ x :: (pre ++ m :: post) := (List.nodup_cons.mp hnd).1
    have hx : x ∉ pre ++ m :: post := (List.nodup_cons.mp hnd').1
    have hap : a ≠ pv m := by
      intro e; rw [← e] at hp
      exact ha (by
        rcases List.mem_cons.mp hp with h' | h'
        · simp [h']
        · exact List.mem_cons_of_mem _ (List.mem_append_left _ h'))
    have hxn : x ≠ nx m := by
      intro e; rw [← e] at hn
      rcases List.mem_append.mp hn with h' | h'
      · exact hx (List.mem_append_right _ (List.mem_cons_of_mem _ h'))
      · simp at h'; subst h'; exact hz (by simp)
    exact ⟨by simp [hap, h1], by simp [hxn, h2], ih⟩

/-! ## Traversal -/

/-- Along a chain, `next` leads through the nodes to the end. -/
theorem Chain.nextPath {nx pv : Nat → Nat} :
    ∀ (xs : List Nat) (a z : Nat), Chain nx pv a xs z → NextPath nx z (nx a) xs
  | [], a, z, h => by
    simp only [Chain] at h
    simpa [NextPath] using h.1
  | x :: xs, a, z, h => by
    simp only [Chain] at h
    exact ⟨h.1, Chain.nextPath xs x z h.2.2⟩

/-- A path only depends on `next` at its nodes. -/
theorem nextPath_congr {nx nx' : Nat → Nat} {head : Nat} :
    ∀ (ys : List Nat) (node : Nat), (∀ x ∈ ys, nx x = nx' x) →
      NextPath nx head node ys → NextPath nx' head node ys
  | [], _, _, h => h
  | y :: ys, node, hn, h => by
    simp only [NextPath] at h ⊢
    refine ⟨h.1, ?_⟩
    rw [← hn y (by simp)]
    exact nextPath_congr ys _ (fun x hx => hn x (List.mem_cons_of_mem _ hx)) h.2

/-- The walk along a path returns its nodes once the fuel covers them. -/
theorem walk_of_nextPath {nx : Nat → Nat} {head : Nat} :
    ∀ (ys : List Nat) (node fuel : Nat), NextPath nx head node ys → head ∉ ys →
      ys.length < fuel → walk nx head fuel node = some ys
  | [], node, fuel, h, _, hf => by
    obtain ⟨k, rfl⟩ : ∃ k, fuel = k + 1 := ⟨fuel - 1, by simp at hf; omega⟩
    simp only [NextPath] at h
    simp [walk, h]
  | y :: ys, node, fuel, h, hm, hf => by
    obtain ⟨k, rfl⟩ : ∃ k, fuel = k + 1 := ⟨fuel - 1, by simp at hf; omega⟩
    simp only [NextPath] at h
    have hy : y ≠ head := fun e => hm (by simp [e])
    have := walk_of_nextPath ys (nx y) k h.2 (fun hh => hm (List.mem_cons_of_mem _ hh))
      (by simp at hf; omega)
    simp [walk, h.1, hy, this]

/-- The forward traversal of a well-formed list returns its nodes. -/
theorem traverse_of_isList {st : Heap} {head : Nat} {xs : List Nat} {fuel : Nat}
    (h : IsList st head xs) (hf : xs.length < fuel) : traverse st head fuel = some xs := by
  obtain ⟨_, hnd, hc⟩ := h
  exact walk_of_nextPath xs _ fuel (Chain.nextPath xs head head hc)
    (List.nodup_cons.mp hnd).1 hf

/-! ## List primitives on well-formed lists -/

/-- Linking a fresh node right behind the sentinel puts it first. -/
theorem isList_list_add {st : Heap} {head elm : Nat} {xs : List Nat} (h : IsList st head xs)
    (hfresh : elm ∉ head :: xs) : IsList (list_add st elm head) head (elm :: xs) := by
  obtain ⟨h0, hnd, hc⟩ := h
  have hm : head ∉ xs := (List.nodup_cons.mp hnd).1
  simp only [List.mem_cons, not_or] at hfresh
  have hnm := Chain.next_mem hc
  have hne : st.next head ≠ elm := by
    intro e; rw [e] at hnm
    rcases List.mem_append.mp hnm with h' | h'
    · exact hfresh.2 h'
    · simp at h'; exact hfresh.1 h'
  refine ⟨h0, ?_, ?_⟩
  · refine List.nodup_cons.mpr ⟨?_, List.nodup_cons.mpr ⟨hfresh.2, (List.nodup_cons.mp hnd).2⟩⟩
    simp only [List.mem_cons, not_or]
    exact ⟨Ne.symm hfresh.1, hm⟩
  · simp only [Chain]
    refine ⟨by simp [list_add], by simp [list_add], ?_⟩
    refine Chain.rehead hc ?_ ?_ ?_ ?_ (List.nodup_cons.mp hnd).2 hm
    · simp [list_add, hfresh.1]
    · simp [list_add, hne]
    · intro w hw
      have h1 : w ≠ head := fun e => hm (e ▸ hw)
      have h2 : w ≠ elm := fun e => hfresh.2 (e ▸ hw)
      simp [list_add, h1, h2]
    · intro w hw hwn
      have h2 : w ≠ elm := by
        intro e; subst e
        rcases List.mem_append.mp hw with h' | h'
        · exact hfresh.2 h'
        · simp at h'; exact hfresh.1 h'
      simp [list_add, h2, hwn]

/-- Linking a fresh node right before the sentinel puts it last. -/
theorem isList_list_add_tail {st : Heap} {head elm : Nat} {xs : List Nat}
    (h : IsList st head xs) (hfresh : elm ∉ head :: xs) :
    IsList (list_add_tail st elm head) head (xs ++ [elm]) := by
  obtain ⟨h0, hnd, hc⟩ := h
  have hm : head ∉ xs := (List.nodup_cons.mp hnd).1
  have hpm := Chain.last_prev_mem xs head hc
  have hfresh' := hfresh
  simp only [List.mem_cons, not_or] at hfresh
  have hne : st.prev head ≠ elm := fun e => hfresh' (e ▸ hpm)
  refine ⟨h0, ?_, ?_⟩
  · refine List.nodup_cons.mpr ⟨?_, ?_⟩
    · simp only [List.mem_append, List.mem_singleton, not_or]
      exact ⟨hm, Ne.symm hfresh.1⟩
    · refine List.nodup_append.mpr ⟨(List.nodup_cons.mp hnd).2, List.nodup_singleton _, ?_⟩
      intro w hw hw'
      simp at hw'
      exact hfresh.2 (hw' ▸ hw)
  · rw [Chain.snoc]
    refine ⟨?_, by simp [list_add_tail], by simp [list_add_tail]⟩
    refine Chain.retail hc ?_ ?_ ?_ ?_ (List.nodup_cons.mp hnd).2 hm
    · simp [list_add_tail, hfresh.1]
    · simp [list_add_tail, hne]
    · intro w hw
      have h1 : w ≠ head := fun e => hm (e ▸ hw)
      have h2 : w ≠ elm := fun e => hfresh.2 (e ▸ hw)
      simp [list_add_tail, h1, h2]
    · intro w hw hwn
      have h2 : w ≠ elm := fun e => hfresh' (e ▸ hw)
      simp [list_add_tail, h2, hwn]

/-- The two stores of `q_remove_head` take the first node out of the ring. -/
theorem isList_remove_first {st : Heap} {head x : Nat} {rest : List Nat}
    (h : IsList st head (x :: rest)) :
    IsList (setNext (setPrev st (st.next (st.next head)) head) head
      ((setPrev st (st.next (st.next head)) head).next
        ((setPrev st (st.next (st.next head)) head).next head))) head rest := by
  obtain ⟨h0, hnd, hc⟩ := h
  simp only [Chain] at hc
  obtain ⟨h1, _, hc⟩ := hc
  have hnd' := (List.nodup_cons.mp hnd).2
  have hm : head ∉ rest := fun hh => (List.nodup_cons.mp hnd).1 (List.mem_cons_of_mem _ hh)
  refine ⟨h0, List.nodup_cons.mpr ⟨hm, (List.nodup_cons.mp hnd').2⟩, ?_⟩
  refine Chain.rehead hc ?_ ?_ ?_ ?_ (List.nodup_cons.mp hnd').2 hm
  · simp [h1]
  · simp [h1]
  · intro w hw
    have : w ≠ head := fun e => hm (e ▸ hw)
    simp [this]
  · intro w _ hwn
    simp [h1, hwn]

/-- The two stores of `q_remove_tail` take the last node out of the ring. -/
theorem isList_remove_last {st : Heap} {head x : Nat} {init : List Nat}
    (h : IsList st head (init ++ [x])) :
    st.prev head = x ∧
    IsList (setPrev (setNext st (st.prev (st.prev head)) head) head
      ((setNext st (st.prev (st.prev head)) head).prev
        ((setNext st (st.prev (st.prev head)) head).prev head))) head init := by
  obtain ⟨h0, hnd, hc⟩ := h
  rw [Chain.snoc] at hc
  obtain ⟨hc, _, h1⟩ := hc
  have hnd' := (List.nodup_cons.mp hnd).2
  have hm : head ∉ init := fun hh => (List.nodup_cons.mp hnd).1 (List.mem_append_left _ hh)
  have hndi : init.Nodup := (List.nodup_append.mp hnd').1
  refine ⟨h1, h0, List.nodup_cons.mpr ⟨hm, hndi⟩, ?_⟩
  refine Chain.retail hc ?_ ?_ ?_ ?_ hndi hm
  · simp [h1]
  · simp [h1]
  · intro w hw
    have : w ≠ head := fun e => hm (e ▸ hw)
    simp [this]
  · intro w _ hwn
    simp [h1, hwn]

/-! ## Loops of the queue operations -/

theorem swapLinks_nil (st : Heap) : swapLinks st [] = st := by
  apply Heap.ext <;> simp [swapLinks]

/-- The loop of `q_reverse` exchanges the links of every node on its path. -/
theorem reverseLoop_spec (head : Nat) :
    ∀ (ys : List Nat) (st : Heap) (node fuel : Nat), NextPath st.next head node ys →
      head ∉ ys → ys.Nodup → ys.length < fuel →
      reverseLoop head fuel st node (st.next node) = Outcome.done (swapLinks st ys)
  | [], st, node, fuel, hp, _, _, hf => by
    obtain ⟨k, rfl⟩ : ∃ k, fuel = k + 1 := ⟨fuel - 1, by simp at hf; omega⟩
    simp only [NextPath] at hp
    simp [reverseLoop, hp, swapLinks_nil]
  | y :: ys, st, node, fuel, hp, hm, hnd, hf => by
    obtain ⟨k, rfl⟩ : ∃ k, fuel = k + 1 := ⟨fuel - 1, by simp at hf; omega⟩
    simp only [NextPath] at hp
    obtain ⟨rfl, hp⟩ := hp
    have hy : node ≠ head := fun e => hm (by simp [e])
    have hny : node ∉ ys := (List.nodup_cons.mp hnd).1
    have hp1 : NextPath (setNext (setPrev st node (st.next node)) node (st.prev node)).next head
        (st.next node) ys := by
      refine nextPath_congr ys _ (fun x hx => ?_) hp
      have : x ≠ node := fun e => hny (e ▸ hx)
      simp [this]
    have ih := reverseLoop_spec head ys _ (st.next node) k hp1
      (fun hh => hm (List.mem_cons_of_mem _ hh)) (List.nodup_cons.mp hnd).2
      (by simp at hf; omega)
    simp only [reverseLoop, hy, if_false]
    rw [ih]
    congr 1
    apply Heap.ext
    · funext x
      by_cases hx : x = node
      · subst hx; simp [swapLinks, hny]
      · simp [swapLinks, hx]
    · funext x
      by_cases hx : x = node
      · subst hx; simp [swapLinks, hny]
      · simp [swapLinks, hx]
    all_goals simp [swapLinks]

theorem swap_step_next (st : Heap) (a x y w : Nat) (hx : st.next x = y) (hp : st.prev x = a)
    (hxy : x ≠ y) (hax : a ≠ x) (hay : a ≠ y) :
    (list_add (list_del st x) x y).next w =
      if w = y then x else if w = x then st.next y else if w = a then y else st.next w := by
  simp only [list_add, list_del, setNext_next, setPrev_next, setNext_prev, setPrev_prev, hx, hp]
  by_cases h1 : w = y
  · simp [h1]
  · by_cases h2 : w = x
    · subst h2; simp [h1, Ne.symm hay]
    · simp [h1, h2]

theorem swap_step_prev (st : Heap) (a x y w : Nat) (hx : st.next x = y) (hp : st.prev x = a)
    (hay : a ≠ y) :
    (list_add (list_del st x) x y).prev w =
      if w = x then y else if w = st.next y then x else if w = y then a else st.prev w := by
  simp only [list_add, list_del, setNext_next, setPrev_next, setNext_prev, setPrev_prev, hx, hp]
  simp [Ne.symm hay]

theorem swap_step_fields (st : Heap) (x y : Nat) :
    (list_add (list_del st x) x y).value = st.value ∧
      (list_add (list_del st x) x y).brk = st.brk ∧
      (list_add (list_del st x) x y).freedEntries = st.freedEntries ∧
      (list_add (list_del st x) x y).freedValues = st.freedValues := by
  simp [list_add, list_del]

/-- The loop of `q_swap` started behind `a` exchanges the pairs of the chain
that follows `a`, and touches no link outside it. -/
theorem swapLoop_spec (head : Nat) :
    ∀ (xs : List Nat) (st : Heap) (a fuel : Nat), Chain st.next st.prev a xs head →
      (a :: xs).Nodup → head ∉ xs → xs.length < fuel →
      ∃ st', swapLoop head fuel st (st.next a) = Outcome.done st' ∧
        Chain st'.next st'.prev a (swapPairs xs) head ∧
        (∀ w, w ∉ a :: xs → st'.next w = st.next w) ∧
        (∀ w, w ∉ xs ++ [head] → st'.prev w = st.prev w) ∧
        st'.value = st.value ∧ st'.brk = st.brk ∧
        st'.freedEntries = st.freedEntries ∧ st'.freedValues = st.freedValues
  | [], st, a, fuel, hc, _, _, hf => by
    obtain ⟨k, rfl⟩ : ∃ k, fuel = k + 1 := ⟨fuel - 1, by simp at hf; omega⟩
    simp only [Chain] at hc
    exact ⟨st, by simp [swapLoop, hc.1], by simpa [swapPairs, Chain] using hc,
      fun _ _ => rfl, fun _ _ => rfl, rfl, rfl, rfl, rfl⟩
  | [x], st, a, fuel, hc, _, hm, hf => by
    obtain ⟨k, rfl⟩ : ∃ k, fuel = k + 1 := ⟨fuel - 1, by simp at hf; omega⟩
    have hc' := hc
    simp only [Chain] at hc
    have hx : x ≠ head := fun e => hm (by simp [e])
    exact ⟨st, by simp [swapLoop, hc.1, hx, hc.2.2.1], by simpa [swapPairs] using hc',
      fun _ _ => rfl, fun _ _ => rfl, rfl, rfl, rfl, rfl⟩
  | x :: y :: rest, st, a, fuel, hc, hnd, hm, hf => by
    obtain ⟨k, rfl⟩ : ∃ k, fuel = k + 1 := ⟨fuel - 1, by simp at hf; omega⟩
    simp only [Chain] at hc
    obtain ⟨hax, hxa, hxy, hyx, hrest⟩ := hc
    simp only [List.nodup_cons, List.mem_cons, not_or] at hnd hm
    obtain ⟨⟨hne_ax, hne_ay, ha_rest⟩, ⟨hne_xy, hx_rest⟩, hy_rest, hnd_rest⟩ := hnd
    obtain ⟨hhx, hhy, hh_rest⟩ := hm
    have hz := Chain.next_mem hrest
    have hzx : st.next y ≠ x := by
      intro e; rw [e] at hz
      rcases List.mem_append.mp hz with h' | h'
      · exact hx_rest h'
      · simp at h'; exact hhx h'.symm
    have hzy : st.next y ≠ y := by
      intro e; rw [e] at hz
      rcases List.mem_append.mp hz with h' | h'
      · exact hy_rest h'
      · simp at h'; exact hhy h'.symm
    have hN := fun w => swap_step_next st a x y w hxy hxa hne_xy hne_ax hne_ay
    have hP := fun w => swap_step_prev st a x y w hxy hxa hne_ay
    obtain ⟨hv, hb, hfe, hfv⟩ := swap_step_fields st x y
    have hrest2 : Chain (list_add (list_del st x) x y).next (list_add (list_del st x) x y).prev
        x rest head := by
      refine Chain.rehead hrest ?_ ?_ ?_ ?_ hnd_rest hh_rest
      · rw [hN]; simp [hne_xy]
      · rw [hP]; simp [hzx]
      · intro w hw
        have h1 : w ≠ y := fun e => hy_rest (e ▸ hw)
        have h2 : w ≠ x := fun e => hx_rest (e ▸ hw)
        have h3 : w ≠ a := fun e => ha_rest (e ▸ hw)
        rw [hN]; simp [h1, h2, h3]
      · intro w hw hwz
        have h1 : w ≠ y := by
          intro e; subst e
          rcases List.mem_append.mp hw with h' | h'
          · exact hy_rest h'
          · simp at h'; exact hhy h'.symm
        have h2 : w ≠ x := by
          intro e; subst e
          rcases List.mem_append.mp hw with h' | h'
          · exact hx_rest h'
          · simp at h'; exact hhx h'.symm
        rw [hP]; simp [h1, h2, hwz]
    obtain ⟨st', hrun, hch, hfn, hfp, hv', hb', hfe', hfv'⟩ :=
      swapLoop_spec head rest (list_add (list_del st x) x y) x k hrest2
        (List.nodup_cons.mpr ⟨hx_rest, hnd_rest⟩) hh_rest (by simp at hf; omega)
    refine ⟨st', ?_, ?_, ?_, ?_, hv'.trans hv, hb'.trans hb, hfe'.trans hfe,
      hfv'.trans hfv⟩
    · simp only [swapLoop, hax]
      rw [if_neg (Ne.symm hhx), hxy, if_neg (Ne.symm hhy)]
      exact hrun
    · simp only [swapPairs, Chain]
      refine ⟨?_, ?_, ?_, ?_, hch⟩
      · rw [hfn a (by simp [hne_ax, ha_rest]), hN]; simp [hne_ax, hne_ay]
      · rw [hfp y (by simp [hy_rest, Ne.symm hhy]), hP]; simp [Ne.symm hne_xy, Ne.symm hzy]
      · rw [hfn y (by simp [Ne.symm hne_xy, hy_rest]), hN]; simp
      · rw [hfp x (by simp [hx_rest, Ne.symm hhx]), hP]; simp
    · intro w hw
      simp only [List.mem_cons, not_or] at hw
      rw [hfn w (by simp [hw.2.1, hw.2.2.2]), hN]
      simp [hw.1, hw.2.1, hw.2.2.1]
    · intro w hw
      simp only [List.cons_append, List.mem_cons, not_or] at hw
      have hwz : w ≠ st.next y := fun e => hw.2.2 (e ▸ hz)
      rw [hfp w hw.2.2, hP]
      simp [hw.1, hw.2.1, hwz]

theorem swapPairs_length : ∀ xs : List Nat, (swapPairs xs).length = xs.length
  | [] => rfl
  | [_] => rfl
  | x :: y :: rest => by simp [swapPairs, swapPairs_length rest]

theorem swapPairs_perm : ∀ xs : List Nat, (swapPairs xs).Perm xs
  | [] => List.Perm.refl _
  | [_] => List.Perm.refl _
  | x :: y :: rest => by
    simp only [swapPairs]
    exact (List.Perm.swap x y _).trans (((swapPairs_perm rest).cons y).cons x)

theorem swapPairs_pair : ∀ (xs : List Nat) (i : Nat), 2 * i + 1 < xs.length →
    (swapPairs xs)[2 * i]? = xs[2 * i + 1]? ∧ (swapPairs xs)[2 * i + 1]? = xs[2 * i]?
  | [], i, h => by simp at h
  | [_], i, h => by simp at h
  | x :: y :: rest, 0, _ => by simp [swapPairs]
  | x :: y :: rest, i + 1, h => by
    have ih := swapPairs_pair rest i (by simp at h; omega)
    have e1 : 2 * (i + 1) = (2 * i + 1) + 1 := by ring
    have e2 : 2 * (i + 1) + 1 = (2 * i + 1 + 1) + 1 := by ring
    simp only [swapPairs]
    rw [e2, e1]
    simp only [List.getElem?_cons_succ]
    exact ih

theorem swapPairs_last : ∀ xs : List Nat, xs.length % 2 = 1 →
    (swapPairs xs)[xs.length - 1]? = xs[xs.length - 1]?
  | [], h => by simp at h
  | [_], _ => rfl
  | x :: y :: rest, h => by
    have h' : rest.length % 2 = 1 := by simp at h; omega
    have ih := swapPairs_last rest h'
    have hpos : 0 < rest.length := by
      rcases Nat.eq_zero_or_pos rest.length with h0 | h0
      · rw [h0] at h'; simp at h'
      · exact h0
    have e : (x :: y :: rest).length - 1 = (rest.length - 1) + 1 + 1 := by simp; omega
    simp only [swapPairs]
    rw [e]
    simp only [List.getElem?_cons_succ]
    simpa using ih

/-- The loop of `q_delete_mid` stops with `slow` half as far along as `fast`. -/
theorem midLoop_spec (st : Heap) (head : Nat) :
    ∀ (ys ss : List Nat) (slow fast fuel : Nat), NextPath st.next head fast ys →
      NextPath st.next head slow ss → head ∉ ys → ys.length / 2 < ss.length → ys.length < fuel →
      ∃ r, midLoop st head fuel slow fast = Outcome.done r ∧ ss[ys.length / 2]? = some r
  | [], ss, slow, fast, fuel, hy, hs, _, hl, hf => by
    obtain ⟨k, rfl⟩ : ∃ k, fuel = k + 1 := ⟨fuel - 1, by simp at hf; omega⟩
    simp only [NextPath] at hy
    cases ss with
    | nil => simp at hl
    | cons s ss =>
      simp only [NextPath] at hs
      exact ⟨slow, by simp [midLoop, hy], by simp [hs.1]⟩
  | [y], ss, slow, fast, fuel, hy, hs, hm, hl, hf => by
    obtain ⟨k, rfl⟩ : ∃ k, fuel = k + 1 := ⟨fuel - 1, by simp at hf; omega⟩
    simp only [NextPath] at hy
    cases ss with
    | nil => simp only [List.length_nil] at hl; omega
    | cons s ss =>
      simp only [NextPath] at hs
      refine ⟨slow, ?_, by simp [hs.1]⟩
      rw [hy.1]
      simp [midLoop, hy.2]
  | y1 :: y2 :: ys, ss, slow, fast, fuel, hy, hs, hm, hl, hf => by
    obtain ⟨k, rfl⟩ : ∃ k, fuel = k + 1 := ⟨fuel - 1, by simp at hf; omega⟩
    simp only [NextPath] at hy
    obtain ⟨rfl, hy2, hy3⟩ := hy
    simp only [List.mem_cons, not_or] at hm
    cases ss with
    | nil => simp only [List.length_nil] at hl; omega
    | cons s ss =>
      simp only [NextPath] at hs
      obtain ⟨rfl, hs2⟩ := hs
      obtain ⟨r, hr, hidx⟩ := midLoop_spec st head ys ss (st.next slow) (st.next y2) k hy3 hs2
        hm.2.2 (by simp only [List.length_cons] at hl; omega) (by simp at hf; omega)
      refine ⟨r, ?_, ?_⟩
      · simp only [midLoop]
        rw [if_pos ⟨Ne.symm hm.1, by rw [hy2]; exact Ne.symm hm.2.1⟩, hy2]
        exact hr
      · have e : (fast :: y2 :: ys).length / 2 = ys.length / 2 + 1 := by
          simp only [List.length_cons]; omega
        rw [e, List.getElem?_cons_succ]
        exact hidx

/-! ## Sorting and size -/

/-- Whatever the list, `q_sort` returns the memory it was given. -/
theorem q_sort_returns_input (fuel : Nat) (st : Heap) (head : Nat) :
    q_sort fuel st head = Outcome.done st := by
  simp [q_sort, q_size]

/-- C1: `q_sort` on the two-element list `["b", "a"]` returns and leaves
`["b", "a"]`, which is not in non-decreasing order. -/
theorem q_sort_leaves_unsorted :
    heapContents (q_sort 8 (build [[98], [97]]) 1) 1 8 = some [[98], [97]] ∧
      ¬ NonDecreasing [[98], [97]] := by
  decide

/-- C2: `q_size` answers `-1` on a null list, on an empty list and on a list of
two entries. -/
theorem q_size_answers_minus_one :
    q_size Heap.empty 0 = -1 ∧ q_size (build []) 1 = -1 ∧
      traverse (build []) 1 1 = some [] ∧ q_size (build [[97], [98]]) 1 = -1 ∧
      traverse (build [[97], [98]]) 1 3 = some [2, 3] := by
  decide

/-! ## Deletion -/

/-- C3: `q_delete_dup` empties the sorted list `["a", "b", "c"]`, which has no
duplicate; on the sorted list `[1,1,2,3,3,3]` of the specification it releases
the first entry and then unlinks and releases that entry again, so that the
call has no result instead of leaving `[2]`. -/
theorem q_delete_dup_empties_sorted_list :
    NonDecreasing [[97], [98], [99]] ∧
      flagContents (q_delete_dup 4 (build [[97], [98], [99]]) 1) 1 4 = some (true, []) ∧
      NonDecreasing [[49], [49], [50], [51], [51], [51]] ∧
      q_delete_dup 7 (build [[49], [49], [50], [51], [51], [51]]) 1 = Outcome.useAfterFree :=
  ⟨by decide, by decide, by decide, rfl⟩

/-- On a well-formed non-empty list `q_delete_mid` returns true, unlinks the
node at index `n / 2` and releases its entry. -/
theorem q_delete_mid_run (st : Heap) (head : Nat) (xs : List Nat) (fuel : Nat)
    (h : IsList st head xs) (hne : xs ≠ []) (hf : xs.length < fuel) :
    ∃ st', q_delete_mid fuel st head = Outcome.done (true, st') ∧
      IsList st' head (xs.eraseIdx (xs.length / 2)) ∧
      st'.value = st.value ∧
      ∃ m, xs[xs.length / 2]? = some m ∧ st'.freedEntries = st.freedEntries ++ [m] ∧
        st'.freedValues = st.freedValues ++ [m] := by
  obtain ⟨h0, hnd, hc⟩ := h
  have hm : head ∉ xs := (List.nodup_cons.mp hnd).1
  have hpos : 0 < xs.length := List.length_pos.mpr hne
  have hk : xs.length / 2 < xs.length := Nat.div_lt_self hpos (by decide)
  have hpath := Chain.nextPath xs head head hc
  obtain ⟨r, hr, hidx⟩ := midLoop_spec st head xs xs (st.next head) (st.next head) fuel hpath
    hpath hm hk hf
  have hsplit : xs = xs.take (xs.length / 2) ++ r :: xs.drop (xs.length / 2 + 1) := by
    have e : xs[xs.length / 2] = r := by
      rw [List.getElem?_eq_getElem hk] at hidx
      exact Option.some.inj hidx
    rw [← e, ← List.drop_eq_getElem_cons hk, List.take_append_drop]
  have herase : xs.eraseIdx (xs.length / 2) =
      xs.take (xs.length / 2) ++ xs.drop (xs.length / 2 + 1) :=
    List.eraseIdx_eq_take_drop_succ xs _
  have hc' : Chain st.next st.prev head
      (xs.take (xs.length / 2) ++ r :: xs.drop (xs.length / 2 + 1)) head := by
    rw [← hsplit]; exact hc
  have hnd' : (head :: (xs.take (xs.length / 2) ++ r :: xs.drop (xs.length / 2 + 1))).Nodup := by
    rw [← hsplit]; exact hnd
  have hm' : head ∉ xs.take (xs.length / 2) ++ r :: xs.drop (xs.length / 2 + 1) := by
    rw [← hsplit]; exact hm
  have hrx : r ∈ xs := by rw [hsplit]; simp
  have hpr : st.prev r ≠ r := by
    intro e
    have hp := Chain.prev_mem _ _ hc'
    rw [e] at hp
    have := List.nodup_cons.mp hnd'
    rcases List.mem_cons.mp hp with h' | h'
    · exact hm (h' ▸ hrx)
    · exact (List.nodup_append.mp this.2).2.2 h' (List.mem_cons_self _ _)
  have hnr : st.next r ≠ r := by
    intro e
    have hn := Chain.next_mem (Chain.after _ _ hc')
    rw [e] at hn
    have := List.nodup_cons.mp hnd'
    rcases List.mem_append.mp hn with h' | h'
    · have hd := (List.nodup_cons.mp (List.nodup_append.mp this.2).2.1).1
      exact hd h'
    · simp at h'; exact hm (h' ▸ hrx)
  have hch := Chain.unlink _ _ hc' hnd' hm'
  have hne_first : st.next head ≠ head := by
    have := Chain.next_mem hc
    intro e
    rw [e] at this
    rcases List.mem_append.mp this with h' | h'
    · exact hm h'
    · cases xs with
      | nil => exact hne rfl
      | cons x xs =>
        simp only [Chain] at hc
        exact hm (by rw [← e, hc.1]; simp)
  have hw : IsList (freeEntry (list_del (setPrev (setNext st (st.prev r) (st.next r))
      ((setNext st (st.prev r) (st.next r)).next r)
      ((setNext st (st.prev r) (st.next r)).prev r)) r) r) head
      (xs.eraseIdx (xs.length / 2)) := by
    refine ⟨h0, ?_, ?_⟩
    · exact List.nodup_cons.mpr ⟨fun hh => hm ((List.eraseIdx_sublist xs _).subset hh),
        (List.nodup_cons.mp hnd).2.sublist (List.eraseIdx_sublist xs _)⟩
    · rw [herase]
      refine Chain.congr _ _ _ (fun w _ => ?_) (fun w _ => ?_) hch
      · simp only [freeEntry, list_del, setNext_next, setPrev_next, setNext_prev, setPrev_prev,
          if_neg hpr.symm, if_neg hnr.symm]
        by_cases e : w = st.prev r <;> simp [e]
      · simp only [freeEntry, list_del, setNext_next, setPrev_next, setNext_prev, setPrev_prev,
          if_neg hpr.symm, if_neg hnr.symm]
        by_cases e : w = st.next r <;> simp [e]
  refine ⟨_, ?_, hw, ?_, r, hidx, ?_, ?_⟩
  · simp only [q_delete_mid, h0, list_empty, hne_first, decide_False, false_or, hr]
    simp
  all_goals simp [freeEntry, list_del]

/-- C4: on a well-formed non-empty list of `n` nodes `q_delete_mid` returns
true and leaves the well-formed list of the same nodes without the one at
zero-based index `n / 2`, in the original order; that entry is released and
no payload changes. -/
theorem q_delete_mid_removes_middle (st : Heap) (head : Nat) (xs : List Nat) (fuel : Nat)
    (h : IsList st head xs) (hne : xs ≠ []) (hf : xs.length < fuel) :
    ∃ st', q_delete_mid fuel st head = Outcome.done (true, st') ∧
      IsList st' head (xs.eraseIdx (xs.length / 2)) ∧
      traverse st' head fuel = some (xs.eraseIdx (xs.length / 2)) ∧
      st'.value = st.value ∧
      ∃ m, xs[xs.length / 2]? = some m ∧ st'.freedEntries = st.freedEntries ++ [m] ∧
        st'.freedValues = st.freedValues ++ [m] := by
  obtain ⟨st', hrun, hw, hv, hfree⟩ := q_delete_mid_run st head xs fuel h hne hf
  exact ⟨st', hrun, hw,
    traverse_of_isList hw (lt_of_le_of_lt (List.eraseIdx_sublist xs _).length_le hf), hv, hfree⟩

/-- C4 at the six-element list of the specification: `[a,b,c,d,e,f]` becomes
`[a,b,c,e,f]`. -/
theorem q_delete_mid_removes_middle_witness :
    flagContents (q_delete_mid 7 (build [[97], [98], [99], [100], [101], [102]]) 1) 1 7 =
        some (true, [[97], [98], [99], [101], [102]]) ∧
      ∃ st', q_delete_mid 7 (build [[97], [98], [99], [100], [101], [102]]) 1 =
          Outcome.done (true, st') ∧
        IsList st' 1 [2, 3, 4, 6, 7] ∧ traverse st' 1 7 = some [2, 3, 4, 6, 7] ∧
        st'.value = (build [[97], [98], [99], [100], [101], [102]]).value ∧
        ∃ m, [2, 3, 4, 5, 6, 7][3]? = some m ∧
          st'.freedEntries =
            (build [[97], [98], [99], [100], [101], [102]]).freedEntries ++ [m] ∧
          st'.freedValues =
            (build [[97], [98], [99], [100], [101], [102]]).freedValues ++ [m] :=
  ⟨by decide,
    q_delete_mid_removes_middle (build [[97], [98], [99], [100], [101], [102]]) 1
      [2, 3, 4, 5, 6, 7] 7 (by decide) (by decide) (by decide)⟩

/-! ## Swap and reverse -/

/-- C5: on a well-formed list `x0 .. x(n-1)` `q_swap` returns and leaves a
well-formed list of the same length in which positions `2i` and `2i+1` hold
`x(2i+1)` and `x(2i)` whenever `2i+1 < n`, and whose last node stays in place
when `n` is odd; no payload changes and nothing is allocated or freed. -/
theorem q_swap_exchanges_pairs (st : Heap) (head : Nat) (xs : List Nat) (fuel : Nat)
    (h : IsList st head xs) (hf : xs.length < fuel) :
    ∃ st' ys, q_swap fuel st head = Outcome.done st' ∧ IsList st' head ys ∧
      traverse st' head fuel = some ys ∧ ys.length = xs.length ∧
      (∀ i, 2 * i + 1 < xs.length → ys[2 * i]? = xs[2 * i + 1]? ∧ ys[2 * i + 1]? = xs[2 * i]?) ∧
      (xs.length % 2 = 1 → ys[xs.length - 1]? = xs[xs.length - 1]?) ∧
      st'.value = st.value ∧ st'.brk = st.brk ∧ st'.freedEntries = st.freedEntries ∧
      st'.freedValues = st.freedValues := by
  obtain ⟨h0, hnd, hc⟩ := h
  have hm : head ∉ xs := (List.nodup_cons.mp hnd).1
  obtain ⟨st', hrun, hch, _, _, hv, hb, hfe, hfv⟩ :=
    swapLoop_spec head xs st head fuel hc hnd hm hf
  have hw : IsList st' head (swapPairs xs) := by
    refine ⟨h0, List.nodup_cons.mpr ⟨fun hh => hm ((swapPairs_perm xs).subset hh), ?_⟩, hch⟩
    exact (swapPairs_perm xs).nodup_iff.mpr (List.nodup_cons.mp hnd).2
  refine ⟨st', swapPairs xs, ?_, hw, traverse_of_isList hw ?_, swapPairs_length xs,
    swapPairs_pair xs, swapPairs_last xs, hv, hb, hfe, hfv⟩
  · simp only [q_swap, h0, if_false]
    exact hrun
  · rw [swapPairs_length]; exact hf

/-- C5 at the list of the specification: `[1,2,3,4,5]` becomes `[2,1,4,3,5]`. -/
theorem q_swap_exchanges_pairs_witness :
    heapContents (q_swap 6 (build [[1], [2], [3], [4], [5]]) 1) 1 6 =
        some [[2], [1], [4], [3], [5]] ∧
      ∃ st' ys, q_swap 6 (build [[1], [2], [3], [4], [5]]) 1 = Outcome.done st' ∧
        IsList st' 1 ys ∧ traverse st' 1 6 = some ys ∧ ys.length = [2, 3, 4, 5, 6].length ∧
        (∀ i, 2 * i + 1 < [2, 3, 4, 5, 6].length →
          ys[2 * i]? = [2, 3, 4, 5, 6][2 * i + 1]? ∧ ys[2 * i + 1]? = [2, 3, 4, 5, 6][2 * i]?) ∧
        ([2, 3, 4, 5, 6].length % 2 = 1 →
          ys[[2, 3, 4, 5, 6].length - 1]? = [2, 3, 4, 5, 6][[2, 3, 4, 5, 6].length - 1]?) ∧
        st'.value = (build [[1], [2], [3], [4], [5]]).value ∧
        st'.brk = (build [[1], [2], [3], [4], [5]]).brk ∧
        st'.freedEntries = (build [[1], [2], [3], [4], [5]]).freedEntries ∧
        st'.freedValues = (build [[1], [2], [3], [4], [5]]).freedValues :=
  ⟨by decide,
    q_swap_exchanges_pairs (build [[1], [2], [3], [4], [5]]) 1 [2, 3, 4, 5, 6] 6 (by decide)
      (by decide)⟩

/-- On a well-formed list `q_reverse` returns and leaves the well-formed list of
the same nodes in reverse order; no other part of the memory changes. -/
theorem q_reverse_run (st : Heap) (head : Nat) (xs : List Nat) (fuel : Nat)
    (h : IsList st head xs) (hf : xs.length < fuel) :
    ∃ st', q_reverse fuel st head = Outcome.done st' ∧ IsList st' head xs.reverse ∧
      st'.value = st.value ∧ st'.brk = st.brk ∧
      st'.freedEntries = st.freedEntries ∧ st'.freedValues = st.freedValues := by
  obtain ⟨h0, hnd, hc⟩ := h
  have hm : head ∉ xs := (List.nodup_cons.mp hnd).1
  have hl := reverseLoop_spec head xs st (st.next head) fuel (Chain.nextPath xs head head hc) hm
    (List.nodup_cons.mp hnd).2 hf
  have hw : IsList (setPrev (setNext (swapLinks st xs) head ((swapLinks st xs).prev head)) head
      ((swapLinks st xs).next head)) head xs.reverse := by
    refine ⟨h0, ?_, ?_⟩
    · simpa using hnd
    · refine Chain.congr xs.reverse head head ?_ ?_ (Chain.reverse xs head head hc)
      · intro x hx
        by_cases hxh : x = head
        · subst hxh; simp [swapLinks, hm]
        · have : x ∈ xs := by simpa [hxh] using hx
          simp [swapLinks, hxh, this]
      · intro x hx
        by_cases hxh : x = head
        · subst hxh; simp [swapLinks, hm]
        · have : x ∈ xs := by simpa [hxh] using hx
          simp [swapLinks, hxh, this]
  refine ⟨_, ?_, hw, ?_, ?_, ?_, ?_⟩
  · simp only [q_reverse, h0, if_false, hl]
  all_goals simp [swapLinks]

/-- C6: on a well-formed list `q_reverse` returns, and leaves a well-formed list
whose forward traversal is the reverse of the input's, made of the same nodes:
payloads, allocation frontier and the record of freed blocks are unchanged. -/
theorem q_reverse_reverses (st : Heap) (head : Nat) (xs : List Nat) (fuel : Nat)
    (h : IsList st head xs) (hf : xs.length < fuel) :
    ∃ st', q_reverse fuel st head = Outcome.done st' ∧ IsList st' head xs.reverse ∧
      traverse st' head fuel = some xs.reverse ∧ st'.value = st.value ∧ st'.brk = st.brk ∧
      st'.freedEntries = st.freedEntries ∧ st'.freedValues = st.freedValues := by
  obtain ⟨st', hrun, hw, hv, hb, hfe, hfv⟩ := q_reverse_run st head xs fuel h hf
  exact ⟨st', hrun, hw, traverse_of_isList hw (by simpa using hf), hv, hb, hfe, hfv⟩

/-- C6 at a concrete list: reversing the three-element queue built by `build`. -/
theorem q_reverse_reverses_witness :
    ∃ st', q_reverse 4 (build [[97], [98], [99]]) 1 = Outcome.done st' ∧
      IsList st' 1 [4, 3, 2] ∧ traverse st' 1 4 = some [4, 3, 2] ∧
      st'.value = (build [[97], [98], [99]]).value ∧ st'.brk = (build [[97], [98], [99]]).brk ∧
      st'.freedEntries = (build [[97], [98], [99]]).freedEntries ∧
      st'.freedValues = (build [[97], [98], [99]]).freedValues :=
  q_reverse_reverses (build [[97], [98], [99]]) 1 [2, 3, 4] 4 (by decide) (by decide)

/-! ## Insertion and removal against the reference deque -/

/-- Every call keeps the queue in step with the reference deque. -/
theorem stepQueue_represents {st : Heap} {head : Nat} {xs : List Nat} {d : List (List Nat)}
    (h : Represents st head xs d) (op : Op) :
    ∃ xs', Represents (stepQueue head st op).1 head xs' (stepDeque d op).1 ∧
      (stepQueue head st op).2 = (stepDeque d op).2 ∧ xs'.length ≤ xs.length + 1 := by
  obtain ⟨hl, hv, hb⟩ := h
  have h0 : head ≠ 0 := hl.1
  have hbrk : st.brk ≠ 0 := by
    have := hb head (by simp)
    omega
  have hfresh : st.brk ∉ head :: xs := fun hh => lt_irrefl _ (hb _ hh)
  have hval : ∀ s, xs.map (fun x => if x = st.brk then cstr s else st.value x) = d := by
    intro s
    rw [← hv]
    apply List.map_congr_left
    intro x hx
    have : x ≠ st.brk := fun e => hfresh (e ▸ List.mem_cons_of_mem _ hx)
    simp [this]
  cases op with
  | insertHead s =>
    refine ⟨st.brk :: xs, ⟨?_, ?_, ?_⟩, ?_, by simp⟩
    · simp only [stepQueue, q_insert_head, malloc, h0, hbrk, if_false, if_true]
      exact isList_list_add ⟨hl.1, hl.2.1, hl.2.2⟩ hfresh
    · simp only [stepQueue, q_insert_head, malloc, h0, hbrk, if_false, if_true, stepDeque]
      simp [list_add, hval s]
    · intro x hx
      have hk : (stepQueue head st (Op.insertHead s)).1.brk = st.brk + 1 := by
        simp [stepQueue, q_insert_head, malloc, h0, hbrk, list_add]
      rw [hk]
      rcases List.mem_cons.mp hx with h' | h'
      · have := hb head (by simp); omega
      · rcases List.mem_cons.mp h' with h'' | h''
        · omega
        · have := hb x (List.mem_cons_of_mem _ h''); omega
    · simp [stepQueue, q_insert_head, malloc, h0, hbrk, stepDeque]
  | insertTail s =>
    refine ⟨xs ++ [st.brk], ⟨?_, ?_, ?_⟩, ?_, by simp⟩
    · simp only [stepQueue, q_insert_tail, malloc, h0, hbrk, if_false, if_true]
      exact isList_list_add_tail ⟨hl.1, hl.2.1, hl.2.2⟩ hfresh
    · simp only [stepQueue, q_insert_tail, malloc, h0, hbrk, if_false, if_true, stepDeque]
      simp [list_add_tail, hval s]
    · intro x hx
      have hk : (stepQueue head st (Op.insertTail s)).1.brk = st.brk + 1 := by
        simp [stepQueue, q_insert_tail, malloc, h0, hbrk, list_add_tail]
      rw [hk]
      rcases List.mem_cons.mp hx with h' | h'
      · have := hb head (by simp); omega
      · rcases List.mem_append.mp h' with h'' | h''
        · have := hb x (List.mem_cons_of_mem _ h''); omega
        · simp at h''; omega
    · simp [stepQueue, q_insert_tail, malloc, h0, hbrk, stepDeque]
  | removeHead sp bufsize =>
    cases xs with
    | nil =>
      have he : st.next head = head := by
        have := hl.2.2
        simp only [Chain] at this
        exact this.1
      subst hv
      refine ⟨[], ⟨?_, ?_, ?_⟩, ?_, by simp⟩
      · simpa [stepQueue, q_remove_head, list_empty, he] using hl
      · simp [stepQueue, stepDeque]
      · simpa [stepQueue, q_remove_head, list_empty, he] using hb
      · simp [stepQueue, q_remove_head, list_empty, he, stepDeque]
    | cons x rest =>
      have hx : st.next head = x := by
        have := hl.2.2
        simp only [Chain] at this
        exact this.1
      have hxh : x ≠ head := fun e => (List.nodup_cons.mp hl.2.1).1 (by simp [e])
      have hrm := isList_remove_first hl
      subst hv
      refine ⟨rest, ⟨?_, ?_, ?_⟩, ?_, by simp only [List.length_cons]; omega⟩
      · simp only [stepQueue, q_remove_head, list_empty, h0, hx, hxh, decide_False, false_or,
          Bool.false_eq_true, if_false, copyOut_heap]
        rw [hx] at hrm
        exact hrm
      · simp [stepQueue, q_remove_head, list_empty, h0, hx, hxh, copyOut_heap, stepDeque]
      · intro w hw
        simp only [stepQueue, q_remove_head, list_empty, h0, hx, hxh, decide_False, false_or,
          Bool.false_eq_true, if_false, copyOut_heap, setNext_brk, setPrev_brk]
        apply hb
        rcases List.mem_cons.mp hw with h' | h'
        · simp [h']
        · exact List.mem_cons_of_mem _ (List.mem_cons_of_mem _ h')
      · simp [stepQueue, q_remove_head, list_empty, h0, hx, hxh, copyOut_heap, copyOut_elm,
          stepDeque]
  | removeTail sp bufsize =>
    rcases List.eq_nil_or_concat xs with hnil | ⟨init, x, hcat⟩
    · subst hnil
      have he : st.next head = head := by
        have := hl.2.2
        simp only [Chain] at this
        exact this.1
      subst hv
      refine ⟨[], ⟨?_, ?_, ?_⟩, ?_, by simp⟩
      · simpa [stepQueue, q_remove_tail, list_empty, he] using hl
      · simp [stepQueue, stepDeque]
      · simpa [stepQueue, q_remove_tail, list_empty, he] using hb
      · simp [stepQueue, q_remove_tail, list_empty, he, stepDeque]
    · rw [List.concat_eq_append] at hcat
      subst hcat
      have hne : st.next head ≠ head := by
        intro e
        have := Chain.next_mem hl.2.2
        rw [e] at this
        have hm := (List.nodup_cons.mp hl.2.1).1
        rcases List.mem_append.mp this with h' | h'
        · exact hm h'
        · cases init with
          | nil =>
            have hc := hl.2.2
            simp only [List.nil_append, Chain] at hc
            exact hm (by rw [← e, hc.1]; simp)
          | cons y ys =>
            have hc := hl.2.2
            simp only [List.cons_append, Chain] at hc
            exact hm (by rw [← e, hc.1]; simp)
      obtain ⟨hx, hrm⟩ := isList_remove_last hl
      subst hv
      refine ⟨init, ⟨?_, ?_, ?_⟩, ?_, by simp only [List.length_append]; omega⟩
      · simp only [stepQueue, q_remove_tail, list_empty, h0, hne, decide_False, false_or,
          Bool.false_eq_true, if_false, copyOut_heap]
        exact hrm
      · simp [stepQueue, q_remove_tail, list_empty, h0, hne, copyOut_heap, stepDeque]
      · intro w hw
        simp only [stepQueue, q_remove_tail, list_empty, h0, hne, decide_False, false_or,
          Bool.false_eq_true, if_false, copyOut_heap, setNext_brk, setPrev_brk]
        apply hb
        rcases List.mem_cons.mp hw with h' | h'
        · simp [h']
        · exact List.mem_cons_of_mem _ (List.mem_append_left _ h')
      · simp [stepQueue, q_remove_tail, list_empty, h0, hne, copyOut_heap, copyOut_elm,
          stepDeque, hx]

theorem sizePred_of_pos {c : Nat} (hc : 1 ≤ c) (hsz : c < 2 ^ 64) : sizePred c = c - 1 := by
  unfold sizePred
  have e : c + 2 ^ 64 - 1 = c - 1 + 2 ^ 64 := by omega
  rw [e, Nat.add_mod_right, Nat.mod_eq_of_lt (by omega)]

/-- Reads inside the block of `e->value` give the payload bytes and the NUL. -/
theorem readBytes_valueByte (st : Heap) (e : Nat) (is : List Nat)
    (h : ∀ i ∈ is, i ≤ (st.value e).length) :
    readBytes (valueByte st e) is = some (is.map (fun i => (st.value e).getD i 0)) := by
  induction is with
  | nil => rfl
  | cons i is ih =>
    have hi : i ≤ (st.value e).length := h i (List.mem_cons_self _ _)
    have hv : valueByte st e i = some ((st.value e).getD i 0) := by
      unfold valueByte
      by_cases h1 : i < (st.value e).length
      · rw [if_pos h1]
      · have h2 : i = (st.value e).length := by omega
        rw [if_neg h1, if_pos h2, h2]
        simp [List.getD_eq_getElem?_getD]
    simp only [readBytes, hv, ih (fun j hj => h j (List.mem_cons_of_mem _ hj)), List.map_cons]

/-- A read outside the block of `e->value` makes the whole read fail. -/
theorem readBytes_outside (st : Heap) (e : Nat) (is : List Nat) (i : Nat) (hi : i ∈ is)
    (ho : (st.value e).length < i) : readBytes (valueByte st e) is = none := by
  induction is with
  | nil => cases hi
  | cons j js ih =>
    rcases List.mem_cons.1 hi with h | h
    · subst h
      have hv : valueByte st e i = none := by
        unfold valueByte
        rw [if_neg (by omega), if_neg (by omega)]
      simp only [readBytes, hv]
    · simp only [readBytes, ih h]
      cases valueByte st e j <;> rfl

/-- The copy of `copyOut` when `bufsize` bytes fit in the payload block. -/
theorem copiedBytes_inside (st : Heap) (e : Nat) (buf : List Nat) (c : Nat) (hc : 1 ≤ c)
    (hsz : c < 2 ^ 64) (hlen : buf.length = c) (hin : c ≤ (st.value e).length + 1) :
    copiedBytes st e buf c =
      some (((List.range c).map (fun i => (st.value e).getD i 0)).set (c - 1) 0) := by
  have hd : buf.drop c = [] := List.drop_eq_nil_of_le (by omega)
  have hr := readBytes_valueByte st e (List.range c) (fun i hi => by
    have := List.mem_range.1 hi
    omega)
  have hlt : c - 1 < c := by omega
  simp [copiedBytes, memcpy, hlen, hr, hd, sizePred_of_pos hc hsz, hlt]

/-- The copy of `copyOut` has no result when `bufsize` exceeds the payload block. -/
theorem copiedBytes_outside (st : Heap) (e : Nat) (buf : List Nat) (c : Nat)
    (hout : (st.value e).length + 1 < c) : copiedBytes st e buf c = none := by
  have hr := readBytes_outside st e (List.range c) ((st.value e).length + 1)
    (List.mem_range.2 hout) (by omega)
  simp [copiedBytes, memcpy, hr]

/-- Bytes of the buffer after the copy of `copyOut`. -/
theorem copied_getElem? (f : Nat → Nat) (c : Nat) (hc : 1 ≤ c) (i : Nat) :
    (((List.range c).map f).set (c - 1) 0)[i]? =
      if i = c - 1 then some 0 else if i < c then some (f i) else none := by
  simp only [List.getElem?_set, List.length_map, List.length_range]
  by_cases h1 : i = c - 1
  · subst h1
    have : c - 1 < c := by omega
    simp [this]
  · have h2 : ¬ c - 1 = i := fun e => h1 e.symm
    simp only [h1, h2, if_false]
    by_cases h3 : i < c
    · simp [h3, List.getElem?_range]
    · simp [h3]
      omega

theorem copied_truncated (st : Heap) (e : Nat) (buf : List Nat) (c : Nat) (hc : 1 ≤ c)
    (hsz : c < 2 ^ 64) (hlen : buf.length = c) (hin : c ≤ (st.value e).length + 1) :
    (copyOut st e (some buf) c).fault = false ∧
      ∃ out, (copyOut st e (some buf) c).buf = some out ∧
        HoldsTruncated (st.value e) c out := by
  have hcb := copiedBytes_inside st e buf c hc hsz hlen hin
  refine ⟨by simp [copyOut, hcb],
    ((List.range c).map (fun i => (st.value e).getD i 0)).set (c - 1) 0, ?_, ?_⟩
  · simp [copyOut, hcb]
  generalize hout : ((List.range c).map (fun i => (st.value e).getD i 0)).set (c - 1) 0 = out
  have hget : ∀ i, out[i]? =
      if i = c - 1 then some 0 else if i < c then some ((st.value e).getD i 0) else none := by
    intro i
    rw [← hout]
    exact copied_getElem? (fun i => (st.value e).getD i 0) c hc i
  have hlen' : out.length = c := by
    rw [← hout]
    simp
  have htake : out.take (min (st.value e).length (c - 1)) =
      (st.value e).take (min (st.value e).length (c - 1)) := by
    apply List.ext_getElem?
    intro i
    simp only [List.getElem?_take]
    by_cases hi : i < min (st.value e).length (c - 1)
    · have h1 : i < (st.value e).length := lt_of_lt_of_le hi (min_le_left _ _)
      have h2 : i < c - 1 := lt_of_lt_of_le hi (min_le_right _ _)
      have h3 : i ≠ c - 1 := by omega
      have h4 : i < c := by omega
      rw [if_pos hi, if_pos hi, hget, if_neg h3, if_pos h4]
      simp [List.getD_eq_getElem?_getD, List.getElem?_eq_getElem h1]
    · rw [if_neg hi, if_neg hi]
  have hnul : out[min (st.value e).length (c - 1)]? = some 0 := by
    rw [hget]
    by_cases h1 : min (st.value e).length (c - 1) = c - 1
    · rw [if_pos h1]
    · have h2 : min (st.value e).length (c - 1) = (st.value e).length := by
        rcases min_choice (st.value e).length (c - 1) with h | h
        · exact h
        · exact absurd h h1
      have h3 : (st.value e).length < c := by
        have := min_le_right (st.value e).length (c - 1)
        omega
      rw [if_neg h1, h2, if_pos h3]
      simp [List.getD_eq_getElem?_getD]
  refine ⟨hlen', htake, hnul, ?_⟩
  intro hz
  have hk : min (st.value e).length (c - 1) < out.length := by
    rw [hlen']
    have := min_le_right (st.value e).length (c - 1)
    omega
  have hsplit := List.take_append_drop (min (st.value e).length (c - 1)) out
  have hdrop := List.drop_eq_getElem_cons hk
  have h0 : out[min (st.value e).length (c - 1)] = 0 := by
    rw [List.getElem?_eq_getElem hk] at hnul
    exact Option.some.inj hnul
  rw [h0] at hdrop
  rw [← hsplit, hdrop, htake]
  unfold cstr
  rw [List.takeWhile_append_of_pos]
  · simp only [ne_eq, decide_not, List.takeWhile_cons, decide_True, Bool.not_true,
      Bool.false_eq_true, if_false, List.append_nil]
    rw [List.take_eq_take]
    simp [min_comm]
  · intro a ha
    have : a ∈ st.value e := List.mem_of_mem_take ha
    have : a ≠ 0 := fun e0 => hz (e0 ▸ this)
    simpa using this

/-- On a non-null non-empty list and with a buffer of capacity `bufsize >= 1`
that does not exceed the `len + 1` bytes of the payload block at the removed
end, `q_remove_head` (resp. `q_remove_tail`) returns the first (resp. last)
entry without leaving the block and leaves in the buffer the first
`min len (bufsize-1)` bytes of its payload followed by a NUL: as a C string,
the payload cut to `bufsize - 1` bytes. -/
theorem remove_copies_inside_block (st : Heap) (head : Nat) (buf : List Nat)
    (bufsize : Nat) (hh : head ≠ 0) (hne : list_empty st head = false) (hc : 1 ≤ bufsize)
    (hsz : bufsize < 2 ^ 64) (hlen : buf.length = bufsize) :
    (bufsize ≤ (st.value (st.next head)).length + 1 →
        (q_remove_head st head (some buf) bufsize).fault = false ∧
        ∃ out, (q_remove_head st head (some buf) bufsize).elm = some (st.next head) ∧
          (q_remove_head st head (some buf) bufsize).buf = some out ∧
          HoldsTruncated (st.value (st.next head)) bufsize out) ∧
      (bufsize ≤ (st.value (st.prev head)).length + 1 →
        (q_remove_tail st head (some buf) bufsize).fault = false ∧
        ∃ out, (q_remove_tail st head (some buf) bufsize).elm = some (st.prev head) ∧
          (q_remove_tail st head (some buf) bufsize).buf = some out ∧
          HoldsTruncated (st.value (st.prev head)) bufsize out) := by
  constructor
  · intro hin
    obtain ⟨hf, out, h1, h2⟩ := copied_truncated
      (setNext (setPrev st (st.next (st.next head)) head) head
        ((setPrev st (st.next (st.next head)) head).next
          ((setPrev st (st.next (st.next head)) head).next head)))
      (st.next head) buf bufsize hc hsz hlen (by simpa using hin)
    refine ⟨?_, out, ?_, ?_, by simpa using h2⟩
    · simp only [q_remove_head, hh, hne, false_or, Bool.false_eq_true, if_false]
      exact hf
    · simp [q_remove_head, hh, hne, copyOut]
    · simp only [q_remove_head, hh, hne, false_or, Bool.false_eq_true, if_false]
      exact h1
  · intro hin
    obtain ⟨hf, out, h1, h2⟩ := copied_truncated
      (setPrev (setNext st (st.prev (st.prev head)) head) head
        ((setNext st (st.prev (st.prev head)) head).prev
          ((setNext st (st.prev (st.prev head)) head).prev head)))
      (st.prev head) buf bufsize hc hsz hlen (by simpa using hin)
    refine ⟨?_, out, ?_, ?_, by simpa using h2⟩
    · simp only [q_remove_tail, hh, hne, false_or, Bool.false_eq_true, if_false]
      exact hf
    · simp [q_remove_tail, hh, hne, copyOut]
    · simp only [q_remove_tail, hh, hne, false_or, Bool.false_eq_true, if_false]
      exact h1

/-- With `bufsize` beyond the `len + 1` bytes of the payload block at the
removed end, the copy of `q_remove_head` (resp. `q_remove_tail`) reads outside
the block. -/
theorem remove_copies_outside_block (st : Heap) (head : Nat) (buf : List Nat)
    (bufsize : Nat) (hh : head ≠ 0) (hne : list_empty st head = false) :
    ((st.value (st.next head)).length + 1 < bufsize →
        (q_remove_head st head (some buf) bufsize).fault = true) ∧
      ((st.value (st.prev head)).length + 1 < bufsize →
        (q_remove_tail st head (some buf) bufsize).fault = true) := by
  constructor
  · intro hout
    have := copiedBytes_outside
      (setNext (setPrev st (st.next (st.next head)) head) head
        ((setPrev st (st.next (st.next head)) head).next
          ((setPrev st (st.next (st.next head)) head).next head)))
      (st.next head) buf bufsize (by simpa using hout)
    simp only [q_remove_head, hh, hne, false_or, Bool.false_eq_true, if_false, copyOut, this]
    rfl
  · intro hout
    have := copiedBytes_outside
      (setPrev (setNext st (st.prev (st.prev head)) head) head
        ((setNext st (st.prev (st.prev head)) head).prev
          ((setNext st (st.prev (st.prev head)) head).prev head)))
      (st.prev head) buf bufsize (by simpa using hout)
    simp only [q_remove_tail, hh, hne, false_or, Bool.false_eq_true, if_false, copyOut, this]
    rfl

/-- C8: the removal of `"a"` (a payload block of two bytes) with a buffer of
eight bytes copies eight bytes from the block, six of them outside it, so the
copy has no defined result instead of leaving `"a"` and a NUL in the buffer;
with the two-byte buffer that the block covers, `"abc"` is cut to `"a"`. -/
theorem remove_copy_reads_past_payload :
    (build [[97]]).value ((build [[97]]).next 1) = [97] ∧
      (q_remove_head (build [[97]]) 1 (some (List.replicate 8 0)) 8).fault = true ∧
      (q_remove_tail (build [[97]]) 1 (some (List.replicate 8 0)) 8).fault = true ∧
      (q_remove_head (build [[97, 98, 99]]) 1 (some [7, 7]) 2).fault = false ∧
      (q_remove_head (build [[97, 98, 99]]) 1 (some [7, 7]) 2).buf = some [97, 0] ∧
      (q_remove_tail (build [[97, 98, 99]]) 1 (some [7, 7]) 2).fault = false ∧
      (q_remove_tail (build [[97, 98, 99]]) 1 (some [7, 7]) 2).buf = some [97, 0] := by
  decide

/-- C9: removing the entry `"a"` (two allocated bytes) with a buffer of eight
bytes reads the payload block at indices 0 to 7, and a removal with
`bufsize = 0` writes the buffer at index `2^64 - 1`. -/
theorem remove_copy_leaves_bounds :
    (build [[97]]).value 2 = [97] ∧
      (q_remove_head (build [[97]]) 1 (some (List.replicate 8 0)) 8).reads =
        [0, 1, 2, 3, 4, 5, 6, 7] ∧
      (q_remove_tail (build [[97]]) 1 (some (List.replicate 8 0)) 8).reads =
        [0, 1, 2, 3, 4, 5, 6, 7] ∧
      ¬ (∀ i ∈ (q_remove_head (build [[97]]) 1 (some (List.replicate 8 0)) 8).reads,
          i < ((build [[97]]).value 2).length + 1) ∧
      (q_remove_head (build [[97]]) 1 (some []) 0).writes = [2 ^ 64 - 1] ∧
      (q_remove_tail (build [[97]]) 1 (some []) 0).writes = [2 ^ 64 - 1] := by
  decide

/-- C10: `q_remove_head` and `q_remove_tail` return NULL exactly when the list
is null or empty, and then the memory and the output buffer are as before. -/
theorem remove_null_iff_null_or_empty (st : Heap) (head : Nat) (sp : Option (List Nat))
    (bufsize : Nat) :
    ((q_remove_head st head sp bufsize).elm = none ↔ (head = 0 ∨ list_empty st head = true)) ∧
      ((q_remove_head st head sp bufsize).elm = none →
        (q_remove_head st head sp bufsize).heap = st ∧
          (q_remove_head st head sp bufsize).buf = sp) ∧
      ((q_remove_tail st head sp bufsize).elm = none ↔ (head = 0 ∨ list_empty st head = true)) ∧
      ((q_remove_tail st head sp bufsize).elm = none →
        (q_remove_tail st head sp bufsize).heap = st ∧
          (q_remove_tail st head sp bufsize).buf = sp) := by
  by_cases hc : head = 0 ∨ list_empty st head = true
  · simp [q_remove_head, q_remove_tail, hc]
  · have e1 : ∀ s e, (copyOut s e sp bufsize).elm = some e := by
      intro s e; cases sp <;> rfl
    simp [q_remove_head, q_remove_tail, hc, e1]

/-! ## Failure paths, and reversing twice -/

/-- C11: `q_delete_mid` returns false, with the memory untouched, when the list
is null or empty; in every other case any result it returns carries true, and
on a well-formed non-empty list it does return (with true). -/
theorem q_delete_mid_false_iff_null_or_empty (fuel : Nat) (st : Heap) (head : Nat) :
    ((head = 0 ∨ list_empty st head = true) →
        q_delete_mid fuel st head = Outcome.done (false, st)) ∧
      (¬ (head = 0 ∨ list_empty st head = true) →
        ∀ r, q_delete_mid fuel st head = Outcome.done r → r.1 = true) ∧
      (∀ xs, IsList st head xs → xs ≠ [] → xs.length < fuel →
        ¬ (head = 0 ∨ list_empty st head = true) ∧
          ∃ st', q_delete_mid fuel st head = Outcome.done (true, st')) := by
  refine ⟨fun h => by simp [q_delete_mid, h], fun h r hr => ?_, fun xs hl hne hf => ?_⟩
  · simp only [q_delete_mid, h, if_false] at hr
    cases hm : midLoop st head fuel (st.next head) (st.next head) with
    | done slow =>
      rw [hm] at hr
      simp only [Outcome.done.injEq] at hr
      rw [← hr]
    | nullDeref => rw [hm] at hr; cases hr
    | useAfterFree => rw [hm] at hr; cases hr
    | outOfFuel => rw [hm] at hr; cases hr
  · obtain ⟨st', hrun, _⟩ := q_delete_mid_run st head xs fuel hl hne hf
    refine ⟨fun h => ?_, st', hrun⟩
    rw [show q_delete_mid fuel st head = Outcome.done (false, st) by simp [q_delete_mid, h]]
      at hrun
    simp at hrun

/-- C12: `q_insert_head` and `q_insert_tail` return false and leave every link
and every payload as before when the list is null or one of the two
allocations fails; they return true when the list is not null and both
allocations succeed (the entry's allocation returning a non-null address). -/
theorem insert_fails_without_change (st : Heap) (head : Nat) (s : List Nat)
    (okElm okVal : Bool) :
    ((head = 0 ∨ okElm = false ∨ okVal = false) →
        (q_insert_head st head s okElm okVal).1 = false ∧
          (q_insert_head st head s okElm okVal).2.next = st.next ∧
          (q_insert_head st head s okElm okVal).2.prev = st.prev ∧
          (q_insert_head st head s okElm okVal).2.value = st.value ∧
          (q_insert_tail st head s okElm okVal).1 = false ∧
          (q_insert_tail st head s okElm okVal).2.next = st.next ∧
          (q_insert_tail st head s okElm okVal).2.prev = st.prev ∧
          (q_insert_tail st head s okElm okVal).2.value = st.value) ∧
      ((head ≠ 0 ∧ st.brk ≠ 0) →
        (q_insert_head st head s true true).1 = true ∧
          (q_insert_tail st head s true true).1 = true) := by
  constructor
  · intro h
    by_cases h0 : head = 0
    · simp [q_insert_head, q_insert_tail, h0]
    · cases okElm with
      | false => simp [q_insert_head, q_insert_tail, h0, malloc]
      | true =>
        have hv : okVal = false := by simpa [h0] using h
        subst hv
        by_cases hb : st.brk = 0
        · simp [q_insert_head, q_insert_tail, h0, malloc, hb]
        · simp [q_insert_head, q_insert_tail, h0, malloc, hb]
  · rintro ⟨h0, hb⟩
    simp [q_insert_head, q_insert_tail, h0, malloc, hb]

/-- C13: on a well-formed list two calls of `q_reverse` in a row return, and
leave the well-formed list of the same nodes in the original order, with the
payloads unchanged. -/
theorem q_reverse_twice_restores (st : Heap) (head : Nat) (xs : List Nat) (fuel : Nat)
    (h : IsList st head xs) (hf : xs.length < fuel) :
    ∃ st1 st2, q_reverse fuel st head = Outcome.done st1 ∧
      q_reverse fuel st1 head = Outcome.done st2 ∧ IsList st2 head xs ∧
      traverse st2 head fuel = some xs ∧ st2.value = st.value := by
  obtain ⟨st1, hr1, hl1, hv1, _⟩ := q_reverse_run st head xs fuel h hf
  obtain ⟨st2, hr2, hl2, hv2, _⟩ := q_reverse_run st1 head xs.reverse fuel hl1
    (by simpa using hf)
  rw [List.reverse_reverse] at hl2
  exact ⟨st1, st2, hr1, hr2, hl2, traverse_of_isList hl2 hf, hv2.trans hv1⟩

/-- C13 at a concrete list: reversing `["a", "b", "c"]` twice. -/
theorem q_reverse_twice_restores_witness :
    ∃ st1 st2, q_reverse 4 (build [[97], [98], [99]]) 1 = Outcome.done st1 ∧
      q_reverse 4 st1 1 = Outcome.done st2 ∧ IsList st2 1 [2, 3, 4] ∧
      traverse st2 1 4 = some [2, 3, 4] ∧ st2.value = (build [[97], [98], [99]]).value :=
  q_reverse_twice_restores (build [[97], [98], [99]]) 1 [2, 3, 4] 4 (by decide) (by decide)

/-- C15: called with a null list `q_reverse` dereferences it (the loop header
reads `head->next`); called with an empty list it returns and leaves the
sentinel self-linked. -/
theorem q_reverse_null_dereferences :
    q_reverse 1 (build []) 0 = Outcome.nullDeref ∧
      (∀ fuel st, q_reverse fuel st 0 = Outcome.nullDeref) ∧
      ∃ st', q_reverse 1 (build []) 1 = Outcome.done st' ∧ st'.next 1 = 1 ∧ st'.prev 1 = 1 := by
  refine ⟨rfl, fun fuel st => by simp [q_reverse], ?_⟩
  obtain ⟨st', hr, hl, _⟩ := q_reverse_run (build []) 1 [] 1 (by decide) (by decide)
  refine ⟨st', hr, ?_⟩
  have hc := hl.2.2
  simp only [List.reverse_nil, Chain] at hc
  exact hc

/-! ## Duplicate deletion -/

theorem list_del_next (st : Heap) (y : Nat) :
    (list_del st y).next = fun x => if x = st.prev y then st.next y else st.next x := rfl

theorem list_del_prev (st : Heap) (y : Nat) :
    (list_del st y).prev = fun x => if x = st.next y then st.prev y else st.prev x := rfl

/-- One turn of the loop of `q_delete_dup` on a node that is last or whose
payload differs from its successor's: only the leading `list_del` acts. -/
theorem dupBody_distinct (st : Heap) (head y : Nat) (hp : st.prev y ≠ y)
    (hc : st.next y = head ∨ strcmp (st.value y) (st.value (st.next y)) ≠ 0) :
    dupBody st [] head y false = Outcome.done (list_del st y, [], false) := by
  have e1 : (list_del st y).next y = st.next y := by
    rw [list_del_next]; simp [Ne.symm hp]
  have hv : (list_del st y).value = st.value := rfl
  have hn : ¬ ((list_del st y).next y ≠ head ∧
      strcmp ((list_del st y).value y) ((list_del st y).value ((list_del st y).next y)) = 0) := by
    rw [e1, hv]
    rintro ⟨h1, h2⟩
    rcases hc with h | h
    · exact h1 h
    · exact h h2
  simp only [dupBody, List.not_mem_nil, if_false, hn]
  rfl

/-- One turn of the loop of `q_delete_dup` on a node whose payload equals its
successor's: the entry is released under the comparison and the block under
`if (has_dup)` unlinks and releases it again. -/
theorem dupBody_equal (st : Heap) (head y : Nat) (hp : st.prev y ≠ y)
    (h1 : st.next y ≠ head) (h2 : strcmp (st.value y) (st.value (st.next y)) = 0) :
    dupBody st [] head y false = Outcome.useAfterFree := by
  have e1 : (list_del st y).next y = st.next y := by
    rw [list_del_next]; simp [Ne.symm hp]
  have hv : (list_del st y).value = st.value := rfl
  have hn : (list_del st y).next y ≠ head ∧
      strcmp ((list_del st y).value y) ((list_del st y).value ((list_del st y).next y)) = 0 := by
    rw [e1, hv]
    exact ⟨h1, h2⟩
  simp [dupBody, hn, deleteEntry]

/-- The loop of `q_delete_dup` on the chain it walks: when no payload equals
its successor's every node is unlinked, and otherwise the loop releases an
entry twice. -/
theorem dupLoop_spec (head : Nat) :
    ∀ (ys : List Nat) (st : Heap) (fuel : Nat),
      Chain st.next st.prev head ys head → (head :: ys).Nodup → ys.length < fuel →
      (NoEqualNeighbours (ys.map st.value) →
        ∃ st', dupLoop head fuel st [] (st.next head) (st.next (st.next head)) false =
            Outcome.done st' ∧
          st'.next head = head ∧ st'.prev head = head ∧ st'.value = st.value ∧
          st'.brk = st.brk ∧ st'.freedEntries = st.freedEntries ∧
          st'.freedValues = st.freedValues) ∧
      (¬ NoEqualNeighbours (ys.map st.value) →
        dupLoop head fuel st [] (st.next head) (st.next (st.next head)) false =
          Outcome.useAfterFree)
  | [], st, fuel, hc, _, hf => by
    obtain ⟨k, rfl⟩ : ∃ k, fuel = k + 1 := ⟨fuel - 1, by simp at hf; omega⟩
    simp only [Chain] at hc
    refine ⟨fun _ => ⟨st, by simp [dupLoop, hc.1], hc.1, hc.2, rfl, rfl, rfl, rfl⟩, fun h => ?_⟩
    exact absurd trivial h
  | y :: ys, st, fuel, hc, hnd, hf => by
    obtain ⟨k, rfl⟩ : ∃ k, fuel = k + 1 := ⟨fuel - 1, by simp at hf; omega⟩
    have hc0 := hc
    simp only [Chain] at hc
    obtain ⟨h1, h2, h3⟩ := hc
    have hyh : y ≠ head := fun e => (List.nodup_cons.mp hnd).1 (by simp [e])
    have hnd' := (List.nodup_cons.mp hnd).2
    have hp : st.prev y ≠ y := by rw [h2]; exact Ne.symm hyh
    have hm : head ∉ ys := fun hh => (List.nodup_cons.mp hnd).1 (List.mem_cons_of_mem _ hh)
    have hch : Chain (list_del st y).next (list_del st y).prev head ys head := by
      rw [list_del_next, list_del_prev]
      exact Chain.unlink [] head hc0 hnd (List.nodup_cons.mp hnd).1
    have hnh : (list_del st y).next head = st.next y := by
      rw [list_del_next]; simp [h2]
    have ih := dupLoop_spec head ys (list_del st y) k hch
      (List.nodup_cons.mpr ⟨hm, (List.nodup_cons.mp hnd').2⟩) (by simp at hf; omega)
    rw [hnh] at ih
    have hv : (list_del st y).value = st.value := rfl
    rw [hv] at ih
    have hstep : (st.next y = head ∨ strcmp (st.value y) (st.value (st.next y)) ≠ 0) →
        dupLoop head (k + 1) st [] (st.next head) (st.next (st.next head)) false =
          dupLoop head k (list_del st y) [] (st.next y) ((list_del st y).next (st.next y))
            false := by
      intro hcond
      simp only [dupLoop, h1, hyh, if_false, dupBody_distinct st head y hp hcond]
    cases ys with
    | nil =>
      simp only [Chain] at h3
      have hcond : st.next y = head ∨ strcmp (st.value y) (st.value (st.next y)) ≠ 0 :=
        Or.inl h3.1
      rw [hstep hcond]
      refine ⟨fun _ => ?_, fun h => absurd trivial h⟩
      obtain ⟨st', hrun, r1, r2, r3, r4, r5, r6⟩ := ih.1 trivial
      exact ⟨st', hrun, r1, r2, r3, r4, r5, r6⟩
    | cons z zs =>
      have hz : st.next y = z := by
        simp only [Chain] at h3
        exact h3.1
      by_cases he : strcmp (st.value y) (st.value z) = 0
      · have hzh : z ≠ head := fun e => hm (by simp [e])
        refine ⟨fun h => absurd he h.1, fun _ => ?_⟩
        simp only [dupLoop, h1, hyh, if_false,
          dupBody_equal st head y hp (by rw [hz]; exact hzh) (by rw [hz]; exact he)]
      · have hcond : st.next y = head ∨ strcmp (st.value y) (st.value (st.next y)) ≠ 0 :=
          Or.inr (by rw [hz]; exact he)
        rw [hstep hcond]
        constructor
        · intro h
          obtain ⟨st', hrun, r1, r2, r3, r4, r5, r6⟩ := ih.1 h.2
          exact ⟨st', hrun, r1, r2, r3, r4, r5, r6⟩
        · intro h
          exact ih.2 (fun h' => h ⟨he, h'⟩)

/-- On a well-formed list in which no payload equals its successor's,
`q_delete_dup` returns true and leaves the list empty, and releases nothing. -/
theorem q_delete_dup_run (st : Heap) (head : Nat) (xs : List Nat) (fuel : Nat)
    (h : IsList st head xs) (hf : xs.length < fuel)
    (hne : NoEqualNeighbours (xs.map st.value)) :
    ∃ st', q_delete_dup fuel st head = Outcome.done (true, st') ∧ IsList st' head [] ∧
      st'.value = st.value ∧ st'.brk = st.brk ∧ st'.freedEntries = st.freedEntries := by
  obtain ⟨h0, hnd, hc⟩ := h
  obtain ⟨st', hrun, r1, r2, r3, r4, r5, _⟩ := (dupLoop_spec head xs st fuel hc hnd hf).1 hne
  refine ⟨st', ?_, ⟨h0, by simp, ?_⟩, r3, r4, r5⟩
  · simp only [q_delete_dup, h0, if_false, hrun]
  · simp only [Chain]; exact ⟨r1, r2⟩

/-- On a well-formed list in which some payload equals its successor's,
`q_delete_dup` releases an entry and then unlinks and releases it again: the
call has no result. -/
theorem q_delete_dup_faults (st : Heap) (head : Nat) (xs : List Nat) (fuel : Nat)
    (h : IsList st head xs) (hf : xs.length < fuel)
    (heq : ¬ NoEqualNeighbours (xs.map st.value)) :
    q_delete_dup fuel st head = Outcome.useAfterFree := by
  obtain ⟨h0, hnd, hc⟩ := h
  simp only [q_delete_dup, h0, if_false, (dupLoop_spec head xs st fuel hc hnd hf).2 heq]

/-- On a well-formed list, sorted or not, in which no payload equals its
successor's, `q_delete_dup` returns true and has unlinked every node: the
sentinel is self-linked and the traversal is empty; no payload changes. -/
theorem q_delete_dup_empties_distinct (st : Heap) (head : Nat) (xs : List Nat) (fuel : Nat)
    (h : IsList st head xs) (hf : xs.length < fuel)
    (hne : NoEqualNeighbours (xs.map st.value)) :
    ∃ st', q_delete_dup fuel st head = Outcome.done (true, st') ∧ st'.next head = head ∧
      st'.prev head = head ∧ traverse st' head fuel = some [] ∧ st'.value = st.value := by
  obtain ⟨st', hrun, hl, hv, _⟩ := q_delete_dup_run st head xs fuel h hf hne
  have hc := hl.2.2
  simp only [Chain] at hc
  have hpos : ([] : List Nat).length < fuel := by simp; omega
  exact ⟨st', hrun, hc.1, hc.2, traverse_of_isList hl hpos, hv⟩

/-- C20: on the well-formed list `["a", "a"]` the call `q_delete_dup` does not
return true with the sentinel self-linked: the first entry is released under
the comparison and then unlinked and released again under `if (has_dup)`, and
the call has no result, with fuel to spare as well.  On the unsorted list
`["c", "a", "b", "a"]`, where no payload equals its successor's, the call
returns true and leaves the list empty. -/
theorem q_delete_dup_releases_entry_twice :
    IsList (build [[97], [97]]) 1 [2, 3] ∧
      q_delete_dup 3 (build [[97], [97]]) 1 = Outcome.useAfterFree ∧
      q_delete_dup 10 (build [[97], [97]]) 1 = Outcome.useAfterFree ∧
      IsList (build [[99], [97], [98], [97]]) 1 [2, 3, 4, 5] ∧
      flagContents (q_delete_dup 5 (build [[99], [97], [98], [97]]) 1) 1 5 = some (true, []) :=
  ⟨by decide, rfl, rfl, by decide, by decide⟩

/-! ## Ring closure -/

/-- Inside a chain every `next` link is answered by the `prev` link of its
target, and every `prev` link by the `next` link of its target. -/
theorem Chain.closed {nx pv : Nat → Nat} :
    ∀ (xs : List Nat) (a z : Nat), Chain nx pv a xs z →
      (∀ n ∈ a :: xs, pv (nx n) = n) ∧ (∀ n ∈ xs ++ [z], nx (pv n) = n)
  | [], a, z, h => by
    simp only [Chain] at h
    constructor
    · intro n hn
      simp at hn; subst hn
      rw [h.1, h.2]
    · intro n hn
      simp at hn; subst hn
      rw [h.2, h.1]
  | x :: xs, a, z, h => by
    simp only [Chain] at h
    obtain ⟨h1, h2, h3⟩ := h
    obtain ⟨c1, c2⟩ := Chain.closed xs x z h3
    constructor
    · intro n hn
      rcases List.mem_cons.mp hn with e | hn'
      · subst e; rw [h1, h2]
      · exact c1 n hn'
    · intro n hn
      rcases List.mem_cons.mp hn with e | hn'
      · subst e; rw [h2, h1]
      · exact c2 n hn'

/-- A well-formed list is ring-closed at the sentinel and at every node. -/
theorem ringClosed_of_isList {st : Heap} {head : Nat} {xs : List Nat}
    (h : IsList st head xs) : RingClosed st (head :: xs) := by
  obtain ⟨c1, c2⟩ := Chain.closed xs head head h.2.2
  intro n hn
  refine ⟨c1 n hn, c2 n ?_⟩
  rcases List.mem_cons.mp hn with e | hn'
  · simp [e]
  · exact List.mem_append_left _ hn'

/-- A successful walk has followed a path that does not meet the sentinel, and
is no longer than the fuel allows. -/
theorem nextPath_of_walk {nx : Nat → Nat} {head : Nat} :
    ∀ (fuel node : Nat) (ys : List Nat), walk nx head fuel node = some ys →
      NextPath nx head node ys ∧ head ∉ ys ∧ ys.length < fuel
  | 0, _, _, h => by simp [walk] at h
  | fuel + 1, node, ys, h => by
    simp only [walk] at h
    by_cases hn : node = head
    · simp only [hn, if_true, Option.some.injEq] at h
      subst h
      exact ⟨hn, by simp, by simp⟩
    · simp only [hn, if_false, Option.map_eq_some'] at h
      obtain ⟨l, hl, rfl⟩ := h
      obtain ⟨p, m, len⟩ := nextPath_of_walk fuel (nx node) l hl
      refine ⟨⟨rfl, p⟩, ?_, by simp only [List.length_cons]; omega⟩
      simp only [List.mem_cons, not_or]
      exact ⟨Ne.symm hn, m⟩

/-- Along a path whose `next` links are answered by `prev`, the `prev` link of
a node leads to its predecessor. -/
theorem prev_mem_of_nextPath {nx pv : Nat → Nat} {z : Nat} :
    ∀ (xs : List Nat) (a : Nat), NextPath nx z (nx a) xs → (∀ n ∈ a :: xs, pv (nx n) = n) →
      ∀ y ∈ xs, pv y ∈ a :: xs
  | [], _, _, _, y, hy => by simp at hy
  | x :: xs, a, hp, hc, y, hy => by
    simp only [NextPath] at hp
    rcases List.mem_cons.mp hy with e | hy'
    · subst e
      have := hc a (by simp)
      rw [hp.1] at this
      rw [this]; simp
    · have := prev_mem_of_nextPath xs x hp.2 (fun n hn => hc n (List.mem_cons_of_mem _ hn)) y hy'
      exact List.mem_cons_of_mem _ this

/-- A path whose `next` links are answered by `prev` never meets a node twice. -/
theorem nodup_of_nextPath {nx pv : Nat → Nat} {z : Nat} :
    ∀ (xs : List Nat) (a : Nat), NextPath nx z (nx a) xs → (∀ n ∈ a :: xs, pv (nx n) = n) →
      a ∉ xs → (a :: xs).Nodup
  | [], _, _, _, _ => by simp
  | x :: xs, a, hp, hc, ha => by
    have hp' := hp
    simp only [NextPath] at hp
    have hc' : ∀ n ∈ x :: xs, pv (nx n) = n := fun n hn => hc n (List.mem_cons_of_mem _ hn)
    have hx : x ∉ xs := by
      intro hx
      have h1 := prev_mem_of_nextPath xs x hp.2 hc' x hx
      have h2 := hc a (by simp)
      rw [hp.1] at h2
      rw [h2] at h1
      exact ha h1
    exact List.nodup_cons.mpr ⟨ha, nodup_of_nextPath xs x hp.2 hc' hx⟩

/-- A path whose `next` links are answered by `prev` is a chain. -/
theorem chain_of_nextPath {nx pv : Nat → Nat} {z : Nat} :
    ∀ (xs : List Nat) (a : Nat), NextPath nx z (nx a) xs → (∀ n ∈ a :: xs, pv (nx n) = n) →
      Chain nx pv a xs z
  | [], a, hp, hc => by
    simp only [NextPath] at hp
    have := hc a (by simp)
    rw [hp] at this
    exact ⟨hp, this⟩
  | x :: xs, a, hp, hc => by
    simp only [NextPath] at hp
    have := hc a (by simp)
    rw [hp.1] at this
    exact ⟨hp.1, this, chain_of_nextPath xs x hp.2
      (fun n hn => hc n (List.mem_cons_of_mem _ hn))⟩

/-- The nodes a traversal finds, ring-closed, form a well-formed list. -/
theorem isList_of_traverse {st : Heap} {head fuel : Nat} {xs : List Nat} (h0 : head ≠ 0)
    (ht : traverse st head fuel = some xs) (hrc : RingClosed st (head :: xs)) :
    IsList st head xs ∧ xs.length < fuel := by
  obtain ⟨hp, hm, hlen⟩ := nextPath_of_walk fuel (st.next head) xs ht
  have hc : ∀ n ∈ head :: xs, st.prev (st.next n) = n := fun n hn => (hrc n hn).1
  exact ⟨⟨h0, nodup_of_nextPath xs head hp hc hm, chain_of_nextPath xs head hp hc⟩, hlen⟩

/-- A well-formed list keeps the ring, for any fuel that covers it. -/
theorem keepsRing_of_isList {st : Heap} {head fuel : Nat} {xs : List Nat}
    (h : IsList st head xs) (hf : xs.length < fuel) : KeepsRing st head fuel :=
  ⟨xs, traverse_of_isList h hf, ringClosed_of_isList h⟩

/-- A memory with the same links at the sentinel and the nodes holds the same list. -/
theorem IsList.of_links {st st' : Heap} {head : Nat} {xs : List Nat} (h : IsList st head xs)
    (hn : ∀ w ∈ head :: xs, st'.next w = st.next w)
    (hp : ∀ w ∈ head :: xs, st'.prev w = st.prev w) : IsList st' head xs := by
  refine ⟨h.1, h.2.1, Chain.congr xs head head (fun w hw => (hn w hw).symm) (fun w hw => ?_) h.2.2⟩
  refine (hp w ?_).symm
  rcases List.mem_append.mp hw with h' | h'
  · exact List.mem_cons_of_mem _ h'
  · simp at h'; simp [h']

/-- On a well-formed list `q_swap` returns and leaves the well-formed list of
the exchanged pairs. -/
theorem q_swap_run (st : Heap) (head : Nat) (xs : List Nat) (fuel : Nat)
    (h : IsList st head xs) (hf : xs.length < fuel) :
    ∃ st', q_swap fuel st head = Outcome.done st' ∧ IsList st' head (swapPairs xs) ∧
      st'.value = st.value ∧ st'.brk = st.brk := by
  obtain ⟨h0, hnd, hc⟩ := h
  have hm : head ∉ xs := (List.nodup_cons.mp hnd).1
  obtain ⟨st', hrun, hch, _, _, hv, hb, _, _⟩ :=
    swapLoop_spec head xs st head fuel hc hnd hm hf
  refine ⟨st', ?_, ⟨h0, List.nodup_cons.mpr ⟨fun hh => hm ((swapPairs_perm xs).subset hh), ?_⟩,
    hch⟩, hv, hb⟩
  · simp only [q_swap, h0, if_false]
    exact hrun
  · exact (swapPairs_perm xs).nodup_iff.mpr (List.nodup_cons.mp hnd).2

/-- Whatever the allocations do, `q_insert_head` and `q_insert_tail` leave a
well-formed list. -/
theorem insert_isList {st : Heap} {head : Nat} {xs : List Nat} (h : IsList st head xs)
    (hb : ∀ x ∈ head :: xs, x < st.brk) (s : List Nat) (okElm okVal : Bool) :
    (∃ xs', IsList (q_insert_head st head s okElm okVal).2 head xs' ∧
        xs'.length ≤ xs.length + 1) ∧
      ∃ xs', IsList (q_insert_tail st head s okElm okVal).2 head xs' ∧
        xs'.length ≤ xs.length + 1 := by
  have h0 : head ≠ 0 := h.1
  have hbrk : st.brk ≠ 0 := by
    have := hb head (by simp)
    omega
  have hrep : Represents st head xs (xs.map st.value) := ⟨h, rfl, hb⟩
  cases okElm with
  | false =>
    constructor
    · exact ⟨xs, by simpa [q_insert_head, h0, malloc] using h, by omega⟩
    · exact ⟨xs, by simpa [q_insert_tail, h0, malloc] using h, by omega⟩
  | true =>
    cases okVal with
    | false =>
      constructor
      · refine ⟨xs, IsList.of_links h (fun w _ => ?_) (fun w _ => ?_), by omega⟩
        · simp [q_insert_head, h0, malloc, hbrk]
        · simp [q_insert_head, h0, malloc, hbrk]
      · refine ⟨xs, IsList.of_links h (fun w _ => ?_) (fun w _ => ?_), by omega⟩
        · simp [q_insert_tail, h0, malloc, hbrk]
        · simp [q_insert_tail, h0, malloc, hbrk]
    | true =>
      constructor
      · obtain ⟨xs', hr, _, hl⟩ := stepQueue_represents hrep (Op.insertHead s)
        exact ⟨xs', hr.1, hl⟩
      · obtain ⟨xs', hr, _, hl⟩ := stepQueue_represents hrep (Op.insertTail s)
        exact ⟨xs', hr.1, hl⟩

/-- The removals `q_remove_head` and `q_remove_tail` leave a well-formed list. -/
theorem remove_isList {st : Heap} {head : Nat} {xs : List Nat} (h : IsList st head xs)
    (sp : Option (List Nat)) (bufsize : Nat) :
    (∃ xs', IsList (q_remove_head st head sp bufsize).heap head xs' ∧
        xs'.length ≤ xs.length + 1) ∧
      ∃ xs', IsList (q_remove_tail st head sp bufsize).heap head xs' ∧
        xs'.length ≤ xs.length + 1 := by
  have hb : ∀ x ∈ head :: xs, x < (head :: xs).sum + 1 := by
    intro x hx
    have := List.single_le_sum (fun _ _ => Nat.zero_le _) x hx
    omega
  have hl : IsList { st with brk := (head :: xs).sum + 1 } head xs := h
  have hrep : Represents { st with brk := (head :: xs).sum + 1 } head xs (xs.map st.value) :=
    ⟨hl, rfl, hb⟩
  constructor
  · obtain ⟨xs', hr, _, hlen⟩ := stepQueue_represents hrep (Op.removeHead sp bufsize)
    refine ⟨xs', IsList.of_links hr.1 (fun w _ => ?_) (fun w _ => ?_), hlen⟩
    · simp only [stepQueue, q_remove_head, list_empty]
      split <;> simp [copyOut_heap]
    · simp only [stepQueue, q_remove_head, list_empty]
      split <;> simp [copyOut_heap]
  · obtain ⟨xs', hr, _, hlen⟩ := stepQueue_represents hrep (Op.removeTail sp bufsize)
    refine ⟨xs', IsList.of_links hr.1 (fun w _ => ?_) (fun w _ => ?_), hlen⟩
    · simp only [stepQueue, q_remove_tail, list_empty]
      split <;> simp [copyOut_heap]
    · simp only [stepQueue, q_remove_tail, list_empty]
      split <;> simp [copyOut_heap]

/-- Ring closure across the public operations.  If the ring is closed at the
sentinel and at every node the traversal reaches (and the allocator hands out
addresses above them), then after `q_insert_head`, `q_insert_tail`,
`q_remove_head`, `q_remove_tail`, `q_delete_mid`, `q_swap`, `q_reverse` and
`q_sort` (each of which returns) the ring is closed at the sentinel and at
every node the traversal then reaches.  For `q_delete_dup` this holds when no
payload equals its successor's; otherwise the call releases an entry twice and
leaves no memory in which the ring could be closed. -/
theorem ring_closure_kept (st : Heap) (head fuel : Nat) (xs : List Nat) (h0 : head ≠ 0)
    (ht : traverse st head fuel = some xs) (hrc : RingClosed st (head :: xs))
    (hb : ∀ x ∈ head :: xs, x < st.brk) :
    (∀ s okElm okVal, KeepsRing (q_insert_head st head s okElm okVal).2 head (fuel + 1)) ∧
      (∀ s okElm okVal, KeepsRing (q_insert_tail st head s okElm okVal).2 head (fuel + 1)) ∧
      (∀ sp bufsize, KeepsRing (q_remove_head st head sp bufsize).heap head (fuel + 1)) ∧
      (∀ sp bufsize, KeepsRing (q_remove_tail st head sp bufsize).heap head (fuel + 1)) ∧
      (∃ r, q_delete_mid fuel st head = Outcome.done r ∧ KeepsRing r.2 head fuel) ∧
      (NoEqualNeighbours (xs.map st.value) →
        ∃ r, q_delete_dup fuel st head = Outcome.done r ∧ KeepsRing r.2 head fuel) ∧
      (¬ NoEqualNeighbours (xs.map st.value) →
        q_delete_dup fuel st head = Outcome.useAfterFree) ∧
      (∃ st', q_swap fuel st head = Outcome.done st' ∧ KeepsRing st' head fuel) ∧
      (∃ st', q_reverse fuel st head = Outcome.done st' ∧ KeepsRing st' head fuel) ∧
      ∃ st', q_sort fuel st head = Outcome.done st' ∧ KeepsRing st' head fuel := by
  obtain ⟨hl, hf⟩ := isList_of_traverse h0 ht hrc
  refine ⟨?_, ?_, ?_, ?_, ?_, ?_, ?_, ?_, ?_, ?_⟩
  · intro s okElm okVal
    obtain ⟨xs', hl', hlen⟩ := (insert_isList hl hb s okElm okVal).1
    exact keepsRing_of_isList hl' (by omega)
  · intro s okElm okVal
    obtain ⟨xs', hl', hlen⟩ := (insert_isList hl hb s okElm okVal).2
    exact keepsRing_of_isList hl' (by omega)
  · intro sp bufsize
    obtain ⟨xs', hl', hlen⟩ := (remove_isList hl sp bufsize).1
    exact keepsRing_of_isList hl' (by omega)
  · intro sp bufsize
    obtain ⟨xs', hl', hlen⟩ := (remove_isList hl sp bufsize).2
    exact keepsRing_of_isList hl' (by omega)
  · by_cases hne : xs = []
    · subst hne
      have he : st.next head = head := by
        have := hl.2.2
        simp only [Chain] at this
        exact this.1
      exact ⟨(false, st), by simp [q_delete_mid, list_empty, he], keepsRing_of_isList hl hf⟩
    · obtain ⟨st', hrun, hl', _⟩ := q_delete_mid_run st head xs fuel hl hne hf
      exact ⟨(true, st'), hrun, keepsRing_of_isList hl'
        (lt_of_le_of_lt (List.eraseIdx_sublist xs _).length_le hf)⟩
  · intro hne
    obtain ⟨st', hrun, hl', _⟩ := q_delete_dup_run st head xs fuel hl hf hne
    exact ⟨(true, st'), hrun, keepsRing_of_isList hl' (by simp; omega)⟩
  · intro heq
    exact q_delete_dup_faults st head xs fuel hl hf heq
  · obtain ⟨st', hrun, hl', _⟩ := q_swap_run st head xs fuel hl hf
    exact ⟨st', hrun, keepsRing_of_isList hl' (by rw [swapPairs_length]; exact hf)⟩
  · obtain ⟨st', hrun, hl', _⟩ := q_reverse_run st head xs fuel hl hf
    exact ⟨st', hrun, keepsRing_of_isList hl' (by simpa using hf)⟩
  · exact ⟨st, q_sort_returns_input fuel st head, keepsRing_of_isList hl hf⟩

/-- C14: the list `["a", "a"]` is ring-closed at the sentinel and at both
nodes, and `q_delete_dup` on it releases the first entry under the comparison
and then, under `if (has_dup)`, unlinks and releases that entry again: the call
does not return, so there is no memory after it in which the ring is closed.
On `["a", "b"]` the same call returns and the ring is closed. -/
theorem q_delete_dup_breaks_ring_closure :
    traverse (build [[97], [97]]) 1 3 = some [2, 3] ∧
      RingClosed (build [[97], [97]]) [1, 2, 3] ∧
      q_delete_dup 3 (build [[97], [97]]) 1 = Outcome.useAfterFree ∧
      RingClosed (build [[97], [98]]) [1, 2, 3] ∧
      flagContents (q_delete_dup 3 (build [[97], [98]]) 1) 1 3 = some (true, []) :=
  ⟨by decide, by decide, rfl, by decide, by decide⟩

/-! ## Merging and sorting node sequences -/

theorem mergeNodes_nil_left (val : Nat → List Nat) (bs : List Nat) :
    mergeNodes val [] bs = bs := by
  rw [mergeNodes]

theorem mergeNodes_nil_right (val : Nat → List Nat) (as : List Nat) :
    mergeNodes val as [] = as := by
  cases as with
  | nil => rw [mergeNodes]
  | cons a as => rw [mergeNodes]

theorem mergeNodes_cons_cons (val : Nat → List Nat) (a b : Nat) (as bs : List Nat) :
    mergeNodes val (a :: as) (b :: bs) =
      if strcmp (val a) (val b) ≤ 0 then a :: mergeNodes val as (b :: bs)
      else b :: mergeNodes val (a :: as) bs := by
  rw [mergeNodes]

/-- The merge holds exactly the nodes of its two inputs. -/
theorem mergeNodes_perm (val : Nat → List Nat) :
    ∀ (as bs : List Nat), (mergeNodes val as bs).Perm (as ++ bs)
  | [], bs => by rw [mergeNodes_nil_left]; exact List.Perm.refl _
  | a :: as, [] => by rw [mergeNodes_nil_right]; simp
  | a :: as, b :: bs => by
    rw [mergeNodes_cons_cons]
    split
    · exact (mergeNodes_perm val as (b :: bs)).cons a
    · have h := (mergeNodes_perm val (a :: as) bs).cons b
      exact h.trans (List.perm_middle.symm)
termination_by as bs => as.length + bs.length

/-- Each input of the merge keeps its order inside the result. -/
theorem mergeNodes_sublist (val : Nat → List Nat) :
    ∀ (as bs : List Nat), as.Sublist (mergeNodes val as bs) ∧ bs.Sublist (mergeNodes val as bs)
  | [], bs => by rw [mergeNodes_nil_left]; exact ⟨List.nil_sublist _, List.Sublist.refl _⟩
  | a :: as, [] => by rw [mergeNodes_nil_right]; exact ⟨List.Sublist.refl _, List.nil_sublist _⟩
  | a :: as, b :: bs => by
    rw [mergeNodes_cons_cons]
    split
    · have ih := mergeNodes_sublist val as (b :: bs)
      exact ⟨ih.1.cons₂ a, ih.2.cons a⟩
    · have ih := mergeNodes_sublist val (a :: as) bs
      exact ⟨ih.1.cons b, ih.2.cons₂ b⟩
termination_by as bs => as.length + bs.length

theorem strcmp_neg : ∀ (a b : List Nat), strcmp b a = - strcmp a b
  | [], [] => by simp [strcmp]
  | [], b :: _ => by simp [strcmp]
  | a :: _, [] => by simp [strcmp]
  | a :: as, b :: bs => by
    simp only [strcmp]
    by_cases h : a = b
    · subst h; simp [strcmp_neg as bs]
    · have h' : ¬ b = a := fun e => h e.symm
      simp [h, h']

/-- Of two payloads one compares `<= 0` against the other. -/
theorem strcmp_total (a b : List Nat) (h : ¬ strcmp a b ≤ 0) : strcmp b a ≤ 0 := by
  rw [strcmp_neg a b]; omega

/-- On payloads without NUL bytes, comparing `<= 0` is transitive. -/
theorem strcmp_trans : ∀ (a b c : List Nat), 0 ∉ a → 0 ∉ b → strcmp a b ≤ 0 →
    strcmp b c ≤ 0 → strcmp a c ≤ 0
  | [], _, [], _, _, _, _ => by simp [strcmp]
  | [], _, c :: _, _, _, _, _ => by simp only [strcmp]; omega
  | x :: a, [], _, ha, _, h1, _ => by
    simp only [strcmp] at h1
    exact absurd (by omega : x = 0) (fun e => ha (by simp [e]))
  | x :: a, y :: b, [], _, hb, _, h2 => by
    simp only [strcmp] at h2
    exact absurd (by omega : y = 0) (fun e => hb (by simp [e]))
  | x :: a, y :: b, z :: c, ha, hb, h1, h2 => by
    simp only [strcmp] at h1 h2 ⊢
    have ha' : 0 ∉ a := fun h => ha (List.mem_cons_of_mem _ h)
    have hb' : 0 ∉ b := fun h => hb (List.mem_cons_of_mem _ h)
    by_cases e1 : x = y
    · by_cases e2 : y = z
      · subst e1; subst e2
        simp only [if_true] at h1 h2 ⊢
        exact strcmp_trans a b c ha' hb' h1 h2
      · subst e1
        simp only [if_true, e2, if_false] at h1 h2 ⊢
        exact h2
    · by_cases e2 : y = z
      · subst e2
        simp only [e1, if_false] at h1 ⊢
        exact h1
      · simp only [e1, e2, if_false] at h1 h2
        have : ¬ x = z := by omega
        simp only [this, if_false]
        omega

theorem nonDecreasing_cons (p : List Nat) (l : List (List Nat)) :
    NonDecreasing (p :: l) ↔ (∀ q ∈ l.head?, strcmp p q ≤ 0) ∧ NonDecreasing l := by
  cases l with
  | nil => simp [NonDecreasing]
  | cons q l => simp [NonDecreasing]

theorem mergeNodes_head (val : Nat → List Nat) (as bs : List Nat) :
    ∀ q ∈ (mergeNodes val as bs).head?, q ∈ as.head? ∨ q ∈ bs.head? := by
  intro q hq
  cases as with
  | nil => rw [mergeNodes_nil_left] at hq; exact Or.inr hq
  | cons a as =>
    cases bs with
    | nil => rw [mergeNodes_nil_right] at hq; exact Or.inl hq
    | cons b bs =>
      rw [mergeNodes_cons_cons] at hq
      split at hq
      · exact Or.inl hq
      · exact Or.inr hq

/-- The merge of two non-decreasing sequences is non-decreasing. -/
theorem mergeNodes_nonDecreasing (val : Nat → List Nat) :
    ∀ (as bs : List Nat), NonDecreasing (as.map val) → NonDecreasing (bs.map val) →
      NonDecreasing ((mergeNodes val as bs).map val)
  | [], bs, _, hb => by rw [mergeNodes_nil_left]; exact hb
  | a :: as, [], ha, _ => by rw [mergeNodes_nil_right]; exact ha
  | a :: as, b :: bs, ha, hb => by
    rw [mergeNodes_cons_cons]
    have ha' := ha
    have hb' := hb
    rw [List.map_cons, nonDecreasing_cons] at ha' hb'
    split
    · rename_i hle
      rw [List.map_cons, nonDecreasing_cons]
      refine ⟨?_, mergeNodes_nonDecreasing val as (b :: bs) ha'.2 hb⟩
      intro q hq
      simp only [List.head?_map, Option.mem_def, Option.map_eq_some'] at hq
      obtain ⟨n, hn, rfl⟩ := hq
      rcases mergeNodes_head val as (b :: bs) n hn with h | h
      · exact ha'.1 (val n) (by simp only [List.head?_map, Option.mem_def] at h ⊢; simp [h])
      · simp at h; subst h; exact hle
    · rename_i hle
      rw [List.map_cons, nonDecreasing_cons]
      refine ⟨?_, mergeNodes_nonDecreasing val (a :: as) bs ha hb'.2⟩
      intro q hq
      simp only [List.head?_map, Option.mem_def, Option.map_eq_some'] at hq
      obtain ⟨n, hn, rfl⟩ := hq
      rcases mergeNodes_head val (a :: as) bs n hn with h | h
      · simp at h; subst h; exact strcmp_total _ _ hle
      · exact hb'.1 (val n) (by simp only [List.head?_map, Option.mem_def] at h ⊢; simp [h])
termination_by as bs => as.length + bs.length

theorem strcmp_self : ∀ a : List Nat, strcmp a a = 0
  | [] => by simp [strcmp]
  | a :: as => by simp [strcmp, strcmp_self as]

theorem nonDecreasing_iff_chain' (l : List (List Nat)) :
    NonDecreasing l ↔ List.Chain' (fun a b => strcmp a b ≤ 0) l := by
  induction l with
  | nil => simp [NonDecreasing]
  | cons p l ih =>
    cases l with
    | nil => simp [NonDecreasing]
    | cons q l => simp only [NonDecreasing, List.chain'_cons, ih]

theorem nonDecreasing_take (l : List (List Nat)) (k : Nat) (h : NonDecreasing l) :
    NonDecreasing (l.take k) := by
  rw [nonDecreasing_iff_chain'] at h ⊢
  exact h.take k

theorem nonDecreasing_drop (l : List (List Nat)) (k : Nat) (h : NonDecreasing l) :
    NonDecreasing (l.drop k) := by
  rw [nonDecreasing_iff_chain'] at h ⊢
  exact h.drop k

/-- In a non-decreasing sequence of payloads without NUL bytes the first
compares `<= 0` against every later one. -/
theorem head_le_of_nonDecreasing (val : Nat → List Nat) :
    ∀ (l : List Nat) (x : Nat), NonDecreasing ((x :: l).map val) →
      (∀ n ∈ x :: l, 0 ∉ val n) → ∀ a ∈ l, strcmp (val x) (val a) ≤ 0
  | [], _, _, _, a, ha => by simp at ha
  | y :: l, x, h, hz, a, ha => by
    simp only [List.map_cons, NonDecreasing] at h
    have hxy := h.1
    rcases List.mem_cons.mp ha with e | ha'
    · subst e; exact hxy
    · have ih := head_le_of_nonDecreasing val l y (by simpa using h.2)
        (fun n hn => hz n (List.mem_cons_of_mem _ hn)) a ha'
      exact strcmp_trans _ _ _ (hz x (by simp)) (hz y (by simp)) hxy ih

/-- Ties go to the left: in the merge of a non-decreasing left sequence (of
payloads without NUL bytes) with any right sequence, a left node stands before
every right node it compares `<= 0` against. -/
theorem mergeNodes_left_first (val : Nat → List Nat) :
    ∀ (as bs : List Nat), NonDecreasing (as.map val) → (∀ n ∈ as, 0 ∉ val n) →
      ∀ a ∈ as, ∀ b ∈ bs, strcmp (val a) (val b) ≤ 0 → [a, b].Sublist (mergeNodes val as bs)
  | [], _, _, _, a, ha, _, _, _ => by simp at ha
  | _ :: _, [], _, _, _, _, b, hb, _ => by simp at hb
  | x :: as, y :: bs, hs, hz, a, ha, b, hb, hab => by
    rw [mergeNodes_cons_cons]
    have hs' : NonDecreasing (as.map val) := by
      have := hs
      rw [List.map_cons, nonDecreasing_cons] at this
      exact this.2
    have hz' : ∀ n ∈ as, 0 ∉ val n := fun n hn => hz n (List.mem_cons_of_mem _ hn)
    split
    · rcases List.mem_cons.mp ha with e | ha'
      · subst e
        have hbm : b ∈ mergeNodes val as (y :: bs) :=
          (mergeNodes_perm val as (y :: bs)).mem_iff.mpr (List.mem_append_right _ hb)
        exact (List.singleton_sublist.mpr hbm).cons₂ a
      · exact (mergeNodes_left_first val as (y :: bs) hs' hz' a ha' b hb hab).cons x
    · rename_i hle
      rcases List.mem_cons.mp hb with e | hb'
      · subst e
        exfalso
        apply hle
        rcases List.mem_cons.mp ha with e | ha'
        · subst e; exact hab
        · exact strcmp_trans _ _ _ (hz x (by simp)) (hz a ha)
            (head_le_of_nonDecreasing val as x hs hz a ha') hab
      · exact (mergeNodes_left_first val (x :: as) bs hs hz a ha b hb' hab).cons y
termination_by as bs => as.length + bs.length

/-- Merging the two parts of a non-decreasing sequence gives the sequence back. -/
theorem mergeNodes_of_nonDecreasing (val : Nat → List Nat) :
    ∀ (as bs : List Nat), NonDecreasing ((as ++ bs).map val) → (∀ n ∈ as ++ bs, 0 ∉ val n) →
      mergeNodes val as bs = as ++ bs
  | [], bs, _, _ => by rw [mergeNodes_nil_left]; rfl
  | x :: as, [], _, _ => by rw [mergeNodes_nil_right]; simp
  | x :: as, y :: bs, hs, hz => by
    rw [mergeNodes_cons_cons]
    have hxy : strcmp (val x) (val y) ≤ 0 :=
      head_le_of_nonDecreasing val (as ++ y :: bs) x hs hz y (by simp)
    have hs' : NonDecreasing ((as ++ y :: bs).map val) := by
      have := hs
      rw [List.cons_append, List.map_cons, nonDecreasing_cons] at this
      exact this.2
    rw [if_pos hxy, mergeNodes_of_nonDecreasing val as (y :: bs) hs'
      (fun n hn => hz n (List.mem_cons_of_mem _ hn))]
    rfl

theorem sortNodes_short (val : Nat → List Nat) (xs : List Nat) (h : xs.length < 2) :
    sortNodes val xs = xs := by
  rw [sortNodes, if_pos h]

theorem sortNodes_long (val : Nat → List Nat) (xs : List Nat) (h : ¬ xs.length < 2) :
    sortNodes val xs =
      mergeNodes val (sortNodes val (xs.take ((xs.length + 1) / 2)))
        (sortNodes val (xs.drop ((xs.length + 1) / 2))) := by
  rw [sortNodes, if_neg h]

/-- The sorted sequence holds exactly the nodes of the input. -/
theorem sortNodes_perm (val : Nat → List Nat) :
    ∀ (n : Nat) (xs : List Nat), xs.length ≤ n → (sortNodes val xs).Perm xs
  | 0, xs, h => by rw [sortNodes_short val xs (by omega)]
  | n + 1, xs, h => by
    by_cases hs : xs.length < 2
    · rw [sortNodes_short val xs hs]
    · rw [sortNodes_long val xs hs]
      have h1 := sortNodes_perm val n (xs.take ((xs.length + 1) / 2))
        (by rw [List.length_take]; omega)
      have h2 := sortNodes_perm val n (xs.drop ((xs.length + 1) / 2))
        (by rw [List.length_drop]; omega)
      refine (mergeNodes_perm val _ _).trans ((h1.append h2).trans ?_)
      rw [List.take_append_drop]

/-- The sorted sequence is non-decreasing. -/
theorem sortNodes_nonDecreasing (val : Nat → List Nat) :
    ∀ (n : Nat) (xs : List Nat), xs.length ≤ n → NonDecreasing ((sortNodes val xs).map val)
  | 0, xs, h => by
    have : xs = [] := List.length_eq_zero.mp (by omega)
    subst this
    rw [sortNodes_short val [] (by simp)]
    simp [NonDecreasing]
  | n + 1, xs, h => by
    by_cases hs : xs.length < 2
    · rw [sortNodes_short val xs hs]
      match xs, hs with
      | [], _ => simp [NonDecreasing]
      | [_], _ => simp [NonDecreasing]
      | _ :: _ :: _, hs => simp only [List.length_cons] at hs; omega
    · rw [sortNodes_long val xs hs]
      exact mergeNodes_nonDecreasing val _ _
        (sortNodes_nonDecreasing val n _ (by rw [List.length_take]; omega))
        (sortNodes_nonDecreasing val n _ (by rw [List.length_drop]; omega))

/-- A non-decreasing sequence (of payloads without NUL bytes) is sorted into
itself. -/
theorem sortNodes_of_nonDecreasing (val : Nat → List Nat) :
    ∀ (n : Nat) (xs : List Nat), xs.length ≤ n → NonDecreasing (xs.map val) →
      (∀ x ∈ xs, 0 ∉ val x) → sortNodes val xs = xs
  | 0, xs, h, _, _ => by rw [sortNodes_short val xs (by omega)]
  | n + 1, xs, h, hs, hz => by
    by_cases hlen : xs.length < 2
    · rw [sortNodes_short val xs hlen]
    · rw [sortNodes_long val xs hlen]
      have h1 := sortNodes_of_nonDecreasing val n (xs.take ((xs.length + 1) / 2))
        (by rw [List.length_take]; omega)
        (by rw [List.map_take]; exact nonDecreasing_take _ _ hs)
        (fun x hx => hz x (List.mem_of_mem_take hx))
      have h2 := sortNodes_of_nonDecreasing val n (xs.drop ((xs.length + 1) / 2))
        (by rw [List.length_drop]; omega)
        (by rw [List.map_drop]; exact nonDecreasing_drop _ _ hs)
        (fun x hx => hz x (List.mem_of_mem_drop hx))
      rw [h1, h2, mergeNodes_of_nonDecreasing val _ _ (by rw [List.take_append_drop]; exact hs)
        (by rw [List.take_append_drop]; exact hz), List.take_append_drop]

/-! ## The merge-sort engine on the heap -/

/-- A chain through a node is a chain up to it followed by a chain from it. -/
theorem Chain.split {nx pv : Nat → Nat} (y z : Nat) (ys : List Nat) :
    ∀ (xs : List Nat) (a : Nat),
      Chain nx pv a (xs ++ y :: ys) z ↔ Chain nx pv a xs y ∧ Chain nx pv y ys z
  | [], a => by simp [Chain, and_assoc]
  | x :: xs, a => by
    rw [List.cons_append]
    simp only [Chain, Chain.split y z ys xs x, and_assoc]

/-- The loop of `merge_sort_list` stops with `slow` half as far along as the
last node `fast` can reach in steps of two. -/
theorem splitLoop_spec (st : Heap) (head : Nat) :
    ∀ (ys ss : List Nat) (slow fast fuel : Nat), NextPath st.next head fast ys →
      NextPath st.next head slow ss → head ∉ ys → head ∉ ss → ys ≠ [] →
      (ys.length - 1) / 2 < ss.length → ys.length < fuel →
      ∃ r, splitLoop st head fuel slow fast = Outcome.done r ∧
        ss[(ys.length - 1) / 2]? = some r
  | [], _, _, _, _, _, _, _, _, hne, _, _ => absurd rfl hne
  | [y], ss, slow, fast, fuel, hy, hs, _, hms, _, hl, hf => by
    obtain ⟨k, rfl⟩ : ∃ k, fuel = k + 1 := ⟨fuel - 1, by simp at hf; omega⟩
    simp only [NextPath] at hy
    cases ss with
    | nil => simp only [List.length_nil] at hl; omega
    | cons s ss =>
      simp only [NextPath] at hs
      have hsh : slow ≠ head := by
        rw [hs.1]; intro e; exact hms (by simp [e])
      refine ⟨slow, ?_, by simp [hs.1]⟩
      rw [hy.1]
      simp [splitLoop, hy.2, hsh]
  | [y1, y2], ss, slow, fast, fuel, hy, hs, _, hms, _, hl, hf => by
    obtain ⟨k, rfl⟩ : ∃ k, fuel = k + 1 := ⟨fuel - 1, by simp at hf; omega⟩
    simp only [NextPath] at hy
    cases ss with
    | nil => simp only [List.length_nil] at hl; omega
    | cons s ss =>
      simp only [NextPath] at hs
      have hsh : slow ≠ head := by
        rw [hs.1]; intro e; exact hms (by simp [e])
      refine ⟨slow, ?_, by simp [hs.1]⟩
      rw [hy.1]
      simp [splitLoop, hy.2.1, hy.2.2, hsh]
  | y1 :: y2 :: y3 :: ys, ss, slow, fast, fuel, hy, hs, hmy, hms, _, hl, hf => by
    obtain ⟨k, rfl⟩ : ∃ k, fuel = k + 1 := ⟨fuel - 1, by simp at hf; omega⟩
    have hy' := hy
    simp only [NextPath] at hy
    obtain ⟨e1, e2, e3, hy4⟩ := hy
    simp only [List.mem_cons, not_or] at hmy
    cases ss with
    | nil => simp only [List.length_nil] at hl; omega
    | cons s ss =>
      simp only [NextPath] at hs
      obtain ⟨es, hs2⟩ := hs
      have hsh : slow ≠ head := by
        rw [es]; intro e; exact hms (by simp [e])
      have hp3 : NextPath st.next head (st.next (st.next fast)) (y3 :: ys) := by
        rw [e1, e2]
        exact ⟨e3, hy4⟩
      obtain ⟨r, hr, hidx⟩ := splitLoop_spec st head (y3 :: ys) ss (st.next slow)
        (st.next (st.next fast)) k hp3 (by rw [es]; exact hs2)
        (by simp only [List.mem_cons, not_or]; exact hmy.2.2)
        (fun hh => hms (List.mem_cons_of_mem _ hh)) (by simp)
        (by simp only [List.length_cons] at hl ⊢; omega)
        (by simp only [List.length_cons] at hf ⊢; omega)
      refine ⟨r, ?_, ?_⟩
      · have c1 : st.next fast ≠ head := by rw [e1, e2]; exact Ne.symm hmy.2.1
        have c2 : st.next (st.next fast) ≠ head := by rw [e1, e2, e3]; exact Ne.symm hmy.2.2.1
        simp only [splitLoop, hsh, if_false, c1, c2, or_self]
        exact hr
      · have e : (y1 :: y2 :: y3 :: ys).length - 1 = ((y3 :: ys).length - 1) + 2 := by
          simp only [List.length_cons]; omega
        have e' : ((y3 :: ys).length - 1 + 2) / 2 = ((y3 :: ys).length - 1) / 2 + 1 := by omega
        rw [e, e', List.getElem?_cons_succ]
        exact hidx

theorem cut_next (st : Heap) (left head m w : Nat) (hne : st.next head ≠ head) (hm : head ≠ m) :
    (list_cut_position st left head m).next w =
      if w = left then st.next head else if w = m then left
      else if w = head then st.next m else st.next w := by
  simp only [list_cut_position, list_empty, hne, decide_False, Bool.false_eq_true, if_false, hm,
    setNext_next, setPrev_next]

theorem cut_prev (st : Heap) (left head m w : Nat) (hne : st.next head ≠ head) (hm : head ≠ m)
    (hml : m ≠ left) :
    (list_cut_position st left head m).prev w =
      if w = st.next head then left else if w = left then m
      else if w = st.next m then head else st.prev w := by
  simp only [list_cut_position, list_empty, hne, decide_False, Bool.false_eq_true, if_false, hm,
    setNext_next, setPrev_next, setNext_prev, setPrev_prev, if_true, if_neg (Ne.symm hml)]

theorem cut_fields (st : Heap) (left head m : Nat) :
    (list_cut_position st left head m).value = st.value ∧
      (list_cut_position st left head m).brk = st.brk ∧
      (list_cut_position st left head m).freedEntries = st.freedEntries ∧
      (list_cut_position st left head m).freedValues = st.freedValues := by
  unfold list_cut_position INIT_LIST_HEAD
  split
  · exact ⟨rfl, rfl, rfl, rfl⟩
  · split
    · exact ⟨rfl, rfl, rfl, rfl⟩
    · exact ⟨rfl, rfl, rfl, rfl⟩

/-- Cutting a well-formed list behind its node `m` moves the nodes up to `m`
to the sentinel `left` and keeps the rest, touching no other link. -/
theorem isList_cut {st : Heap} {head left m : Nat} {pre post : List Nat}
    (h : IsList st head (pre ++ m :: post)) (hl0 : left ≠ 0)
    (hl : left ∉ head :: (pre ++ m :: post)) :
    IsList (list_cut_position st left head m) left (pre ++ [m]) ∧
      IsList (list_cut_position st left head m) head post ∧
      (∀ w, w ∉ left :: head :: (pre ++ m :: post) →
        (list_cut_position st left head m).next w = st.next w ∧
          (list_cut_position st left head m).prev w = st.prev w) := by
  obtain ⟨h0, hnd, hc⟩ := h
  obtain ⟨hc1, hc2⟩ := (Chain.split m head post pre head).mp hc
  have hhx : head ∉ pre ++ m :: post := (List.nodup_cons.mp hnd).1
  have hndx : (pre ++ m :: post).Nodup := (List.nodup_cons.mp hnd).2
  obtain ⟨hndpre, hndpost, hdisj⟩ := List.nodup_append.mp hndx
  have hmpost : m ∉ post := (List.nodup_cons.mp hndpost).1
  have hmpre : m ∉ pre := fun hh => hdisj hh (List.mem_cons_self _ _)
  have hhm : head ≠ m := fun e => hhx (by simp [e])
  have hhpre : head ∉ pre := fun hh => hhx (List.mem_append_left _ hh)
  have hhpost : head ∉ post :=
    fun hh => hhx (List.mem_append_right _ (List.mem_cons_of_mem _ hh))
  have hlh : left ≠ head := fun e => hl (by simp [e])
  have hlm : left ≠ m := fun e => hl (by simp [e])
  have hlpre : left ∉ pre := fun hh => hl (by simp [hh])
  have hlpost : left ∉ post := fun hh => hl (by simp [hh])
  have hf := Chain.next_mem hc1
  have hz := Chain.next_mem hc2
  -- the two sides of the cut share no node
  have hsides : ∀ w, w ∈ pre ++ [m] → w ∈ post ++ [head] → False := by
    intro w h1 h2
    rcases List.mem_append.mp h1 with a | a
    · rcases List.mem_append.mp h2 with b | b
      · exact hdisj a (List.mem_cons_of_mem _ b)
      · simp at b; exact hhpre (b ▸ a)
    · simp at a
      rcases List.mem_append.mp h2 with b | b
      · exact hmpost (a ▸ b)
      · simp at b; exact hhm (b.symm.trans a)
  have hne : st.next head ≠ head := fun e => hsides head (e ▸ hf) (by simp)
  have hfl : st.next head ≠ left := by
    intro e; rw [e] at hf
    rcases List.mem_append.mp hf with a | a
    · exact hlpre a
    · simp at a; exact hlm a
  have hzl : st.next m ≠ left := by
    intro e; rw [e] at hz
    rcases List.mem_append.mp hz with a | a
    · exact hlpost a
    · simp at a; exact hlh a
  have hfz : st.next head ≠ st.next m := fun e => hsides _ hf (e ▸ hz)
  have hN := fun w => cut_next st left head m w hne hhm
  have hP := fun w => cut_prev st left head m w hne hhm (Ne.symm hlm)
  refine ⟨⟨hl0, ?_, ?_⟩, ⟨h0, List.nodup_cons.mpr ⟨hhpost, (List.nodup_cons.mp hndpost).2⟩, ?_⟩,
    ?_⟩
  · refine List.nodup_cons.mpr ⟨?_, ?_⟩
    · simp only [List.mem_append, List.mem_singleton, not_or]
      exact ⟨hlpre, hlm⟩
    · refine List.nodup_append.mpr ⟨hndpre, List.nodup_singleton _, ?_⟩
      intro w hw hw'
      simp at hw'
      exact hmpre (hw' ▸ hw)
  · rw [Chain.snoc]
    refine ⟨?_, ?_, ?_⟩
    · refine Chain.rehead hc1 ?_ ?_ ?_ ?_ hndpre hmpre
      · rw [hN]; simp
      · rw [hP]; simp
      · intro w hw
        have a1 : w ≠ left := fun e => hlpre (e ▸ hw)
        have a2 : w ≠ m := fun e => hmpre (e ▸ hw)
        have a3 : w ≠ head := fun e => hhpre (e ▸ hw)
        rw [hN]; simp [a1, a2, a3]
      · intro w hw hwf
        have a1 : w ≠ left := by
          intro e; subst e
          rcases List.mem_append.mp hw with a | a
          · exact hlpre a
          · simp at a; exact hlm a
        have a2 : w ≠ st.next m := fun e => hsides w hw (e ▸ hz)
        rw [hP]; simp [a1, a2, hwf]
    · rw [hN]; simp [Ne.symm hlm]
    · rw [hP]; simp [Ne.symm hfl]
  · refine Chain.rehead hc2 ?_ ?_ ?_ ?_ (List.nodup_cons.mp hndpost).2 hhpost
    · rw [hN]; simp [Ne.symm hlh, hhm]
    · rw [hP]; simp [Ne.symm hfz, hzl]
    · intro w hw
      have a1 : w ≠ left := fun e => hlpost (e ▸ hw)
      have a2 : w ≠ m := fun e => hmpost (e ▸ hw)
      have a3 : w ≠ head := fun e => hhpost (e ▸ hw)
      rw [hN]; simp [a1, a2, a3]
    · intro w hw hwz
      have a1 : w ≠ left := by
        intro e; subst e
        rcases List.mem_append.mp hw with a | a
        · exact hlpost a
        · simp at a; exact hlh a
      have a2 : w ≠ st.next head := fun e => hsides w (e ▸ hf) hw
      rw [hP]; simp [a1, a2, hwz]
  · intro w hw
    simp only [List.mem_cons, List.mem_append, not_or] at hw
    obtain ⟨a1, a2, a3, a4, a5⟩ := hw
    have b1 : w ≠ st.next head := by
      intro e; rw [e] at a3 a4
      rcases List.mem_append.mp hf with a | a
      · exact a3 a
      · simp at a; exact a4 a
    have b2 : w ≠ st.next m := by
      intro e; rw [e] at a5 a2
      rcases List.mem_append.mp hz with a | a
      · exact a5 a
      · simp at a; exact a2 a
    rw [hN, hP]
    simp [a1, a2, a4, b1, b2]

theorem splice_next (st : Heap) (src dst w : Nat) (hne : st.next src ≠ src) :
    (list_splice_tail st src dst).next w =
      if w = src then src else if w = st.prev dst then st.next src
      else if w = st.prev src then dst else st.next w := by
  simp only [list_splice_tail, list_empty, hne, decide_False, Bool.false_eq_true, if_false,
    INIT_LIST_HEAD, setNext_next, setPrev_next]

theorem splice_prev (st : Heap) (src dst w : Nat) (hne : st.next src ≠ src) :
    (list_splice_tail st src dst).prev w =
      if w = src then src else if w = st.next src then st.prev dst
      else if w = dst then st.prev src else st.prev w := by
  simp only [list_splice_tail, list_empty, hne, decide_False, Bool.false_eq_true, if_false,
    INIT_LIST_HEAD, setNext_prev, setPrev_prev]

theorem splice_fields (st : Heap) (src dst : Nat) :
    (list_splice_tail st src dst).value = st.value ∧
      (list_splice_tail st src dst).brk = st.brk ∧
      (list_splice_tail st src dst).freedEntries = st.freedEntries ∧
      (list_splice_tail st src dst).freedValues = st.freedValues := by
  unfold list_splice_tail INIT_LIST_HEAD
  split
  · exact ⟨rfl, rfl, rfl, rfl⟩
  · exact ⟨rfl, rfl, rfl, rfl⟩

/-- Splicing a well-formed list behind another appends its nodes there and
touches no link outside the two lists. -/
theorem isList_splice {st : Heap} {src dst : Nat} {xs out : List Nat}
    (hs : IsList st src xs) (hd : IsList st dst out)
    (hdisj : ∀ w, w ∈ src :: xs → w ∈ dst :: out → False) :
    IsList (list_splice_tail st src dst) dst (out ++ xs) ∧
      (∀ w, w ∉ src :: xs → w ∉ dst :: out →
        (list_splice_tail st src dst).next w = st.next w ∧
          (list_splice_tail st src dst).prev w = st.prev w) := by
  cases xs with
  | nil =>
    have he : st.next src = src := by
      have := hs.2.2
      simp only [Chain] at this
      exact this.1
    have e : list_splice_tail st src dst = st := by
      simp [list_splice_tail, list_empty, he]
    rw [e, List.append_nil]
    exact ⟨hd, fun _ _ _ => ⟨rfl, rfl⟩⟩
  | cons f rest =>
    obtain ⟨s0, snd, sc⟩ := hs
    obtain ⟨d0, dnd, dc⟩ := hd
    have sc' := sc
    simp only [Chain] at sc'
    obtain ⟨s1, s2, s3⟩ := sc'
    have hsf : src ≠ f := fun e => (List.nodup_cons.mp snd).1 (by simp [e])
    have hne : st.next src ≠ src := by rw [s1]; exact Ne.symm hsf
    have hN := fun w => splice_next st src dst w hne
    have hP := fun w => splice_prev st src dst w hne
    have hdlast := Chain.last_prev_mem out dst dc
    have hsnd' := (List.nodup_cons.mp snd).2
    have hfrest : f ∉ rest := (List.nodup_cons.mp hsnd').1
    have hsrest : src ∉ rest := fun hh => (List.nodup_cons.mp snd).1 (List.mem_cons_of_mem _ hh)
    have hdout : dst ∉ out := (List.nodup_cons.mp dnd).1
    have hpl_mem : st.prev src ∈ f :: rest := Chain.last_prev_mem rest f s3
    have hpl_ne_src : st.prev src ≠ src := by
      intro e; rw [e] at hpl_mem
      exact (List.nodup_cons.mp snd).1 hpl_mem
    have hpd_ne_src : st.prev dst ≠ src := fun e => hdisj src (by simp) (e ▸ hdlast)
    have hpd_ne_pl : st.prev dst ≠ st.prev src := by
      intro e
      exact hdisj (st.prev src) (List.mem_cons_of_mem _ hpl_mem) (e ▸ hdlast)
    refine ⟨⟨d0, ?_, ?_⟩, ?_⟩
    · refine List.nodup_cons.mpr ⟨?_, ?_⟩
      · intro hh
        rcases List.mem_append.mp hh with a | a
        · exact hdout a
        · exact hdisj dst (List.mem_cons_of_mem _ a) (by simp)
      · refine List.nodup_append.mpr ⟨(List.nodup_cons.mp dnd).2, hsnd', ?_⟩
        intro w hw hw'
        exact hdisj w (List.mem_cons_of_mem _ hw') (List.mem_cons_of_mem _ hw)
    · rw [Chain.split]
      constructor
      · refine Chain.retail dc ?_ ?_ ?_ ?_ (List.nodup_cons.mp dnd).2 hdout
        · rw [hP]; simp [Ne.symm hsf, s1]
        · rw [hN]; simp [hpd_ne_src, s1]
        · intro w hw
          have a1 : w ≠ src := fun e => hdisj w (by simp [e]) (List.mem_cons_of_mem _ hw)
          have a2 : w ≠ st.next src := by
            rw [s1]; intro e
            exact hdisj w (by simp [e]) (List.mem_cons_of_mem _ hw)
          have a3 : w ≠ dst := fun e => hdout (e ▸ hw)
          rw [hP]; simp [a1, a2, a3]
        · intro w hw hwn
          have a1 : w ≠ src := fun e => hdisj w (by simp [e]) hw
          have a3 : w ≠ st.prev src := fun e => hdisj w (e ▸ List.mem_cons_of_mem _ hpl_mem) hw
          rw [hN]; simp [a1, hwn, a3]
      · refine Chain.retail s3 ?_ ?_ ?_ ?_ (List.nodup_cons.mp hsnd').2 hfrest
        · have a1 : dst ≠ src := fun e => hdisj src (by simp) (by simp [e])
          have a2 : dst ≠ st.next src := by
            rw [s1]; intro e
            exact hdisj f (by simp) (by simp [e])
          rw [hP]; simp [a1, a2]
        · rw [hN]; simp [hpl_ne_src, Ne.symm hpd_ne_pl]
        · intro w hw
          have a1 : w ≠ src := fun e => hsrest (e ▸ hw)
          have a2 : w ≠ st.next src := by
            rw [s1]; intro e; exact hfrest (e ▸ hw)
          have a3 : w ≠ dst := fun e =>
            hdisj w (List.mem_cons_of_mem _ (List.mem_cons_of_mem _ hw)) (by simp [e])
          rw [hP]; simp [a1, a2, a3]
        · intro w hw hwn
          have a1 : w ≠ src := by
            intro e
            exact (List.nodup_cons.mp snd).1 (e ▸ hw)
          have a2 : w ≠ st.prev dst :=
            fun e => hdisj w (List.mem_cons_of_mem _ hw) (e ▸ hdlast)
          rw [hN]; simp [a1, a2, hwn]
    · intro w hw1 hw2
      have a1 : w ≠ src := fun e => hw1 (by simp [e])
      have a2 : w ≠ st.prev dst := fun e => hw2 (e ▸ hdlast)
      have a3 : w ≠ st.prev src := fun e => hw1 (e ▸ List.mem_cons_of_mem _ hpl_mem)
      have a4 : w ≠ st.next src := by
        rw [s1]; intro e; exact hw1 (by simp [e])
      have a5 : w ≠ dst := fun e => hw2 (by simp [e])
      rw [hN, hP]
      simp [a1, a2, a3, a4, a5]

/-- Unlinking the first node of a well-formed list leaves the list of the others
and touches no link outside the list. -/
theorem isList_del_first {st : Heap} {a x : Nat} {as : List Nat} (h : IsList st a (x :: as)) :
    IsList (list_del st x) a as ∧
      (∀ w, w ∉ a :: x :: as →
        (list_del st x).next w = st.next w ∧ (list_del st x).prev w = st.prev w) := by
  obtain ⟨h0, hnd, hc⟩ := h
  have hc' := hc
  simp only [Chain] at hc'
  obtain ⟨_, h2, h3⟩ := hc'
  have hz := Chain.next_mem h3
  have ha : a ∉ x :: as := (List.nodup_cons.mp hnd).1
  refine ⟨⟨h0, ?_, ?_⟩, ?_⟩
  · exact List.nodup_cons.mpr ⟨fun hh => ha (List.mem_cons_of_mem _ hh),
      (List.nodup_cons.mp (List.nodup_cons.mp hnd).2).2⟩
  · rw [list_del_next, list_del_prev]
    exact Chain.unlink [] a hc hnd ha
  · intro w hw
    simp only [List.mem_cons, not_or] at hw
    have b1 : w ≠ st.prev x := by rw [h2]; exact hw.1
    have b2 : w ≠ st.next x := by
      intro e; rw [e] at hw
      rcases List.mem_append.mp hz with c | c
      · exact hw.2.2 c
      · simp at c; exact hw.1 c
    rw [list_del_next, list_del_prev]
    simp [b1, b2]

theorem list_add_tail_frame {st : Heap} {s x : Nat} {out : List Nat} (h : IsList st s out) :
    ∀ w, w ∉ x :: s :: out →
      (list_add_tail st x s).next w = st.next w ∧ (list_add_tail st x s).prev w = st.prev w := by
  intro w hw
  have hp := Chain.last_prev_mem out s h.2.2
  simp only [List.mem_cons, not_or] at hw
  have b1 : w ≠ st.prev s := by
    intro e; rw [e] at hw
    rcases List.mem_cons.mp hp with c | c
    · exact hw.2.1 c
    · exact hw.2.2 c
  simp [list_add_tail, hw.1, hw.2.1, b1]

/-- One turn of the loop of `merge`: the first node of one list goes to the end
of the output list; no link outside the two lists is touched. -/
theorem isList_move_first {st : Heap} {a s x : Nat} {as out : List Nat}
    (ha : IsList st a (x :: as)) (hs : IsList st s out)
    (hdisj : ∀ w, w ∈ a :: x :: as → w ∈ s :: out → False) :
    IsList (list_add_tail (list_del st x) x s) a as ∧
      IsList (list_add_tail (list_del st x) x s) s (out ++ [x]) ∧
      (∀ w, w ∉ a :: x :: as → w ∉ s :: out →
        (list_add_tail (list_del st x) x s).next w = st.next w ∧
          (list_add_tail (list_del st x) x s).prev w = st.prev w) := by
  obtain ⟨hd1, hf1⟩ := isList_del_first ha
  have hs1 : IsList (list_del st x) s out :=
    IsList.of_links hs (fun w hw => (hf1 w (fun hh => hdisj w hh hw)).1)
      (fun w hw => (hf1 w (fun hh => hdisj w hh hw)).2)
  have hxs : x ∉ s :: out := fun hh => hdisj x (by simp) hh
  have hf2 := list_add_tail_frame (x := x) hs1
  have hnd := ha.2.1
  have hxa : x ∉ a :: as := by
    intro hh
    rcases List.mem_cons.mp hh with e | e
    · exact (List.nodup_cons.mp hnd).1 (by simp [e])
    · exact (List.nodup_cons.mp (List.nodup_cons.mp hnd).2).1 e
  refine ⟨?_, isList_list_add_tail hs1 hxs, ?_⟩
  · refine IsList.of_links hd1 (fun w hw => (hf2 w ?_).1) (fun w hw => (hf2 w ?_).2)
    · intro hh
      rcases List.mem_cons.mp hh with e | e
      · exact hxa (e ▸ hw)
      · refine hdisj w ?_ e
        rcases List.mem_cons.mp hw with c | c
        · simp [c]
        · exact List.mem_cons_of_mem _ (List.mem_cons_of_mem _ c)
    · intro hh
      rcases List.mem_cons.mp hh with e | e
      · exact hxa (e ▸ hw)
      · refine hdisj w ?_ e
        rcases List.mem_cons.mp hw with c | c
        · simp [c]
        · exact List.mem_cons_of_mem _ (List.mem_cons_of_mem _ c)
  · intro w hw1 hw2
    have h1 := hf1 w hw1
    have hwx : w ≠ x := fun e => hw1 (by simp [e])
    have h2 := hf2 w (by
      intro hh
      rcases List.mem_cons.mp hh with e | e
      · exact hwx e
      · exact hw2 e)
    exact ⟨h2.1.trans h1.1, h2.2.trans h1.2⟩

theorem move_first_fields (st : Heap) (x s : Nat) :
    (list_add_tail (list_del st x) x s).value = st.value ∧
      (list_add_tail (list_del st x) x s).brk = st.brk ∧
      (list_add_tail (list_del st x) x s).freedEntries = st.freedEntries ∧
      (list_add_tail (list_del st x) x s).freedValues = st.freedValues := by
  simp [list_add_tail, list_del]

theorem next_head_of_isList_cons {st : Heap} {a x : Nat} {as : List Nat}
    (h : IsList st a (x :: as)) : st.next a = x ∧ x ≠ a := by
  have hc := h.2.2
  simp only [Chain] at hc
  exact ⟨hc.1, fun e => (List.nodup_cons.mp h.2.1).1 (by simp [e])⟩

theorem list_empty_of_isList_nil {st : Heap} {a : Nat} (h : IsList st a []) :
    list_empty st a = true := by
  have hc := h.2.2
  simp only [Chain] at hc
  simp [list_empty, hc.1]

theorem list_empty_of_isList_cons {st : Heap} {a x : Nat} {as : List Nat}
    (h : IsList st a (x :: as)) : list_empty st a = false := by
  obtain ⟨h1, h2⟩ := next_head_of_isList_cons h
  simp [list_empty, h1, h2]

/-- The loop of `merge` followed by the final splice leaves in the output list
what it held, followed by the merge of the two input lists; no link outside the
three lists is touched. -/
theorem mergeLoop_spec (a b s : Nat) :
    ∀ (as bs out : List Nat) (st : Heap) (fuel : Nat),
      IsList st a as → IsList st b bs → IsList st s out →
      (∀ w, w ∈ a :: as → w ∈ b :: bs → False) → (∀ w, w ∈ a :: as → w ∈ s :: out → False) →
      (∀ w, w ∈ b :: bs → w ∈ s :: out → False) → as.length + bs.length < fuel →
      ∃ st' fin, mergeLoop a b s fuel st = Outcome.done st' ∧
        fin = list_splice_tail st' (if list_empty st' a = true then b else a) s ∧
        IsList fin s (out ++ mergeNodes st.value as bs) ∧
        (∀ w, w ∉ a :: as → w ∉ b :: bs → w ∉ s :: out →
          fin.next w = st.next w ∧ fin.prev w = st.prev w) ∧
        fin.value = st.value ∧ fin.brk = st.brk ∧ fin.freedEntries = st.freedEntries ∧
        fin.freedValues = st.freedValues
  | [], bs, out, st, fuel, ha, hb, hs, _, _, hbs, hf => by
    obtain ⟨k, rfl⟩ : ∃ k, fuel = k + 1 := ⟨fuel - 1, by omega⟩
    have he := list_empty_of_isList_nil ha
    obtain ⟨hl, hfr⟩ := isList_splice hb hs hbs
    obtain ⟨f1, f2, f3, f4⟩ := splice_fields st b s
    refine ⟨st, list_splice_tail st b s, by simp [mergeLoop, he], by simp [he], ?_,
      fun w _ h2 h3 => hfr w h2 h3, f1, f2, f3, f4⟩
    rw [mergeNodes_nil_left]
    exact hl
  | x :: as, [], out, st, fuel, ha, hb, hs, _, has, _, hf => by
    obtain ⟨k, rfl⟩ : ∃ k, fuel = k + 1 := ⟨fuel - 1, by omega⟩
    have he := list_empty_of_isList_cons ha
    have he' := list_empty_of_isList_nil hb
    obtain ⟨hl, hfr⟩ := isList_splice ha hs has
    obtain ⟨f1, f2, f3, f4⟩ := splice_fields st a s
    refine ⟨st, list_splice_tail st a s, by simp [mergeLoop, he, he'], by simp [he], ?_,
      fun w h1 _ h3 => hfr w h1 h3, f1, f2, f3, f4⟩
    rw [mergeNodes_nil_right]
    exact hl
  | x :: as, y :: bs, out, st, fuel, ha, hb, hs, hab, has, hbs, hf => by
    obtain ⟨k, rfl⟩ : ∃ k, fuel = k + 1 := ⟨fuel - 1, by omega⟩
    have hea := list_empty_of_isList_cons ha
    have heb := list_empty_of_isList_cons hb
    obtain ⟨hxa, _⟩ := next_head_of_isList_cons ha
    obtain ⟨hyb, _⟩ := next_head_of_isList_cons hb
    by_cases hle : strcmp (st.value x) (st.value y) ≤ 0
    · obtain ⟨m1, m2, m3⟩ := isList_move_first ha hs has
      obtain ⟨v1, v2, v3, v4⟩ := move_first_fields st x s
      have hb' : IsList (list_add_tail (list_del st x) x s) b (y :: bs) :=
        IsList.of_links hb (fun w hw => (m3 w (fun hh => hab w hh hw) (fun hh => hbs w hw hh)).1)
          (fun w hw => (m3 w (fun hh => hab w hh hw) (fun hh => hbs w hw hh)).2)
      have hxa' : x ∉ a :: as := by
        intro hh
        rcases List.mem_cons.mp hh with e | e
        · exact (List.nodup_cons.mp ha.2.1).1 (by simp [e])
        · exact (List.nodup_cons.mp (List.nodup_cons.mp ha.2.1).2).1 e
      obtain ⟨st', fin, r1, r2, r3, r4, r5, r6, r7, r8⟩ :=
        mergeLoop_spec a b s as (y :: bs) (out ++ [x]) (list_add_tail (list_del st x) x s) k
          m1 hb' m2
          (fun w h1 h2 => hab w (by
            rcases List.mem_cons.mp h1 with c | c
            · simp [c]
            · exact List.mem_cons_of_mem _ (List.mem_cons_of_mem _ c)) h2)
          (fun w h1 h2 => by
            have h1' : w ∈ a :: x :: as := by
              rcases List.mem_cons.mp h1 with c | c
              · simp [c]
              · exact List.mem_cons_of_mem _ (List.mem_cons_of_mem _ c)
            rcases List.mem_cons.mp h2 with c | c
            · exact has w h1' (by simp [c])
            · rcases List.mem_append.mp c with d | d
              · exact has w h1' (List.mem_cons_of_mem _ d)
              · simp at d; exact hxa' (d ▸ h1))
          (fun w h1 h2 => by
            rcases List.mem_cons.mp h2 with c | c
            · exact hbs w h1 (by simp [c])
            · rcases List.mem_append.mp c with d | d
              · exact hbs w h1 (List.mem_cons_of_mem _ d)
              · simp at d; exact hab x (by simp) (d ▸ h1))
          (by simp only [List.length_cons] at hf ⊢; omega)
      refine ⟨st', fin, ?_, r2, ?_, ?_, r5.trans v1, r6.trans v2, r7.trans v3, r8.trans v4⟩
      · simp only [mergeLoop, hea, heb, and_self, if_true, hxa, hyb, hle]
        exact r1
      · rw [v1] at r3
        rw [mergeNodes_cons_cons, if_pos hle]
        simpa using r3
      · intro w h1 h2 h3
        have hwx : w ≠ x := fun e => h1 (by simp [e])
        have q1 := r4 w (fun hh => h1 (by
            rcases List.mem_cons.mp hh with c | c
            · simp [c]
            · exact List.mem_cons_of_mem _ (List.mem_cons_of_mem _ c))) h2
          (fun hh => by
            rcases List.mem_cons.mp hh with c | c
            · exact h3 (by simp [c])
            · rcases List.mem_append.mp c with d | d
              · exact h3 (List.mem_cons_of_mem _ d)
              · simp at d; exact hwx d)
        have q2 := m3 w h1 h3
        exact ⟨q1.1.trans q2.1, q1.2.trans q2.2⟩
    · obtain ⟨m1, m2, m3⟩ := isList_move_first hb hs hbs
      obtain ⟨v1, v2, v3, v4⟩ := move_first_fields st y s
      have ha' : IsList (list_add_tail (list_del st y) y s) a (x :: as) :=
        IsList.of_links ha (fun w hw => (m3 w (fun hh => hab w hw hh) (fun hh => has w hw hh)).1)
          (fun w hw => (m3 w (fun hh => hab w hw hh) (fun hh => has w hw hh)).2)
      have hyb' : y ∉ b :: bs := by
        intro hh
        rcases List.mem_cons.mp hh with e | e
        · exact (List.nodup_cons.mp hb.2.1).1 (by simp [e])
        · exact (List.nodup_cons.mp (List.nodup_cons.mp hb.2.1).2).1 e
      obtain ⟨st', fin, r1, r2, r3, r4, r5, r6, r7, r8⟩ :=
        mergeLoop_spec a b s (x :: as) bs (out ++ [y]) (list_add_tail (list_del st y) y s) k
          ha' m1 m2
          (fun w h1 h2 => hab w h1 (by
            rcases List.mem_cons.mp h2 with c | c
            · simp [c]
            · exact List.mem_cons_of_mem _ (List.mem_cons_of_mem _ c)))
          (fun w h1 h2 => by
            rcases List.mem_cons.mp h2 with c | c
            · exact has w h1 (by simp [c])
            · rcases List.mem_append.mp c with d | d
              · exact has w h1 (List.mem_cons_of_mem _ d)
              · simp at d; exact hab y (d ▸ h1) (by simp))
          (fun w h1 h2 => by
            have h1' : w ∈ b :: y :: bs := by
              rcases List.mem_cons.mp h1 with c | c
              · simp [c]
              · exact List.mem_cons_of_mem _ (List.mem_cons_of_mem _ c)
            rcases List.mem_cons.mp h2 with c | c
            · exact hbs w h1' (by simp [c])
            · rcases List.mem_append.mp c with d | d
              · exact hbs w h1' (List.mem_cons_of_mem _ d)
              · simp at d; exact hyb' (d ▸ h1))
          (by simp only [List.length_cons] at hf ⊢; omega)
      refine ⟨st', fin, ?_, r2, ?_, ?_, r5.trans v1, r6.trans v2, r7.trans v3, r8.trans v4⟩
      · simp only [mergeLoop, hea, heb, and_self, if_true, hxa, hyb, hle, if_false]
        exact r1
      · rw [v1] at r3
        rw [mergeNodes_cons_cons, if_neg hle]
        simpa using r3
      · intro w h1 h2 h3
        have hwy : w ≠ y := fun e => h2 (by simp [e])
        have q1 := r4 w h1 (fun hh => h2 (by
            rcases List.mem_cons.mp hh with c | c
            · simp [c]
            · exact List.mem_cons_of_mem _ (List.mem_cons_of_mem _ c)))
          (fun hh => by
            rcases List.mem_cons.mp hh with c | c
            · exact h3 (by simp [c])
            · rcases List.mem_append.mp c with d | d
              · exact h3 (List.mem_cons_of_mem _ d)
              · simp at d; exact hwy d)
        have q2 := m3 w h2 h3
        exact ⟨q1.1.trans q2.1, q1.2.trans q2.2⟩
termination_by as bs => as.length + bs.length

/-- On three well-formed lists that share no node `merge` returns and leaves in
the output list what it held, followed by the merge of the two input lists; no
link outside the three lists is touched. -/
theorem merge_run (a b s : Nat) (as bs out : List Nat) (st : Heap) (fuel : Nat)
    (ha : IsList st a as) (hb : IsList st b bs) (hs : IsList st s out)
    (hab : ∀ w, w ∈ a :: as → w ∈ b :: bs → False)
    (has : ∀ w, w ∈ a :: as → w ∈ s :: out → False)
    (hbs : ∀ w, w ∈ b :: bs → w ∈ s :: out → False) (hf : as.length + bs.length < fuel) :
    ∃ st', merge fuel st a b s = Outcome.done st' ∧
      IsList st' s (out ++ mergeNodes st.value as bs) ∧
      (∀ w, w ∉ a :: as → w ∉ b :: bs → w ∉ s :: out →
        st'.next w = st.next w ∧ st'.prev w = st.prev w) ∧
      st'.value = st.value ∧ st'.brk = st.brk ∧ st'.freedEntries = st.freedEntries ∧
      st'.freedValues = st.freedValues := by
  cases as with
  | nil =>
    have he := list_empty_of_isList_nil ha
    obtain ⟨hl, hfr⟩ := isList_splice hb hs hbs
    obtain ⟨f1, f2, f3, f4⟩ := splice_fields st b s
    refine ⟨list_splice_tail st b s, by simp [merge, he], ?_, fun w _ h2 h3 => hfr w h2 h3,
      f1, f2, f3, f4⟩
    rw [mergeNodes_nil_left]
    exact hl
  | cons x as =>
    have hea := list_empty_of_isList_cons ha
    cases bs with
    | nil =>
      have he := list_empty_of_isList_nil hb
      obtain ⟨hl, hfr⟩ := isList_splice ha hs has
      obtain ⟨f1, f2, f3, f4⟩ := splice_fields st a s
      refine ⟨list_splice_tail st a s, by simp [merge, he, hea], ?_,
        fun w h1 _ h3 => hfr w h1 h3, f1, f2, f3, f4⟩
      rw [mergeNodes_nil_right]
      exact hl
    | cons y bs =>
      have heb := list_empty_of_isList_cons hb
      obtain ⟨st', fin, r1, r2, r3, r4, r5, r6, r7, r8⟩ :=
        mergeLoop_spec a b s (x :: as) (y :: bs) out st fuel ha hb hs hab has hbs hf
      subst r2
      refine ⟨_, ?_, r3, r4, r5, r6, r7, r8⟩
      simp only [merge, hea, heb, Bool.false_eq_true, if_false, r1]

theorem msl_unfold (k : Nat) (st : Heap) (head slow : Nat) (h0 : head ≠ 0)
    (he : list_empty st head = false) (hsg : list_is_singular st head = false)
    (hsp : splitLoop st head (k + 1) (st.next head) (st.next head) = Outcome.done slow)
    (s1 s2 s3 : Heap)
    (h1 : merge_sort_list k (list_cut_position (INIT_LIST_HEAD (INIT_LIST_HEAD
      { st with brk := st.brk + 2 } st.brk) (st.brk + 1)) (st.brk + 1) head slow)
      (st.brk + 1) = Outcome.done s1)
    (h2 : merge_sort_list k s1 head = Outcome.done s2)
    (h3 : merge (k + 1) s2 (st.brk + 1) head st.brk = Outcome.done s3) :
    merge_sort_list (k + 1) st head =
      Outcome.done (list_splice_tail (INIT_LIST_HEAD s3 head) st.brk head) := by
  simp only [merge_sort_list, h0, he, hsg, hsp, Bool.false_eq_true, or_self, if_false]
  rw [h1]
  simp only
  rw [h2]
  simp only
  rw [h3]

/-- The two local sentinels of `merge_sort_list` are set up without touching
any link below the allocation frontier. -/
theorem locals_spec (st : Heap) (hb : st.brk ≠ 0) :
    IsList (INIT_LIST_HEAD (INIT_LIST_HEAD { st with brk := st.brk + 2 } st.brk) (st.brk + 1))
        st.brk [] ∧
      (∀ w, w < st.brk →
        (INIT_LIST_HEAD (INIT_LIST_HEAD { st with brk := st.brk + 2 } st.brk)
            (st.brk + 1)).next w = st.next w ∧
          (INIT_LIST_HEAD (INIT_LIST_HEAD { st with brk := st.brk + 2 } st.brk)
            (st.brk + 1)).prev w = st.prev w) := by
  refine ⟨⟨hb, by simp, ?_⟩, ?_⟩
  · simp [Chain, INIT_LIST_HEAD]
  · intro w hw
    have h1 : w ≠ st.brk := by omega
    have h2 : w ≠ st.brk + 1 := by omega
    simp [INIT_LIST_HEAD, h1, h2]

theorem init_head_spec (st : Heap) (head : Nat) (h0 : head ≠ 0) :
    IsList (INIT_LIST_HEAD st head) head [] ∧
      ∀ w, w ≠ head →
        (INIT_LIST_HEAD st head).next w = st.next w ∧
          (INIT_LIST_HEAD st head).prev w = st.prev w := by
  refine ⟨⟨h0, by simp, ?_⟩, ?_⟩
  · simp [Chain, INIT_LIST_HEAD]
  · intro w hw
    simp [INIT_LIST_HEAD, hw]

/-- On a well-formed list whose nodes lie below the allocation frontier
`merge_sort_list` returns and leaves in the same sentinel the well-formed list
`sortNodes` describes; payloads are unchanged and no link of another node below
the frontier is touched. -/
theorem merge_sort_list_run :
    ∀ (fuel : Nat) (st : Heap) (head : Nat) (xs : List Nat), IsList st head xs →
      (∀ x ∈ head :: xs, x < st.brk) → xs.length < fuel →
      ∃ st', merge_sort_list fuel st head = Outcome.done st' ∧
        IsList st' head (sortNodes st.value xs) ∧ st'.value = st.value ∧ st.brk ≤ st'.brk ∧
        (∀ w, w ∉ head :: xs → w < st.brk →
          st'.next w = st.next w ∧ st'.prev w = st.prev w) ∧
        st'.freedEntries = st.freedEntries ∧ st'.freedValues = st.freedValues
  | 0, _, _, _, _, _, hf => absurd hf (Nat.not_lt_zero _)
  | k + 1, st, head, xs, hl, hb, hf => by
    have h0 := hl.1
    have hm : head ∉ xs := (List.nodup_cons.mp hl.2.1).1
    by_cases hlen : xs.length < 2
    · have hres : merge_sort_list (k + 1) st head = Outcome.done st := by
        match xs, hl, hlen with
        | [], hl, _ => simp [merge_sort_list, h0, list_empty_of_isList_nil hl]
        | [x], hl, _ =>
          have hc := hl.2.2
          simp only [Chain] at hc
          have hx : x ≠ head := (next_head_of_isList_cons hl).2
          simp [merge_sort_list, h0, list_is_singular, hc.1, hc.2.2.1, hx]
        | _ :: _ :: _, _, h => simp only [List.length_cons] at h; omega
      refine ⟨st, hres, ?_, rfl, le_refl _, fun _ _ _ => ⟨rfl, rfl⟩, rfl, rfl⟩
      rw [sortNodes_short _ _ hlen]
      exact hl
    · have hflags : list_empty st head = false ∧ list_is_singular st head = false := by
        match xs, hl, hlen with
        | [], _, h => simp at h
        | [_], _, h => simp at h
        | x1 :: x2 :: rest, hl, _ =>
          have hc := hl.2.2
          simp only [Chain] at hc
          have hnd := hl.2.1
          have hx1 : x1 ≠ head := fun e => (List.nodup_cons.mp hnd).1 (by simp [e])
          have hx2 : x2 ≠ head := fun e => (List.nodup_cons.mp hnd).1 (by simp [e])
          simp [list_empty, list_is_singular, hc.1, hc.2.2.1, hx1, hx2]
      have hne : xs ≠ [] := by
        intro e; rw [e] at hlen; simp at hlen
      have hpath := Chain.nextPath xs head head hl.2.2
      have hidxlt : (xs.length - 1) / 2 < xs.length := by omega
      obtain ⟨r, hsp, hidx⟩ := splitLoop_spec st head xs xs (st.next head) (st.next head)
        (k + 1) hpath hpath hm hm hne hidxlt hf
      have hK : (xs.length + 1) / 2 = (xs.length - 1) / 2 + 1 := by omega
      have hrget : xs[(xs.length - 1) / 2] = r := by
        rw [List.getElem?_eq_getElem hidxlt] at hidx
        exact Option.some.inj hidx
      have htake : xs.take ((xs.length + 1) / 2) = xs.take ((xs.length - 1) / 2) ++ [r] := by
        rw [hK, List.take_succ, hidx]; rfl
      have hsplit : xs = xs.take ((xs.length - 1) / 2) ++ r :: xs.drop ((xs.length + 1) / 2) := by
        rw [hK, ← hrget, ← List.drop_eq_getElem_cons hidxlt, List.take_append_drop]
      have hprelen : (xs.take ((xs.length - 1) / 2)).length = (xs.length - 1) / 2 := by
        rw [List.length_take]; omega
      have hpostlen : (xs.drop ((xs.length + 1) / 2)).length = xs.length - (xs.length + 1) / 2 :=
        List.length_drop _ _
      -- name the two parts
      obtain ⟨pre, hpre⟩ : ∃ pre, pre = xs.take ((xs.length - 1) / 2) := ⟨_, rfl⟩
      obtain ⟨post, hpost⟩ : ∃ post, post = xs.drop ((xs.length + 1) / 2) := ⟨_, rfl⟩
      rw [← hpre] at htake hsplit hprelen
      rw [← hpost] at hsplit hpostlen
      have hsubL : ∀ w, w ∈ pre ++ [r] → w ∈ xs := by
        intro w hw
        rw [hsplit]
        rcases List.mem_append.mp hw with c | c
        · exact List.mem_append_left _ c
        · simp at c; simp [c]
      have hsubR : ∀ w, w ∈ post → w ∈ xs := by
        intro w hw
        rw [hsplit]
        exact List.mem_append_right _ (List.mem_cons_of_mem _ hw)
      have hndx : (pre ++ r :: post).Nodup := by
        rw [← hsplit]; exact (List.nodup_cons.mp hl.2.1).2
      have hdisjLR : ∀ w, w ∈ pre ++ [r] → w ∈ post → False := by
        intro w hw hw'
        obtain ⟨_, n2, n3⟩ := List.nodup_append.mp hndx
        rcases List.mem_append.mp hw with c | c
        · exact n3 c (List.mem_cons_of_mem _ hw')
        · simp at c; exact (List.nodup_cons.mp n2).1 (c ▸ hw')
      have hbx : ∀ w, w ∈ xs → w < st.brk := fun w hw => hb w (List.mem_cons_of_mem _ hw)
      have hbh : head < st.brk := hb head (by simp)
      have hbrk : st.brk ≠ 0 := by omega
      have hl' : IsList st head (pre ++ r :: post) := by rw [← hsplit]; exact hl
      -- the locals
      obtain ⟨hsortedC, hfrC⟩ := locals_spec st hbrk
      have hlC : IsList (INIT_LIST_HEAD (INIT_LIST_HEAD { st with brk := st.brk + 2 } st.brk)
          (st.brk + 1)) head (pre ++ r :: post) :=
        IsList.of_links hl' (fun w hw => (hfrC w (hb w (by rw [hsplit]; exact hw))).1)
          (fun w hw => (hfrC w (hb w (by rw [hsplit]; exact hw))).2)
      have hleft : st.brk + 1 ∉ head :: (pre ++ r :: post) := by
        intro hh
        have := hb (st.brk + 1) (by rw [hsplit]; exact hh)
        omega
      have hsorted_notin : st.brk ∉ head :: (pre ++ r :: post) := by
        intro hh
        have := hb st.brk (by rw [hsplit]; exact hh)
        omega
      -- the cut
      obtain ⟨hcutL, hcutR, hfrD⟩ := isList_cut hlC (by omega) hleft
      obtain ⟨hvD, hbD, hfeD, hfvD⟩ := cut_fields (INIT_LIST_HEAD (INIT_LIST_HEAD
        { st with brk := st.brk + 2 } st.brk) (st.brk + 1)) (st.brk + 1) head r
      obtain ⟨stD, hstD⟩ : ∃ stD, stD = list_cut_position (INIT_LIST_HEAD (INIT_LIST_HEAD
        { st with brk := st.brk + 2 } st.brk) (st.brk + 1)) (st.brk + 1) head r := ⟨_, rfl⟩
      rw [← hstD] at hcutL hcutR hfrD hvD hbD hfeD hfvD
      have hvD' : stD.value = st.value := hvD
      have hbD' : stD.brk = st.brk + 2 := hbD
      have hfeD' : stD.freedEntries = st.freedEntries := hfeD
      have hfvD' : stD.freedValues = st.freedValues := hfvD
      have hsortedD : IsList stD st.brk [] :=
        IsList.of_links hsortedC
          (fun w hw => by
            simp at hw; subst hw
            exact (hfrD _ (by
              intro hh
              rcases List.mem_cons.mp hh with c | c
              · omega
              · exact hsorted_notin c)).1)
          (fun w hw => by
            simp at hw; subst hw
            exact (hfrD _ (by
              intro hh
              rcases List.mem_cons.mp hh with c | c
              · omega
              · exact hsorted_notin c)).2)
      -- first recursive call
      obtain ⟨stE, hE, hlE, hvE, hbE, hfrE, hfeE, hfvE⟩ :=
        merge_sort_list_run k stD (st.brk + 1) (pre ++ [r]) hcutL
          (fun w hw => by
            rw [hbD']
            rcases List.mem_cons.mp hw with c | c
            · omega
            · have := hbx w (hsubL w c); omega)
          (by rw [List.length_append, hprelen]; simp only [List.length_singleton]; omega)
      rw [hvD'] at hlE
      have hnotL : ∀ w, w ∈ head :: post → w ∉ (st.brk + 1) :: (pre ++ [r]) := by
        intro w hw hh
        rcases List.mem_cons.mp hh with c | c
        · rcases List.mem_cons.mp hw with d | d
          · omega
          · have := hbx w (hsubR w d); omega
        · rcases List.mem_cons.mp hw with d | d
          · exact hm (d ▸ hsubL w c)
          · exact hdisjLR w c d
      have hheadE : IsList stE head post :=
        IsList.of_links hcutR
          (fun w hw => (hfrE w (hnotL w hw) (by
            rw [hbD']
            rcases List.mem_cons.mp hw with d | d
            · omega
            · have := hbx w (hsubR w d); omega)).1)
          (fun w hw => (hfrE w (hnotL w hw) (by
            rw [hbD']
            rcases List.mem_cons.mp hw with d | d
            · omega
            · have := hbx w (hsubR w d); omega)).2)
      have hsortedE : IsList stE st.brk [] :=
        IsList.of_links hsortedD
          (fun w hw => by
            simp at hw; subst hw
            exact (hfrE _ (by
              intro hh
              rcases List.mem_cons.mp hh with c | c
              · omega
              · have := hbx _ (hsubL _ c); omega) (by omega)).1)
          (fun w hw => by
            simp at hw; subst hw
            exact (hfrE _ (by
              intro hh
              rcases List.mem_cons.mp hh with c | c
              · omega
              · have := hbx _ (hsubL _ c); omega) (by omega)).2)
      -- second recursive call
      obtain ⟨stF, hF, hlF, hvF, hbF, hfrF, hfeF, hfvF⟩ :=
        merge_sort_list_run k stE head post hheadE
          (fun w hw => by
            rcases List.mem_cons.mp hw with c | c
            · omega
            · have := hbx w (hsubR w c); omega)
          (by rw [hpostlen]; omega)
      rw [hvE, hvD'] at hlF
      have hpermL := sortNodes_perm st.value (pre ++ [r]).length (pre ++ [r]) (le_refl _)
      have hpermR := sortNodes_perm st.value post.length post (le_refl _)
      have hleftF : IsList stF (st.brk + 1) (sortNodes st.value (pre ++ [r])) :=
        IsList.of_links hlE
          (fun w hw => (hfrF w (by
            intro hh
            have hw' : w ∈ (st.brk + 1) :: (pre ++ [r]) := by
              rcases List.mem_cons.mp hw with c | c
              · simp [c]
              · exact List.mem_cons_of_mem _ (hpermL.mem_iff.mp c)
            exact hnotL w hh hw') (by
            rcases List.mem_cons.mp hw with c | c
            · omega
            · have := hbx w (hsubL w (hpermL.mem_iff.mp c)); omega)).1)
          (fun w hw => (hfrF w (by
            intro hh
            have hw' : w ∈ (st.brk + 1) :: (pre ++ [r]) := by
              rcases List.mem_cons.mp hw with c | c
              · simp [c]
              · exact List.mem_cons_of_mem _ (hpermL.mem_iff.mp c)
            exact hnotL w hh hw') (by
            rcases List.mem_cons.mp hw with c | c
            · omega
            · have := hbx w (hsubL w (hpermL.mem_iff.mp c)); omega)).2)
      have hsortedF : IsList stF st.brk [] :=
        IsList.of_links hsortedE
          (fun w hw => by
            simp at hw; subst hw
            exact (hfrF _ (by
              intro hh
              rcases List.mem_cons.mp hh with c | c
              · omega
              · have := hbx _ (hsubR _ c); omega) (by omega)).1)
          (fun w hw => by
            simp at hw; subst hw
            exact (hfrF _ (by
              intro hh
              rcases List.mem_cons.mp hh with c | c
              · omega
              · have := hbx _ (hsubR _ c); omega) (by omega)).2)
      -- the merge
      have hLR : ∀ w, w ∈ (st.brk + 1) :: sortNodes st.value (pre ++ [r]) →
          w ∈ head :: sortNodes st.value post → False := by
        intro w h1 h2
        have h1' : w ∈ (st.brk + 1) :: (pre ++ [r]) := by
          rcases List.mem_cons.mp h1 with c | c
          · simp [c]
          · exact List.mem_cons_of_mem _ (hpermL.mem_iff.mp c)
        have h2' : w ∈ head :: post := by
          rcases List.mem_cons.mp h2 with c | c
          · simp [c]
          · exact List.mem_cons_of_mem _ (hpermR.mem_iff.mp c)
        exact hnotL w h2' h1'
      have hLS : ∀ w, w ∈ (st.brk + 1) :: sortNodes st.value (pre ++ [r]) →
          w ∈ [st.brk] → False := by
        intro w h1 h2
        simp at h2; subst h2
        rcases List.mem_cons.mp h1 with c | c
        · omega
        · have := hbx _ (hsubL _ (hpermL.mem_iff.mp c)); omega
      have hRS : ∀ w, w ∈ head :: sortNodes st.value post → w ∈ [st.brk] → False := by
        intro w h1 h2
        simp at h2; subst h2
        rcases List.mem_cons.mp h1 with c | c
        · omega
        · have := hbx _ (hsubR _ (hpermR.mem_iff.mp c)); omega
      obtain ⟨stG, hG, hlG, hfrG, hvG, hbG, hfeG, hfvG⟩ :=
        merge_run (st.brk + 1) head st.brk (sortNodes st.value (pre ++ [r]))
          (sortNodes st.value post) [] stF (k + 1) hleftF hlF hsortedF hLR hLS hRS
          (by rw [hpermL.length_eq, hpermR.length_eq, List.length_append, hprelen, hpostlen]
              simp only [List.length_singleton]; omega)
      rw [hvF, hvE, hvD', List.nil_append] at hlG
      -- back into the sentinel
      obtain ⟨hheadH, hfrH⟩ := init_head_spec stG head h0
      have hmergedmem : ∀ w, w ∈ mergeNodes st.value (sortNodes st.value (pre ++ [r]))
          (sortNodes st.value post) → w ∈ xs := by
        intro w hw
        have := (mergeNodes_perm st.value _ _).mem_iff.mp hw
        rcases List.mem_append.mp this with c | c
        · exact hsubL w (hpermL.mem_iff.mp c)
        · exact hsubR w (hpermR.mem_iff.mp c)
      have hne_head : ∀ w, w ∈ st.brk :: mergeNodes st.value (sortNodes st.value (pre ++ [r]))
          (sortNodes st.value post) → w ≠ head := by
        intro w hw e
        rcases List.mem_cons.mp hw with c | c
        · omega
        · exact hm (e ▸ hmergedmem w c)
      have hsortedH : IsList (INIT_LIST_HEAD stG head) st.brk
          (mergeNodes st.value (sortNodes st.value (pre ++ [r])) (sortNodes st.value post)) :=
        IsList.of_links hlG (fun w hw => (hfrH w (hne_head w hw)).1)
          (fun w hw => (hfrH w (hne_head w hw)).2)
      obtain ⟨hfinal, hfrI⟩ := isList_splice hsortedH hheadH
        (fun w h1 h2 => by
          simp at h2
          exact hne_head w h1 h2)
      obtain ⟨hvI, hbI, hfeI, hfvI⟩ := splice_fields (INIT_LIST_HEAD stG head) st.brk head
      rw [hstD] at hE
      refine ⟨_, msl_unfold k st head r h0 hflags.1 hflags.2 hsp stE stF stG hE hF hG, ?_,
        ?_, ?_, ?_, ?_, ?_⟩
      · rw [sortNodes_long _ _ hlen, htake, ← hpost]
        simpa using hfinal
      · rw [hvI]
        show stG.value = st.value
        rw [hvG, hvF, hvE, hvD']
      · rw [hbI]
        show st.brk ≤ stG.brk
        rw [hbG]
        omega
      · intro w hw hwb
        have hwh : w ≠ head := fun e => hw (by simp [e])
        have hwx : w ∉ xs := fun hh => hw (List.mem_cons_of_mem _ hh)
        have hwS : w ≠ st.brk := by omega
        have hwL : w ≠ st.brk + 1 := by omega
        have q1 := hfrC w hwb
        have q2 := hfrD w (by
          intro hh
          rcases List.mem_cons.mp hh with c | c
          · exact hwL c
          · rcases List.mem_cons.mp c with d | d
            · exact hwh d
            · exact hwx (by rw [hsplit]; exact d))
        have q3 := hfrE w (by
          intro hh
          rcases List.mem_cons.mp hh with c | c
          · exact hwL c
          · exact hwx (hsubL w c)) (by omega)
        have q4 := hfrF w (by
          intro hh
          rcases List.mem_cons.mp hh with c | c
          · exact hwh c
          · exact hwx (hsubR w c)) (by omega)
        have q5 := hfrG w (by
          intro hh
          rcases List.mem_cons.mp hh with c | c
          · exact hwL c
          · exact hwx (hsubL w (hpermL.mem_iff.mp c))) (by
          intro hh
          rcases List.mem_cons.mp hh with c | c
          · exact hwh c
          · exact hwx (hsubR w (hpermR.mem_iff.mp c))) (by simpa using hwS)
        have q6 := hfrH w hwh
        have q7 := hfrI w (by
          intro hh
          rcases List.mem_cons.mp hh with c | c
          · exact hwS c
          · exact hwx (hmergedmem w c)) (by simpa using hwh)
        exact ⟨q7.1.trans (q6.1.trans (q5.1.trans (q4.1.trans (q3.1.trans (q2.1.trans q1.1))))),
          q7.2.trans (q6.2.trans (q5.2.trans (q4.2.trans (q3.2.trans (q2.2.trans q1.2)))))⟩
      · rw [hfeI]
        show stG.freedEntries = st.freedEntries
        rw [hfeG, hfeF, hfeE, hfeD']
      · rw [hfvI]
        show stG.freedValues = st.freedValues
        rw [hfvG, hfvF, hfvE, hfvD']

/-! ## Merge sort: the results -/

/-- C16: on a well-formed list of any length (its nodes below the allocation
frontier, from which the two local sentinels are taken) `merge_sort_list`
returns and leaves in the same sentinel a well-formed list whose nodes are a
permutation of the input nodes and whose payloads, unchanged, are
non-decreasing under `strcmp`. -/
theorem merge_sort_list_sorts (st : Heap) (head : Nat) (xs : List Nat) (fuel : Nat)
    (h : IsList st head xs) (hb : ∀ x ∈ head :: xs, x < st.brk) (hf : xs.length < fuel) :
    ∃ st' ys, merge_sort_list fuel st head = Outcome.done st' ∧ IsList st' head ys ∧
      traverse st' head fuel = some ys ∧ ys.Perm xs ∧ NonDecreasing (ys.map st'.value) ∧
      st'.value = st.value := by
  obtain ⟨st', hrun, hl, hv, _⟩ := merge_sort_list_run fuel st head xs h hb hf
  have hperm := sortNodes_perm st.value xs.length xs (le_refl _)
  refine ⟨st', sortNodes st.value xs, hrun, hl, traverse_of_isList hl ?_, hperm, ?_, hv⟩
  · rw [hperm.length_eq]; exact hf
  · rw [hv]
    exact sortNodes_nonDecreasing st.value xs.length xs (le_refl _)

/-- C16 at a concrete list: `["c", "a", "d", "b", "a"]` is sorted into
`["a", "a", "b", "c", "d"]`. -/
theorem merge_sort_list_sorts_witness :
    heapContents (merge_sort_list 6 (build [[99], [97], [100], [98], [97]]) 1) 1 6 =
        some [[97], [97], [98], [99], [100]] ∧
      ∃ st' ys, merge_sort_list 6 (build [[99], [97], [100], [98], [97]]) 1 =
          Outcome.done st' ∧
        IsList st' 1 ys ∧ traverse st' 1 6 = some ys ∧ ys.Perm [2, 3, 4, 5, 6] ∧
        NonDecreasing (ys.map st'.value) ∧
        st'.value = (build [[99], [97], [100], [98], [97]]).value :=
  ⟨by decide,
    merge_sort_list_sorts (build [[99], [97], [100], [98], [97]]) 1 [2, 3, 4, 5, 6] 6
      (by decide) (by decide) (by decide)⟩

/-- C19: on a well-formed list whose payloads (without NUL bytes) are already
non-decreasing, `merge_sort_list` returns and leaves the same nodes in the same
order, entries with equal payloads included; and on any such well-formed list,
sorted or not, a second run leaves the order the first run produced. -/
theorem merge_sort_list_keeps_sorted (st : Heap) (head : Nat) (xs : List Nat) (fuel : Nat)
    (h : IsList st head xs) (hb : ∀ x ∈ head :: xs, x < st.brk)
    (hz : ∀ x ∈ xs, 0 ∉ st.value x) (hf : xs.length < fuel) :
    (NonDecreasing (xs.map st.value) →
        ∃ st', merge_sort_list fuel st head = Outcome.done st' ∧ IsList st' head xs ∧
          traverse st' head fuel = some xs ∧ st'.value = st.value) ∧
      ∃ st1 st2 ys, merge_sort_list fuel st head = Outcome.done st1 ∧
        merge_sort_list fuel st1 head = Outcome.done st2 ∧ IsList st1 head ys ∧
        IsList st2 head ys := by
  obtain ⟨st1, hrun, hl, hv, hbrk, _⟩ := merge_sort_list_run fuel st head xs h hb hf
  have hperm := sortNodes_perm st.value xs.length xs (le_refl _)
  constructor
  · intro hs
    have e := sortNodes_of_nonDecreasing st.value xs.length xs (le_refl _) hs hz
    rw [e] at hl
    exact ⟨st1, hrun, hl, traverse_of_isList hl hf, hv⟩
  · have hb1 : ∀ x ∈ head :: sortNodes st.value xs, x < st1.brk := by
      intro x hx
      have hx' : x ∈ head :: xs := by
        rcases List.mem_cons.mp hx with c | c
        · simp [c]
        · exact List.mem_cons_of_mem _ (hperm.mem_iff.mp c)
      have := hb x hx'
      omega
    obtain ⟨st2, hrun2, hl2, _⟩ := merge_sort_list_run fuel st1 head (sortNodes st.value xs) hl
      hb1 (by rw [hperm.length_eq]; exact hf)
    have hsorted : NonDecreasing ((sortNodes st.value xs).map st1.value) := by
      rw [hv]; exact sortNodes_nonDecreasing st.value xs.length xs (le_refl _)
    have hz1 : ∀ x ∈ sortNodes st.value xs, 0 ∉ st1.value x := by
      intro x hx
      rw [hv]
      exact hz x (hperm.mem_iff.mp hx)
    have e := sortNodes_of_nonDecreasing st1.value _ (sortNodes st.value xs)
      (le_refl _) hsorted hz1
    rw [e] at hl2
    exact ⟨st1, st2, sortNodes st.value xs, hrun, hrun2, hl, hl2⟩

/-- C19 at a concrete list: the sorted list `["a", "b", "b", "c"]`. -/
theorem merge_sort_list_keeps_sorted_witness :
    NonDecreasing ([2, 3, 4, 5].map (build [[97], [98], [98], [99]]).value) ∧
      ((NonDecreasing ([2, 3, 4, 5].map (build [[97], [98], [98], [99]]).value) →
        ∃ st', merge_sort_list 5 (build [[97], [98], [98], [99]]) 1 = Outcome.done st' ∧
          IsList st' 1 [2, 3, 4, 5] ∧ traverse st' 1 5 = some [2, 3, 4, 5] ∧
          st'.value = (build [[97], [98], [98], [99]]).value) ∧
      ∃ st1 st2 ys, merge_sort_list 5 (build [[97], [98], [98], [99]]) 1 = Outcome.done st1 ∧
        merge_sort_list 5 st1 1 = Outcome.done st2 ∧ IsList st1 1 ys ∧ IsList st2 1 ys) :=
  ⟨by decide,
    merge_sort_list_keeps_sorted (build [[97], [98], [98], [99]]) 1 [2, 3, 4, 5] 5 (by decide)
      (by decide) (by decide) (by decide)⟩

/-- C17: for two well-formed lists `left` and `right` with non-decreasing
payloads (without NUL bytes on the left) and an empty well-formed output list,
the three sharing no node, `merge` returns and leaves in the output a
non-decreasing sequence holding exactly the nodes of both lists, in which each
list keeps its own order and every left node stands before every right node of
equal payload. -/
theorem merge_is_stable (st : Heap) (a b s : Nat) (as bs : List Nat) (fuel : Nat)
    (ha : IsList st a as) (hb : IsList st b bs) (hs : IsList st s [])
    (hnd : ((a :: as) ++ (b :: bs) ++ [s]).Nodup)
    (hsa : NonDecreasing (as.map st.value)) (hsb : NonDecreasing (bs.map st.value))
    (hz : ∀ x ∈ as, 0 ∉ st.value x) (hf : as.length + bs.length < fuel) :
    ∃ st' out, merge fuel st a b s = Outcome.done st' ∧ IsList st' s out ∧
      st'.value = st.value ∧ out.Perm (as ++ bs) ∧ NonDecreasing (out.map st'.value) ∧
      as.Sublist out ∧ bs.Sublist out ∧
      ∀ x ∈ as, ∀ y ∈ bs, strcmp (st.value x) (st.value y) = 0 → [x, y].Sublist out := by
  obtain ⟨n1, n2, n3⟩ := List.nodup_append.mp hnd
  obtain ⟨_, _, n4⟩ := List.nodup_append.mp n1
  have hab : ∀ w, w ∈ a :: as → w ∈ b :: bs → False := fun w h1 h2 => n4 h1 h2
  have has : ∀ w, w ∈ a :: as → w ∈ [s] → False :=
    fun w h1 h2 => n3 (List.mem_append_left _ h1) h2
  have hbs : ∀ w, w ∈ b :: bs → w ∈ [s] → False :=
    fun w h1 h2 => n3 (List.mem_append_right _ h1) h2
  obtain ⟨st', hrun, hl, _, hv, _⟩ := merge_run a b s as bs [] st fuel ha hb hs hab has hbs hf
  rw [List.nil_append] at hl
  refine ⟨st', mergeNodes st.value as bs, hrun, hl, hv, mergeNodes_perm st.value as bs, ?_,
    (mergeNodes_sublist st.value as bs).1, (mergeNodes_sublist st.value as bs).2, ?_⟩
  · rw [hv]
    exact mergeNodes_nonDecreasing st.value as bs hsa hsb
  · intro x hx y hy hxy
    exact mergeNodes_left_first st.value as bs hsa hz x hx y hy (by omega)

/-- C17 at concrete lists: left `["a", "c"]` (nodes 2, 3) and right `["a",
"b"]` (nodes 5, 6) merge into the nodes 2, 5, 6, 3: the left `"a"` before the
right `"a"`. -/
theorem merge_is_stable_witness :
    heapContents (merge 5 (buildThree [[97], [99]] [[97], [98]]) 1 4 7) 7 5 =
        some [[97], [97], [98], [99]] ∧
      ∃ st' out, merge 5 (buildThree [[97], [99]] [[97], [98]]) 1 4 7 = Outcome.done st' ∧
        IsList st' 7 out ∧ st'.value = (buildThree [[97], [99]] [[97], [98]]).value ∧
        out.Perm ([2, 3] ++ [5, 6]) ∧ NonDecreasing (out.map st'.value) ∧
        [2, 3].Sublist out ∧ [5, 6].Sublist out ∧
        ∀ x ∈ [2, 3], ∀ y ∈ [5, 6],
          strcmp ((buildThree [[97], [99]] [[97], [98]]).value x)
            ((buildThree [[97], [99]] [[97], [98]]).value y) = 0 → [x, y].Sublist out :=
  ⟨by decide,
    merge_is_stable (buildThree [[97], [99]] [[97], [98]]) 1 4 7 [2, 3] [5, 6] 5 (by decide)
      (by decide) (by decide) (by decide) (by decide) (by decide) (by decide) (by decide)⟩

/-- C18: on a well-formed list of `n >= 2` nodes (below the allocation
frontier) the midpoint loop of `merge_sort_list` returns, and the cut at the
node it found, made in the memory with the two initialised local sentinels,
puts the first `(n + 1) / 2` nodes, in order, into `left` and keeps the other
`n / 2`, in order, in the list: both parts are non-empty and shorter than `n`. -/
theorem split_puts_first_half_left (st : Heap) (head : Nat) (xs : List Nat) (fuel : Nat)
    (h : IsList st head xs) (hb : ∀ x ∈ head :: xs, x < st.brk) (hn : 2 ≤ xs.length)
    (hf : xs.length < fuel) :
    ∃ slow, splitLoop st head fuel (st.next head) (st.next head) = Outcome.done slow ∧
      IsList (list_cut_position (INIT_LIST_HEAD (INIT_LIST_HEAD
        { st with brk := st.brk + 2 } st.brk) (st.brk + 1)) (st.brk + 1) head slow)
        (st.brk + 1) (xs.take ((xs.length + 1) / 2)) ∧
      IsList (list_cut_position (INIT_LIST_HEAD (INIT_LIST_HEAD
        { st with brk := st.brk + 2 } st.brk) (st.brk + 1)) (st.brk + 1) head slow)
        head (xs.drop ((xs.length + 1) / 2)) ∧
      (xs.take ((xs.length + 1) / 2)).length = (xs.length + 1) / 2 ∧
      (xs.drop ((xs.length + 1) / 2)).length = xs.length / 2 ∧
      0 < (xs.length + 1) / 2 ∧ (xs.length + 1) / 2 < xs.length ∧
      0 < xs.length / 2 ∧ xs.length / 2 < xs.length := by
  have hm : head ∉ xs := (List.nodup_cons.mp h.2.1).1
  have hne : xs ≠ [] := by
    intro e; rw [e] at hn; simp at hn
  have hpath := Chain.nextPath xs head head h.2.2
  have hidxlt : (xs.length - 1) / 2 < xs.length := by omega
  obtain ⟨r, hsp, hidx⟩ := splitLoop_spec st head xs xs (st.next head) (st.next head) fuel
    hpath hpath hm hm hne hidxlt hf
  have hK : (xs.length + 1) / 2 = (xs.length - 1) / 2 + 1 := by omega
  have hrget : xs[(xs.length - 1) / 2] = r := by
    rw [List.getElem?_eq_getElem hidxlt] at hidx
    exact Option.some.inj hidx
  have htake : xs.take ((xs.length + 1) / 2) = xs.take ((xs.length - 1) / 2) ++ [r] := by
    rw [hK, List.take_succ, hidx]; rfl
  have hsplit : xs = xs.take ((xs.length - 1) / 2) ++ r :: xs.drop ((xs.length + 1) / 2) := by
    rw [hK, ← hrget, ← List.drop_eq_getElem_cons hidxlt, List.take_append_drop]
  have hbrk : st.brk ≠ 0 := by
    have := hb head (by simp)
    omega
  obtain ⟨_, hfrC⟩ := locals_spec st hbrk
  have hl' : IsList st head
      (xs.take ((xs.length - 1) / 2) ++ r :: xs.drop ((xs.length + 1) / 2)) := by
    rw [← hsplit]; exact h
  have hlC : IsList (INIT_LIST_HEAD (INIT_LIST_HEAD { st with brk := st.brk + 2 } st.brk)
      (st.brk + 1)) head
      (xs.take ((xs.length - 1) / 2) ++ r :: xs.drop ((xs.length + 1) / 2)) :=
    IsList.of_links hl' (fun w hw => (hfrC w (hb w (by rw [hsplit]; exact hw))).1)
      (fun w hw => (hfrC w (hb w (by rw [hsplit]; exact hw))).2)
  have hleft : st.brk + 1 ∉
      head :: (xs.take ((xs.length - 1) / 2) ++ r :: xs.drop ((xs.length + 1) / 2)) := by
    intro hh
    have := hb (st.brk + 1) (by rw [hsplit]; exact hh)
    omega
  obtain ⟨hcutL, hcutR, _⟩ := isList_cut hlC (by omega) hleft
  rw [← htake] at hcutL
  refine ⟨r, hsp, hcutL, hcutR, ?_, ?_, by omega, by omega, by omega, by omega⟩
  · rw [List.length_take]; omega
  · rw [List.length_drop]; omega

/-- C18 at a concrete list of five nodes: three go to `left`, two stay. -/
theorem split_puts_first_half_left_witness :
    ∃ slow, splitLoop (build [[1], [2], [3], [4], [5]]) 1 6
        ((build [[1], [2], [3], [4], [5]]).next 1) ((build [[1], [2], [3], [4], [5]]).next 1) =
        Outcome.done slow ∧
      IsList (list_cut_position (INIT_LIST_HEAD (INIT_LIST_HEAD
        { build [[1], [2], [3], [4], [5]] with
          brk := (build [[1], [2], [3], [4], [5]]).brk + 2 }
        (build [[1], [2], [3], [4], [5]]).brk) ((build [[1], [2], [3], [4], [5]]).brk + 1))
        ((build [[1], [2], [3], [4], [5]]).brk + 1) 1 slow)
        ((build [[1], [2], [3], [4], [5]]).brk + 1)
        ([2, 3, 4, 5, 6].take (([2, 3, 4, 5, 6].length + 1) / 2)) ∧
      IsList (list_cut_position (INIT_LIST_HEAD (INIT_LIST_HEAD
        { build [[1], [2], [3], [4], [5]] with
          brk := (build [[1], [2], [3], [4], [5]]).brk + 2 }
        (build [[1], [2], [3], [4], [5]]).brk) ((build [[1], [2], [3], [4], [5]]).brk + 1))
        ((build [[1], [2], [3], [4], [5]]).brk + 1) 1 slow)
        1 ([2, 3, 4, 5, 6].drop (([2, 3, 4, 5, 6].length + 1) / 2)) ∧
      ([2, 3, 4, 5, 6].take (([2, 3, 4, 5, 6].length + 1) / 2)).length =
        ([2, 3, 4, 5, 6].length + 1) / 2 ∧
      ([2, 3, 4, 5, 6].drop (([2, 3, 4, 5, 6].length + 1) / 2)).length =
        [2, 3, 4, 5, 6].length / 2 ∧
      0 < ([2, 3, 4, 5, 6].length + 1) / 2 ∧
      ([2, 3, 4, 5, 6].length + 1) / 2 < [2, 3, 4, 5, 6].length ∧
      0 < [2, 3, 4, 5, 6].length / 2 ∧ [2, 3, 4, 5, 6].length / 2 < [2, 3, 4, 5, 6].length :=
  split_puts_first_half_left (build [[1], [2], [3], [4], [5]]) 1 [2, 3, 4, 5, 6] 6 (by decide)
    (by decide) (by decide) (by decide)

end Queue
